import Mathlib

/-!
# The memray record reader (`src/memray/_memray/record_reader.cpp`)

A shallow embedding of `RecordReader`: the byte source is the list of bytes that
remain to be read, the reader's members are the fields of `Reader`, and every
`parse*` / `process*` member function is a function of the same name.

Conventions.
* A byte is a `Fin 256`; fixed-width integers are read little-endian into `Nat`.
* `size_t` and `uintptr_t` are 64 bits wide (`readVarint` gives up at shift 64).
* What `records.h` declares (the numeric tags of `RecordType`, the split of the
  header byte, the widths of the fixed fields) is not part of the sources, so it is
  a parameter, `Build`; `Build.ndebug` says whether `assert` is compiled out.
* `std::length_error` / `std::bad_alloc` (memory exhaustion) are not modelled, and
  frame-tree indices are not truncated to the width of `index_t`.
* A call ends as an `Outcome`: it returns, throws, fails an `assert`, or runs into
  undefined behaviour (`pop_back()` on an empty vector).
-/

namespace Memray

/-! ## Bytes and the byte source -/

abbrev Byte := Fin 256

/-- The value of a fixed-width field copied byte by byte (little-endian host). -/
def leNat : List Byte → Nat
  | [] => 0
  | b :: bs => b.val + 256 * leNat bs

/-- A two's-complement field of `w` bytes, as `int` reads it. -/
def toSigned (w : Nat) (v : Nat) : Int :=
  if v < 2 ^ (8 * w - 1) then (v : Int) else (v : Int) - 2 ^ (8 * w)

/-- Modelled from the spec: what a signed field of `w` bytes with the value `x` holds on
the wire, as the unsigned number its bytes spell (two's complement). -/
def ofSigned (w : Nat) (x : Int) : Nat := (x % 2 ^ (8 * w)).toNat

/-- Modelled from the spec: the byte source (`source.h` is not among the sources).
`read_exact(buf, n)` is false on a short read, otherwise it delivers the next `n` bytes. -/
def Source.read (n : Nat) (s : List Byte) : Option (List Byte × List Byte) :=
  if n ≤ s.length then some (s.take n, s.drop n) else none

/-- Modelled from the spec: the byte source (`source.h` is not among the sources).
`read_until(delim, out)` consumes through the delimiter and leaves it out of the
result; it is false when the source ends before a delimiter. -/
def Source.getline (delim : Byte) : List Byte → Option (List Byte × List Byte)
  | [] => none
  | b :: rest =>
    if b = delim then some ([], rest)
    else match Source.getline delim rest with
      | none => none
      | some (l, r) => some (b :: l, r)

/-! ## `readVarint` -/

/-- The `while (true)` loop of `readVarint`, one byte per iteration; `val` and `shift`
are the two locals. `size_t` arithmetic is modulo `2 ^ 64`. -/
def readVarintLoop (val shift : Nat) : List Byte → Option (Nat × List Byte)
  | [] => none
  | next :: rest =>
    let val := val ||| (((next.val &&& 0x7f) <<< shift) % 2 ^ 64)
    if next.val &&& 0x80 = 0 then some (val, rest)
    else if shift + 7 ≥ 64 then none
    else readVarintLoop val (shift + 7) rest

def readVarint (s : List Byte) : Option (Nat × List Byte) :=
  readVarintLoop 0 0 s

/-- The number that a sequence of varint bytes spells, lowest group first: the sum of
`(b i AND 0x7f) * 2 ^ (7 * i)`. -/
def varintValue : List Byte → Nat
  | [] => 0
  | b :: bs => (b.val &&& 0x7f) + 128 * varintValue bs

/-! ## What `records.h` declares -/

inductive RecordType
  | UNINITIALIZED
  | ALLOCATION
  | ALLOCATION_WITH_NATIVE
  | FRAME_INDEX
  | FRAME_PUSH
  | NATIVE_TRACE_INDEX
  | MEMORY_MAP_START
  | SEGMENT_HEADER
  | SEGMENT
  | FRAME_POP
  | THREAD_RECORD
  | MEMORY_RECORD
  | CONTEXT_SWITCH
  deriving DecidableEq, Repr

/-- The compile-time facts the reader depends on that the sources do not contain. -/
structure Build where
  /-- numeric value of each `RecordType` enumerator -/
  tag : RecordType → Nat
  /-- width in bits of the `record_type` bit-field of `RecordTypeAndFlags` (low bits) -/
  typeBits : Nat
  /-- `sizeof(frame_id_t)`, which is `sizeof(FramePush)` -/
  sizeof_frame_id : Nat
  /-- `sizeof(FramePop)` -/
  sizeof_FramePop : Nat
  /-- `sizeof(Frame::lineno)` -/
  sizeof_lineno : Nat
  /-- `sizeof(thread_id_t)` -/
  sizeof_thread_id : Nat
  /-- `sizeof(MemoryRecord::ms_since_epoch)` -/
  sizeof_time : Nat
  /-- the bytes of `MAGIC`, all `sizeof(MAGIC)` of them -/
  MAGIC : List Byte
  /-- `CURRENT_HEADER_VERSION`, as the unsigned number its bytes spell -/
  CURRENT_HEADER_VERSION : Nat
  /-- `sizeof(HeaderRecord::version)` -/
  sizeof_version : Nat
  /-- `sizeof(TrackerStats::start_time)`, also that of `end_time` -/
  sizeof_millis : Nat
  /-- `sizeof(HeaderRecord::pid)` -/
  sizeof_pid : Nat
  /-- `sizeof(HeaderRecord::python_allocator)` -/
  sizeof_python_allocator : Nat
  /-- what `header.version` holds after the source ended inside the version field, as a
  function of the bytes that were still there (`readHeader` does not test this read) -/
  staleVersion : List Byte → Nat
  /-- whether `NDEBUG` is defined, so that `assert` expands to nothing -/
  ndebug : Bool
  /-- the largest `n` for which `d_frame_map.reserve(n)` returns; for a larger one it
  throws `std::length_error` or `std::bad_alloc` -/
  max_frames : Nat
  /-- the largest `n` for which the constructor `std::vector<Segment>(n)` returns; for a
  larger one it throws `std::length_error` or `std::bad_alloc` -/
  max_segments : Nat

/-- `sizeof(size_t)` and `sizeof(uintptr_t)`. -/
def sizeof_size_t : Nat := 8

/-- The `record_type` bit-field of a header byte. -/
def Build.typeOf (B : Build) (b : Byte) : Nat := b.val % 2 ^ B.typeBits

/-- The `flags` bit-field of a header byte. -/
def Build.flagsOf (B : Build) (b : Byte) : Nat := b.val / 2 ^ B.typeBits

structure AllocationRecord where
  address : Nat
  size : Nat
  allocator : Nat
  deriving DecidableEq, Repr

structure NativeAllocationRecord where
  address : Nat
  size : Nat
  allocator : Nat
  native_frame_id : Nat
  deriving DecidableEq, Repr

structure Frame where
  function_name : List Byte
  filename : List Byte
  lineno : Int
  deriving DecidableEq, Repr

structure UnresolvedNativeFrame where
  ip : Nat
  index : Nat
  deriving DecidableEq, Repr

structure Segment where
  vaddr : Nat
  memsz : Nat
  deriving DecidableEq, Repr

structure MemoryRecord where
  ms_since_epoch : Nat
  rss : Nat
  deriving DecidableEq, Repr

structure Allocation where
  tid : Nat
  address : Nat
  size : Nat
  allocator : Nat
  native_frame_id : Nat
  frame_index : Nat
  native_segment_generation : Nat
  n_allocations : Nat
  deriving DecidableEq, Repr

structure TrackerStats where
  n_allocations : Nat
  n_frames : Nat
  start_time : Int
  end_time : Int
  deriving DecidableEq, Repr

structure HeaderRecord where
  magic : List Byte
  version : Nat
  native_traces : Bool
  stats : TrackerStats
  command_line : List Byte
  pid : Int
  python_allocator : Nat
  deriving DecidableEq, Repr

/-- The exceptions that leave the constructor: the five `throw std::ios_base::failure(..)`
of `readHeader`, told apart by their message, and what `reserve` throws. -/
inductive HeaderError
  /-- "The provided input file does not look like a binary generated by memray." -/
  | notMemray
  /-- "The provided input file is incompatible with this version of memray." -/
  | incompatible
  /-- "Failed to read input file." -/
  | failedInput
  /-- "Failed to read tPID from input file." -/
  | failedPid
  /-- "Failed to read Python allocator type from input file." -/
  | failedAllocator
  /-- `std::length_error` or `std::bad_alloc`, thrown by `d_frame_map.reserve` -/
  | reserveFailed
  deriving DecidableEq, Repr

/-! ## Collaborators -/

/-- Modelled from the spec: the frame tree (`frame_tree.h` is not among the sources).
A vector of `(parent_index, frame_id)`; index 0 is the root and is not stored, so the
node with index `i + 1` is the entry at position `i`. -/
structure FrameTree where
  nodes : List (Nat × Nat)
  deriving DecidableEq, Repr

/-- The position of the first entry equal to `node`, the length when there is none. -/
def nodePosition (node : Nat × Nat) : List (Nat × Nat) → Nat
  | [] => 0
  | n :: ns => if n = node then 0 else nodePosition node ns + 1

/-- Modelled from the spec: `get_trace_index(parent, frame)` returns the index of the
pair if it was seen before, and otherwise pushes a new entry and returns its index. -/
def FrameTree.getTraceIndex (t : FrameTree) (parent frame_id : Nat) : Nat × FrameTree :=
  if (parent, frame_id) ∈ t.nodes then (nodePosition (parent, frame_id) t.nodes + 1, t)
  else (t.nodes.length + 1, { nodes := t.nodes ++ [(parent, frame_id)] })

/-- Modelled from the spec: `next_node(i)` returns the pair stored for index `i`, as
`(frame_id, parent_index)`; there is none for the root or past the end. -/
def FrameTree.nextNode (t : FrameTree) (index : Nat) : Option (Nat × Nat) :=
  match index with
  | 0 => none
  | i + 1 => (t.nodes.get? i).map (fun n => (n.2, n.1))

inductive ResolverCall
  | clearSegments
  | addSegments (filename : List Byte) (addr : Nat) (segments : List Segment)
  deriving DecidableEq, Repr

/-- Modelled from the spec: the symbol resolver (a collaborator, not among the
sources), as its generation and the calls it has received, oldest first. -/
structure SymbolResolver where
  generation : Nat
  calls : List ResolverCall
  deriving DecidableEq, Repr

/-- Modelled from the spec: `clear_segments` clears the registry and bumps the generation. -/
def SymbolResolver.clearSegments (s : SymbolResolver) : SymbolResolver :=
  { generation := s.generation + 1, calls := s.calls ++ [ResolverCall.clearSegments] }

/-- Modelled from the spec: `add_segments(filename, base, segments)`. -/
def SymbolResolver.addSegments (s : SymbolResolver) (filename : List Byte) (addr : Nat)
    (segments : List Segment) : SymbolResolver :=
  { s with calls := s.calls ++ [ResolverCall.addSegments filename addr segments] }

/-- Modelled from the spec: `current_segment_generation`. -/
def SymbolResolver.currentSegmentGeneration (s : SymbolResolver) : Nat := s.generation

/-! ## Hash maps keyed by an integer -/

/-- The value stored under `k`, if any (`find`). -/
def mapFind {V : Type} (m : List (Nat × V)) (k : Nat) : Option V :=
  match m with
  | [] => none
  | (k1, v) :: rest => if k1 = k then some v else mapFind rest k

/-- Store `v` under `k`, replacing what was there (`m[k] = v`). -/
def mapSet {V : Type} (m : List (Nat × V)) (k : Nat) (v : V) : List (Nat × V) :=
  match m with
  | [] => [(k, v)]
  | (k1, v1) :: rest => if k1 = k then (k, v) :: rest else (k1, v1) :: mapSet rest k v

/-! ## The reader -/

structure Reader where
  d_input : List Byte
  d_header : HeaderRecord
  d_track_stacks : Bool
  d_current_thread : Nat
  d_stack_traces : List (Nat × List Nat)
  d_tree : FrameTree
  d_frame_map : List (Nat × Frame)
  d_native_frames : List UnresolvedNativeFrame
  d_thread_names : List (Nat × List Byte)
  d_latest_allocation : Allocation
  d_latest_memory_record : MemoryRecord
  d_symbol_resolver : SymbolResolver
  deriving DecidableEq, Repr

/-- The stack of thread `tid`; a thread without an entry has the empty stack, which is
what `d_stack_traces[tid]` and `emplace(tid, stack_t())` give. -/
def Reader.stackOf (r : Reader) (tid : Nat) : List Nat :=
  (mapFind r.d_stack_traces tid).getD []

/-- The expression `stack.empty() ? 0 : stack.back()`. -/
def stackTop (stack : List Nat) : Nat := stack.getLast?.getD 0

inductive RecordResult
  | ALLOCATION_RECORD
  | MEMORY_RECORD
  | ERROR
  | END_OF_FILE
  deriving DecidableEq, Repr

/-- How a call of a member function ends. -/
inductive Outcome
  /-- it returned `res`, leaving the reader in state `r` -/
  | returned (res : RecordResult) (r : Reader)
  /-- an exception left the function (the `std::runtime_error` of `processFrameIndex`,
  or the `std::length_error` or `std::bad_alloc` of a vector that cannot be built), the
  reader being in state `r` -/
  | threw (r : Reader)
  /-- an `assert` failed -/
  | aborted
  /-- `pop_back()` on an empty vector: undefined behaviour -/
  | undefined
  deriving DecidableEq, Repr

/-! ## The header -/

/-- The reads of `readHeader` that share the message "Failed to read input file.":
`native_traces` (a `bool`, one byte), `stats` (read in one call; its fields lie one
after the other) and the command line. -/
def parseHeaderFields (B : Build) (s : List Byte) :
    Option ((Bool × TrackerStats × List Byte) × List Byte) := do
  let (native_traces, s) ← Source.read 1 s
  let (n_allocations, s) ← Source.read sizeof_size_t s
  let (n_frames, s) ← Source.read sizeof_size_t s
  let (start_time, s) ← Source.read B.sizeof_millis s
  let (end_time, s) ← Source.read B.sizeof_millis s
  let (command_line, s) ← Source.getline 0 s
  pure ((decide (leNat native_traces ≠ 0),
         { n_allocations := leNat n_allocations, n_frames := leNat n_frames,
           start_time := toSigned B.sizeof_millis (leNat start_time),
           end_time := toSigned B.sizeof_millis (leNat end_time) },
         command_line), s)

/-- `RecordReader::readHeader`: the header and the source after it, or the exception
thrown. The read of `version` is not tested; when it fails the source is at its end
and `version` is `B.staleVersion`. -/
def readHeader (B : Build) (s : List Byte) : Except HeaderError (HeaderRecord × List Byte) :=
  match Source.read B.MAGIC.length s with
  | none => .error .notMemray
  | some (magic, s1) =>
    if magic ≠ B.MAGIC then .error .notMemray
    else
      let (version, s2) :=
        match Source.read B.sizeof_version s1 with
        | none => (B.staleVersion s1, [])
        | some (v, s2) => (leNat v, s2)
      if version ≠ B.CURRENT_HEADER_VERSION then .error .incompatible
      else
        match parseHeaderFields B s2 with
        | none => .error .failedInput
        | some ((native_traces, stats, command_line), s3) =>
          match Source.read B.sizeof_pid s3 with
          | none => .error .failedPid
          | some (pid, s4) =>
            match Source.read B.sizeof_python_allocator s4 with
            | none => .error .failedAllocator
            | some (python_allocator, s5) =>
              .ok ({ magic := magic, version := version, native_traces := native_traces,
                     stats := stats, command_line := command_line,
                     pid := toSigned B.sizeof_pid (leNat pid),
                     python_allocator := leNat python_allocator }, s5)

/-- The constructor `RecordReader::RecordReader(source, track_stacks)`: the reader, or
the exception that left it, thrown by `readHeader` or, with stack tracking enabled, by
`d_frame_map.reserve(stats.n_frames)` for an `n_frames` beyond what can be reserved
(the reserves of a fixed size, 16, 4096 and 2048, are taken to succeed). The containers
start empty (`reserve` does not change what they hold); the members declared in
`record_reader.h`, which is not among the sources, start as zero. -/
def RecordReader.new (B : Build) (source : List Byte) (track_stacks : Bool) :
    Except HeaderError Reader :=
  match readHeader B source with
  | .error e => .error e
  | .ok (header, s) =>
    if track_stacks && decide (B.max_frames < header.stats.n_frames) then
      .error .reserveFailed
    else
    .ok { d_input := s
          d_header := header
          d_track_stacks := track_stacks
          d_current_thread := 0
          d_stack_traces := []
          d_tree := { nodes := [] }
          d_frame_map := []
          d_native_frames := []
          d_thread_names := []
          d_latest_allocation :=
            { tid := 0, address := 0, size := 0, allocator := 0, native_frame_id := 0,
              frame_index := 0, native_segment_generation := 0, n_allocations := 0 }
          d_latest_memory_record := { ms_since_epoch := 0, rss := 0 }
          d_symbol_resolver := { generation := 0, calls := [] } }

/-- `RecordReader::getHeader`. -/
def getHeader (r : Reader) : HeaderRecord := r.d_header

/-- `RecordReader::getThreadName`. -/
def getThreadName (r : Reader) (tid : Nat) : List Byte :=
  match mapFind r.d_thread_names tid with
  | some name => name
  | none => []

/-! ## Parsing and processing one record -/

def parseFramePush (B : Build) (s : List Byte) : Option (Nat × List Byte) := do
  let (frame_id, s) ← Source.read B.sizeof_frame_id s
  pure (leNat frame_id, s)

/-- Returns `true` on every path. -/
def processFramePush (frame_id : Nat) (r : Reader) : Reader :=
  if !r.d_track_stacks then r
  else
    let tid := r.d_current_thread
    let stack := r.stackOf tid
    let current_stack_id := stackTop stack
    let (new_stack_id, tree) := r.d_tree.getTraceIndex current_stack_id frame_id
    { r with d_tree := tree, d_stack_traces := mapSet r.d_stack_traces tid (stack ++ [new_stack_id]) }

def parseFramePop (B : Build) (s : List Byte) : Option (Nat × List Byte) := do
  let (count, s) ← Source.read B.sizeof_FramePop s
  pure (leNat count, s)

/-- The loop `while (count) { --count; d_stack_traces[tid].pop_back(); }`; `none` is
`pop_back()` on an empty vector. -/
def popLoop (tid : Nat) : Nat → List (Nat × List Nat) → Option (List (Nat × List Nat))
  | 0, traces => some traces
  | count + 1, traces =>
    match (mapFind traces tid).getD [] with
    | [] => none
    | x :: stack => popLoop tid count (mapSet traces tid (x :: stack).dropLast)

/-- When it returns, it returns `true`. -/
def processFramePop (B : Build) (count : Nat) (r : Reader) : Except Outcome Reader :=
  if !r.d_track_stacks then .ok r
  else
    let tid := r.d_current_thread
    if !B.ndebug && r.stackOf tid = [] then .error Outcome.aborted
    else match popLoop tid count r.d_stack_traces with
      | none => .error Outcome.undefined
      | some traces => .ok { r with d_stack_traces := traces }

def parseFrameIndex (B : Build) (s : List Byte) : Option ((Nat × Frame) × List Byte) := do
  let (first, s) ← Source.read B.sizeof_frame_id s
  let (function_name, s) ← Source.getline 0 s
  let (filename, s) ← Source.getline 0 s
  let (lineno, s) ← Source.read B.sizeof_lineno s
  pure ((leNat first, { function_name := function_name, filename := filename,
                        lineno := toSigned B.sizeof_lineno (leNat lineno) }), s)

/-- `d_frame_map.insert` leaves the map alone when the key is present, and then the
function throws. When it returns, it returns `true`. -/
def processFrameIndex (pyframe_val : Nat × Frame) (r : Reader) : Except Outcome Reader :=
  if !r.d_track_stacks then .ok r
  else match mapFind r.d_frame_map pyframe_val.1 with
    | some _ => .error (Outcome.threw r)
    | none => .ok { r with d_frame_map := mapSet r.d_frame_map pyframe_val.1 pyframe_val.2 }

def parseNativeFrameIndex (s : List Byte) : Option (UnresolvedNativeFrame × List Byte) := do
  let (ip, s) ← Source.read sizeof_size_t s
  let (index, s) ← readVarint s
  pure ({ ip := leNat ip, index := index }, s)

/-- Returns `true` on every path. -/
def processNativeFrameIndex (frame : UnresolvedNativeFrame) (r : Reader) : Reader :=
  if !r.d_track_stacks then r
  else { r with d_native_frames := r.d_native_frames ++ [frame] }

def parseAllocationRecord (flags : Nat) (s : List Byte) : Option (AllocationRecord × List Byte) := do
  let (address, s) ← Source.read sizeof_size_t s
  let (size, s) ← readVarint s
  pure ({ address := leNat address, size := size, allocator := flags }, s)

/-- The map of stacks after `d_stack_traces[tid]` was evaluated: `operator[]` creates
an empty stack for a thread that has none. -/
def touchStack (r : Reader) (tid : Nat) : List (Nat × List Nat) :=
  if r.d_track_stacks then mapSet r.d_stack_traces tid (r.stackOf tid) else r.d_stack_traces

/-- Returns `true` on every path. -/
def processAllocationRecord (record : AllocationRecord) (r : Reader) : Reader :=
  { r with d_stack_traces := touchStack r r.d_current_thread, d_latest_allocation :=
      { tid := r.d_current_thread
        address := record.address
        size := record.size
        allocator := record.allocator
        native_frame_id := 0
        frame_index := if r.d_track_stacks then stackTop (r.stackOf r.d_current_thread) else 0
        native_segment_generation := 0
        n_allocations := 1 } }

def parseNativeAllocationRecord (flags : Nat) (s : List Byte) :
    Option (NativeAllocationRecord × List Byte) := do
  let (address, s) ← Source.read sizeof_size_t s
  let (size, s) ← readVarint s
  let (native_frame_id, s) ← readVarint s
  pure ({ address := leNat address, size := size, allocator := flags,
          native_frame_id := native_frame_id }, s)

/-- Returns `true` on every path. -/
def processNativeAllocationRecord (record : NativeAllocationRecord) (r : Reader) : Reader :=
  { r with d_stack_traces := touchStack r r.d_current_thread, d_latest_allocation :=
      { tid := r.d_current_thread
        address := record.address
        size := record.size
        allocator := record.allocator
        native_frame_id := if r.d_track_stacks then record.native_frame_id else 0
        frame_index := if r.d_track_stacks then stackTop (r.stackOf r.d_current_thread) else 0
        native_segment_generation :=
          if r.d_track_stacks then r.d_symbol_resolver.currentSegmentGeneration else 0
        n_allocations := 1 } }

/-- Has no body to read; returns `true`. -/
def processMemoryMapStart (r : Reader) : Reader :=
  { r with d_symbol_resolver := r.d_symbol_resolver.clearSegments }

def parseSegmentHeader (s : List Byte) : Option ((List Byte × Nat × Nat) × List Byte) := do
  let (filename, s) ← Source.getline 0 s
  let (num_segments, s) ← Source.read sizeof_size_t s
  let (addr, s) ← Source.read sizeof_size_t s
  pure ((filename, leNat num_segments, leNat addr), s)

def parseSegment (s : List Byte) : Option (Segment × List Byte) := do
  let (vaddr, s) ← Source.read sizeof_size_t s
  let (memsz, s) ← Source.read sizeof_size_t s
  pure ({ vaddr := leNat vaddr, memsz := leNat memsz }, s)

/-- The `for` loop of `processSegmentHeader` with `n` iterations to go: `segments` is
the vector so far and `s` the source. The result is the vector after the loop, or
`none` where the loop does `return false`, and the source as the loop leaves it (a
short read leaves the source at its end). `record_type` is a `RecordType`, read as one
byte and compared as a whole with `RecordType::SEGMENT`. `emplace_back` is taken to
succeed: it adds one element for a `SEGMENT` record that was read. -/
def segmentLoop (B : Build) (track : Bool) :
    Nat → List Segment → List Byte → Option (List Segment) × List Byte
  | 0, segments, s => (some segments, s)
  | n + 1, segments, s =>
    match Source.read 1 s with
    | none => (none, [])
    | some (record_type, s1) =>
      if leNat record_type ≠ B.tag RecordType.SEGMENT then (none, s1)
      else match parseSegment s1 with
        | none => (none, [])
        | some (segment, s2) =>
          segmentLoop B track n (if track then segments ++ [segment] else segments) s2

/-- The result is the `bool` the function returns and the reader it leaves, or the
exception thrown by `std::vector<Segment> segments(num_segments)`, before anything is
read, when `num_segments` is more than a vector can hold. -/
def processSegmentHeader (B : Build) (filename : List Byte) (num_segments addr : Nat)
    (r : Reader) : Except Outcome (Bool × Reader) :=
  if B.max_segments < num_segments then .error (Outcome.threw r)
  else
    let segments := List.replicate num_segments ({ vaddr := 0, memsz := 0 } : Segment)
    match segmentLoop B r.d_track_stacks num_segments segments r.d_input with
    | (none, s) => .ok (false, { r with d_input := s })
    | (some segments, s) =>
      if r.d_track_stacks then
        .ok (true, { r with d_input := s,
                            d_symbol_resolver :=
                              r.d_symbol_resolver.addSegments filename addr segments })
      else .ok (true, { r with d_input := s })

def parseThreadRecord (s : List Byte) : Option (List Byte × List Byte) :=
  Source.getline 0 s

/-- Returns `true` on every path. -/
def processThreadRecord (name : List Byte) (r : Reader) : Reader :=
  { r with d_thread_names := mapSet r.d_thread_names r.d_current_thread name }

def parseMemoryRecord (B : Build) (s : List Byte) : Option (MemoryRecord × List Byte) := do
  let (ms_since_epoch, s) ← Source.read B.sizeof_time s
  let (rss, s) ← Source.read sizeof_size_t s
  pure ({ ms_since_epoch := leNat ms_since_epoch, rss := leNat rss }, s)

/-- Returns `true` on every path. -/
def processMemoryRecord (record : MemoryRecord) (r : Reader) : Reader :=
  { r with d_latest_memory_record := record }

def parseContextSwitch (B : Build) (s : List Byte) : Option (Nat × List Byte) := do
  let (tid, s) ← Source.read B.sizeof_thread_id s
  pure (leNat tid, s)

/-- Returns `true` on every path. -/
def processContextSwitch (tid : Nat) (r : Reader) : Reader :=
  { r with d_current_thread := tid }

/-- The value a call returned, if it returned. -/
def Outcome.result? : Outcome → Option RecordResult
  | .returned res _ => some res
  | _ => none

/-- The reader a call left behind, if it returned or threw. -/
def Outcome.reader? : Outcome → Option Reader
  | .returned _ r => some r
  | .threw r => some r
  | _ => none

/-! ## `nextRecord` -/

/-- How one iteration of the `while (true)` loop of `nextRecord` ends. -/
inductive Iteration
  /-- `break` out of the `switch`: the loop goes round again -/
  | again (r : Reader)
  /-- the call of `nextRecord` is over -/
  | done (o : Outcome)
  deriving DecidableEq, Repr

/-- The reader after a `parse*` function failed on a short read or a missing NUL, which
leaves the source at its end. -/
def Reader.drained (r : Reader) : Reader := { r with d_input := [] }

/-- The source as `readVarint` leaves it when it returns false on `s`: at its end after
a short read, ten bytes on after ten continuation bytes. -/
def afterVarint (s : List Byte) : List Byte :=
  if 10 ≤ s.length then s.drop 10 else []

/-- The source as `parseAllocationRecord` and `parseNativeFrameIndex` leave it when they
fail: a word, then a varint. -/
def afterWordVarint (s : List Byte) : List Byte :=
  match Source.read sizeof_size_t s with
  | none => []
  | some (_, s1) => afterVarint s1

/-- The source as `parseNativeAllocationRecord` leaves it when it fails: a word, then
two varints. -/
def afterWordVarintVarint (s : List Byte) : List Byte :=
  match Source.read sizeof_size_t s with
  | none => []
  | some (_, s1) =>
    match readVarint s1 with
    | none => afterVarint s1
    | some (_, s2) => afterVarint s2

/-- One iteration of the loop of `nextRecord`: read the header byte and `switch` on its
record type, the cases in the order of the source. -/
def iteration (B : Build) (r : Reader) : Iteration :=
  match r.d_input with
  | [] => .done (.returned .END_OF_FILE r)
  | hdr :: rest =>
    let r := { r with d_input := rest }
    let record_type := B.typeOf hdr
    let flags := B.flagsOf hdr
    if record_type = B.tag .UNINITIALIZED then .again r
    else if record_type = B.tag .ALLOCATION then
      match parseAllocationRecord flags rest with
      | none => .done (.returned .ERROR { r with d_input := afterWordVarint rest })
      | some (record, s) =>
        .done (.returned .ALLOCATION_RECORD (processAllocationRecord record { r with d_input := s }))
    else if record_type = B.tag .ALLOCATION_WITH_NATIVE then
      match parseNativeAllocationRecord flags rest with
      | none => .done (.returned .ERROR { r with d_input := afterWordVarintVarint rest })
      | some (record, s) =>
        .done (.returned .ALLOCATION_RECORD
          (processNativeAllocationRecord record { r with d_input := s }))
    else if record_type = B.tag .MEMORY_RECORD then
      match parseMemoryRecord B rest with
      | none => .done (.returned .ERROR r.drained)
      | some (record, s) =>
        .done (.returned .MEMORY_RECORD (processMemoryRecord record { r with d_input := s }))
    else if record_type = B.tag .CONTEXT_SWITCH then
      match parseContextSwitch B rest with
      | none => .done (.returned .ERROR r.drained)
      | some (tid, s) => .again (processContextSwitch tid { r with d_input := s })
    else if record_type = B.tag .FRAME_PUSH then
      match parseFramePush B rest with
      | none => .done (.returned .ERROR r.drained)
      | some (frame_id, s) => .again (processFramePush frame_id { r with d_input := s })
    else if record_type = B.tag .FRAME_POP then
      match parseFramePop B rest with
      | none => .done (.returned .ERROR r.drained)
      | some (count, s) =>
        match processFramePop B count { r with d_input := s } with
        | .ok r1 => .again r1
        | .error o => .done o
    else if record_type = B.tag .FRAME_INDEX then
      match parseFrameIndex B rest with
      | none => .done (.returned .ERROR r.drained)
      | some (record, s) =>
        match processFrameIndex record { r with d_input := s } with
        | .ok r1 => .again r1
        | .error o => .done o
    else if record_type = B.tag .NATIVE_TRACE_INDEX then
      match parseNativeFrameIndex rest with
      | none => .done (.returned .ERROR { r with d_input := afterWordVarint rest })
      | some (record, s) => .again (processNativeFrameIndex record { r with d_input := s })
    else if record_type = B.tag .MEMORY_MAP_START then
      .again (processMemoryMapStart r)
    else if record_type = B.tag .SEGMENT_HEADER then
      match parseSegmentHeader rest with
      | none => .done (.returned .ERROR r.drained)
      | some ((filename, num_segments, addr), s) =>
        match processSegmentHeader B filename num_segments addr { r with d_input := s } with
        | .ok (true, r1) => .again r1
        | .ok (false, r1) => .done (.returned .ERROR r1)
        | .error o => .done o
    else if record_type = B.tag .THREAD_RECORD then
      match parseThreadRecord rest with
      | none => .done (.returned .ERROR r.drained)
      | some (name, s) => .again (processThreadRecord name { r with d_input := s })
    else .done (.returned .ERROR r)

/-- The loop of `nextRecord`, bounded by `fuel` iterations. -/
def nextRecordLoop (B : Build) : Nat → Reader → Outcome
  | 0, r => .returned .ERROR r
  | fuel + 1, r =>
    match iteration B r with
    | .again r1 => nextRecordLoop B fuel r1
    | .done o => o

/-- `RecordReader::nextRecord`. Every iteration that goes round again has consumed the
header byte it read, so one more iteration than there are bytes left is enough for the
loop to end (`nextRecordLoop_fuel`). -/
def nextRecord (B : Build) (r : Reader) : Outcome :=
  nextRecordLoop B (r.d_input.length + 1) r

/-- The reader after `n` iterations of the loop of `nextRecord` that all went round
again, each having read and processed one complete record. -/
def silentRun (B : Build) : Nat → Reader → Option Reader
  | 0, r => some r
  | n + 1, r =>
    match iteration B r with
    | .again r1 => silentRun B n r1
    | .done _ => none

/-! ## Queries -/

/-- The `while` loop of `Py_GetStackFrame`, as the list it appends to; `remaining` is
`max_stacks - stacks_obtained`. `none`: `nextNode` was asked for an index it does not
hold, or `d_frame_map.at` threw `std::out_of_range`. -/
def stackFrameLoop (r : Reader) : Nat → Nat → Option (List Frame)
  | _, 0 => some []
  | 0, _ + 1 => some []
  | remaining + 1, current_index + 1 =>
    match r.d_tree.nextNode (current_index + 1) with
    | none => none
    | some (frame_id, next_index) =>
      match mapFind r.d_frame_map frame_id with
      | none => none
      | some frame =>
        match stackFrameLoop r remaining next_index with
        | none => none
        | some frames => some (frame :: frames)

/-- `RecordReader::Py_GetStackFrame`: the frames of the returned list, or `none` when
an error is returned (always so when stack tracking is disabled). -/
def Py_GetStackFrame (r : Reader) (index max_stacks : Nat) : Option (List Frame) :=
  if !r.d_track_stacks then none else stackFrameLoop r max_stacks index

/-! ## The wire format, as the writer produces it -/

/-- Modelled from the spec: a fixed-width integer field of `w` bytes on the wire (§6,
little-endian); the writer is not among the sources. -/
def leBytes : Nat → Nat → List Byte
  | 0, _ => []
  | w + 1, v => ⟨v % 256, Nat.mod_lt _ (by decide)⟩ :: leBytes w (v / 256)

/-- Modelled from the spec: unsigned LEB128 (§6), seven payload bits per byte, the
high bit marks continuation; `more` bounds the number of continuation bytes. -/
def encodeVarintAux : Nat → Nat → List Byte
  | 0, v => [⟨v % 128, by omega⟩]
  | more + 1, v =>
    if v < 128 then [⟨v % 128, by omega⟩]
    else ⟨128 + v % 128, by omega⟩ :: encodeVarintAux more (v / 128)

/-- Modelled from the spec: the unsigned LEB128 encoding of a 64-bit value, at most
ten bytes. -/
def encodeVarint (v : Nat) : List Byte := encodeVarintAux 9 v

/-- Modelled from the spec: a NUL-terminated string on the wire (§6). -/
def cstring (name : List Byte) : List Byte := name ++ [0]

/-- Modelled from the spec: the header byte of a record, type in the low bits and
flags in the high bits (§6). -/
def Build.header (B : Build) (t : RecordType) (flags : Nat) : Byte :=
  ⟨(B.tag t + flags * 2 ^ B.typeBits) % 256, Nat.mod_lt _ (by decide)⟩

/-- Modelled from the spec: the records of the body (§6). A segment group is the
`SEGMENT_HEADER` record together with the `SEGMENT` records that follow it;
`lineno` is the field as an unsigned number. -/
inductive Record
  | padding
  | allocation (flags address size : Nat)
  | allocationWithNative (flags address size native_frame_id : Nat)
  | framePush (frame_id : Nat)
  | framePop (count : Nat)
  | frameIndex (frame_id : Nat) (function_name filename : List Byte) (lineno : Nat)
  | nativeTraceIndex (ip index : Nat)
  | memoryMapStart
  | segmentGroup (filename : List Byte) (base : Nat) (segments : List Segment)
  | threadRecord (name : List Byte)
  | memoryRecord (ms_since_epoch rss : Nat)
  | contextSwitch (tid : Nat)
  deriving DecidableEq, Repr

/-- Modelled from the spec: one `SEGMENT` record on the wire (§6). -/
def Build.encodeSegment (B : Build) (seg : Segment) : List Byte :=
  B.header .SEGMENT 0 :: (leBytes sizeof_size_t seg.vaddr ++ leBytes sizeof_size_t seg.memsz)

/-- Modelled from the spec: the `SEGMENT` records of a group, one after the other. -/
def Build.encodeSegments (B : Build) : List Segment → List Byte
  | [] => []
  | seg :: segs => B.encodeSegment seg ++ B.encodeSegments segs

/-- Modelled from the spec: the bytes of a record after its header byte (§6). -/
def Build.encodeFields (B : Build) : Record → List Byte
  | .padding => []
  | .allocation _ address size => leBytes sizeof_size_t address ++ encodeVarint size
  | .allocationWithNative _ address size native_frame_id =>
    leBytes sizeof_size_t address ++ (encodeVarint size ++ encodeVarint native_frame_id)
  | .framePush frame_id => leBytes B.sizeof_frame_id frame_id
  | .framePop count => leBytes B.sizeof_FramePop count
  | .frameIndex frame_id function_name filename lineno =>
    leBytes B.sizeof_frame_id frame_id ++
      (cstring function_name ++ (cstring filename ++ leBytes B.sizeof_lineno lineno))
  | .nativeTraceIndex ip index => leBytes sizeof_size_t ip ++ encodeVarint index
  | .memoryMapStart => []
  | .segmentGroup filename base segments =>
    cstring filename ++ (leBytes sizeof_size_t segments.length ++
      (leBytes sizeof_size_t base ++ B.encodeSegments segments))
  | .threadRecord name => cstring name
  | .memoryRecord ms_since_epoch rss =>
    leBytes B.sizeof_time ms_since_epoch ++ leBytes sizeof_size_t rss
  | .contextSwitch tid => leBytes B.sizeof_thread_id tid

/-- Modelled from the spec: the header byte of a record (§6); only allocation records
carry flags, the allocator. -/
def Build.headerOf (B : Build) : Record → Byte
  | .padding => B.header .UNINITIALIZED 0
  | .allocation flags _ _ => B.header .ALLOCATION flags
  | .allocationWithNative flags _ _ _ => B.header .ALLOCATION_WITH_NATIVE flags
  | .framePush _ => B.header .FRAME_PUSH 0
  | .framePop _ => B.header .FRAME_POP 0
  | .frameIndex _ _ _ _ => B.header .FRAME_INDEX 0
  | .nativeTraceIndex _ _ => B.header .NATIVE_TRACE_INDEX 0
  | .memoryMapStart => B.header .MEMORY_MAP_START 0
  | .segmentGroup _ _ _ => B.header .SEGMENT_HEADER 0
  | .threadRecord _ => B.header .THREAD_RECORD 0
  | .memoryRecord _ _ => B.header .MEMORY_RECORD 0
  | .contextSwitch _ => B.header .CONTEXT_SWITCH 0

/-- Modelled from the spec: a record on the wire (§6). -/
def Build.encode (B : Build) (rec : Record) : List Byte :=
  B.headerOf rec :: B.encodeFields rec

/-- Modelled from the spec: a body is its records one after the other (§6). -/
def Build.encodeBody (B : Build) : List Record → List Byte
  | [] => []
  | rec :: recs => B.encode rec ++ B.encodeBody recs

/-- A build in which the wire format can be written: the tags are distinct, fit the
`record_type` bit-field, and the header is one byte. -/
def Build.WF (B : Build) : Prop :=
  Function.Injective B.tag ∧ (∀ t, B.tag t < 2 ^ B.typeBits) ∧ B.typeBits ≤ 8

/-- Every field of the record fits its width on the wire, no string contains a NUL,
the flags fit the header byte, and a segment group has no more segments than a vector
can hold: the record can be written, is complete, and can be read. -/
def Record.WF (B : Build) : Record → Prop
  | .padding => True
  | .allocation flags address size =>
    flags * 2 ^ B.typeBits < 256 ∧ address < 2 ^ 64 ∧ size < 2 ^ 64
  | .allocationWithNative flags address size native_frame_id =>
    flags * 2 ^ B.typeBits < 256 ∧ address < 2 ^ 64 ∧ size < 2 ^ 64 ∧ native_frame_id < 2 ^ 64
  | .framePush frame_id => frame_id < 256 ^ B.sizeof_frame_id
  | .framePop count => count < 256 ^ B.sizeof_FramePop
  | .frameIndex frame_id function_name filename lineno =>
    frame_id < 256 ^ B.sizeof_frame_id ∧ (0 : Byte) ∉ function_name ∧ (0 : Byte) ∉ filename ∧
      lineno < 256 ^ B.sizeof_lineno
  | .nativeTraceIndex ip index => ip < 2 ^ 64 ∧ index < 2 ^ 64
  | .memoryMapStart => True
  | .segmentGroup filename base segments =>
    (0 : Byte) ∉ filename ∧ base < 2 ^ 64 ∧ segments.length < 2 ^ 64 ∧
      (∀ seg ∈ segments, seg.vaddr < 2 ^ 64 ∧ seg.memsz < 2 ^ 64) ∧
      segments.length ≤ B.max_segments
  | .threadRecord name => (0 : Byte) ∉ name
  | .memoryRecord ms_since_epoch rss => ms_since_epoch < 256 ^ B.sizeof_time ∧ rss < 2 ^ 64
  | .contextSwitch tid => tid < 256 ^ B.sizeof_thread_id

/-- The frame ids that the `FRAME_INDEX` records of a body define, in stream order. -/
def frameIds : List Record → List Nat
  | [] => []
  | .frameIndex frame_id _ _ _ :: rest => frame_id :: frameIds rest
  | _ :: rest => frameIds rest

/-- No `FRAME_POP` of the body asks for more frames than the stack of the thread that
is current when it is read holds and, where `assert` is compiled in, none finds that
stack empty. `cur` is the current thread and `depth` the depth of each thread's stack
before the body. -/
def popsOK (B : Build) : Nat → (Nat → Nat) → List Record → Prop
  | _, _, [] => True
  | cur, depth, .framePush _ :: rest =>
    popsOK B cur (Function.update depth cur (depth cur + 1)) rest
  | cur, depth, .framePop count :: rest =>
    count ≤ depth cur ∧ (B.ndebug = false → 0 < depth cur) ∧
      popsOK B cur (Function.update depth cur (depth cur - count)) rest
  | _, depth, .contextSwitch tid :: rest => popsOK B tid depth rest
  | cur, depth, _ :: rest => popsOK B cur depth rest

/-- What `nextRecord` reports for a record: only allocations and memory records are
reported. -/
def report : Record → Option RecordResult
  | .allocation _ _ _ => some .ALLOCATION_RECORD
  | .allocationWithNative _ _ _ _ => some .ALLOCATION_RECORD
  | .memoryRecord _ _ => some .MEMORY_RECORD
  | _ => none

/-- The results of `n` successive calls of `nextRecord`, as long as the calls return. -/
def calls (B : Build) : Nat → Reader → List RecordResult
  | 0, _ => []
  | n + 1, r =>
    match nextRecord B r with
    | .returned res r1 => res :: calls B n r1
    | _ => []

/-- The zero-initialised `Segment` that `std::vector<Segment> segments(n)` holds `n` of. -/
def zeroSegment : Segment := { vaddr := 0, memsz := 0 }

/-- What the reader does with a record once its bytes are read: `r` is the reader with
the source already past the record. Written with the `process*` functions, so that
`iteration` on the bytes of a record can be compared with it (`iteration_encode`). -/
def Build.apply (B : Build) (rec : Record) (r : Reader) : Iteration :=
  match rec with
  | .padding => .again r
  | .allocation flags address size =>
    .done (.returned .ALLOCATION_RECORD
      (processAllocationRecord { address := address, size := size, allocator := flags } r))
  | .allocationWithNative flags address size native_frame_id =>
    .done (.returned .ALLOCATION_RECORD
      (processNativeAllocationRecord
        { address := address, size := size, allocator := flags,
          native_frame_id := native_frame_id } r))
  | .framePush frame_id => .again (processFramePush frame_id r)
  | .framePop count =>
    match processFramePop B count r with
    | .ok r1 => .again r1
    | .error o => .done o
  | .frameIndex frame_id function_name filename lineno =>
    let frame : Frame := { function_name := function_name, filename := filename,
                           lineno := toSigned B.sizeof_lineno lineno }
    match processFrameIndex (frame_id, frame) r with
    | .ok r1 => .again r1
    | .error o => .done o
  | .nativeTraceIndex ip index => .again (processNativeFrameIndex { ip := ip, index := index } r)
  | .memoryMapStart => .again (processMemoryMapStart r)
  | .segmentGroup filename base segments =>
    let all := List.replicate segments.length zeroSegment ++ segments
    if r.d_track_stacks then
      .again { r with d_symbol_resolver := r.d_symbol_resolver.addSegments filename base all }
    else .again r
  | .threadRecord name => .again (processThreadRecord name r)
  | .memoryRecord ms_since_epoch rss =>
    .done (.returned .MEMORY_RECORD
      (processMemoryRecord { ms_since_epoch := ms_since_epoch, rss := rss } r))
  | .contextSwitch tid => .again (processContextSwitch tid r)

/-- A parser that, when it succeeds, has read a front part of the source and nothing
of what follows it. -/
def Consumes {α : Type} (p : List Byte → Option (α × List Byte)) : Prop :=
  ∀ s v t, p s = some (v, t) → ∃ c, s = c ++ t ∧ ∀ t1, p (c ++ t1) = some (v, t1)

/-- The list `ids` holds every frame id of the reader's frame dictionary and `depth`
gives the depth of every thread's stack. -/
def Tracks (r : Reader) (ids : List Nat) (depth : Nat → Nat) : Prop :=
  (∀ id, mapFind r.d_frame_map id ≠ none → id ∈ ids) ∧ ∀ t, depth t = (r.stackOf t).length

/-- A stack motion record, as `processFramePush` and `processFramePop` receive it. -/
inductive StackOp
  | push (frame_id : Nat)
  | pop (count : Nat)
  deriving DecidableEq, Repr

/-- The reader after a sequence of `FRAME_PUSH` / `FRAME_POP` records was processed in
order on the current thread, or how the processing ended otherwise. -/
def applyOps (B : Build) : List StackOp → Reader → Except Outcome Reader
  | [], r => .ok r
  | .push frame_id :: ops, r => applyOps B ops (processFramePush frame_id r)
  | .pop count :: ops, r =>
    match processFramePop B count r with
    | .ok r1 => applyOps B ops r1
    | .error o => .error o

/-- Matched counts: with `d` frames pushed earlier in the sequence and still on the
stack, every pop removes only such frames, and in the end none of them is left, so the
pop counts sum to the number of pushes. -/
def matched : Nat → List StackOp → Prop
  | d, [] => d = 0
  | d, .push _ :: ops => matched (d + 1) ops
  | d, .pop count :: ops => count ≤ d ∧ matched (d - count) ops

/-- No pop of count 0 of the sequence meets an empty stack; `d` is the depth of the
stack before the sequence (a pop takes at most what the stack holds). -/
def popZeroOK : Nat → List StackOp → Prop
  | _, [] => True
  | d, .push _ :: ops => popZeroOK (d + 1) ops
  | d, .pop count :: ops => (count = 0 → 0 < d) ∧ popZeroOK (d - count) ops

/-- The indices `stack` (topmost first) are nodes of the tree that carry the frame ids
`fs` (topmost first), each node having the next index of the list as its parent and the
last one the root. -/
def chained (t : FrameTree) : List Nat → List Nat → Prop
  | [], [] => True
  | f :: fs, i :: stack => t.nextNode i = some (f, stack.head?.getD 0) ∧ chained t fs stack
  | _, _ => False

/-! ## A concrete build and reader for the worked examples -/

/-- Modelled from the spec: the widths of §6 (`frame_id` and `tid` 64 bits, `lineno`
32 bits, `count` one byte, `ms_since_epoch` 64 bits, `version` and `pid` 32 bits, the
times of the stats 64 bits, the allocator kind one byte). The spec does not give the
numeric tags, the width of the type field, the magic or the version number: the tags
follow the order of `RecordType`, four bits each for type and flags, the magic is
"memray" with its NUL, the version is 6, and a `version` that was only partly read
keeps zero in the bytes that were not read. Memory is taken to be no limit: `reserve`
and the vector constructor only throw beyond the `max_size()` of a 64-bit libstdc++,
`PTRDIFF_MAX` divided by the size of a bucket (8 bytes) and of a `Segment` (16 bytes). -/
def build64 (ndebug : Bool) : Build where
  tag := fun t => match t with
    | .UNINITIALIZED => 0
    | .ALLOCATION => 1
    | .ALLOCATION_WITH_NATIVE => 2
    | .FRAME_INDEX => 3
    | .FRAME_PUSH => 4
    | .NATIVE_TRACE_INDEX => 5
    | .MEMORY_MAP_START => 6
    | .SEGMENT_HEADER => 7
    | .SEGMENT => 8
    | .FRAME_POP => 9
    | .THREAD_RECORD => 10
    | .MEMORY_RECORD => 11
    | .CONTEXT_SWITCH => 12
  typeBits := 4
  sizeof_frame_id := 8
  sizeof_FramePop := 1
  sizeof_lineno := 4
  sizeof_thread_id := 8
  sizeof_time := 8
  MAGIC := [109, 101, 109, 114, 97, 121, 0]
  CURRENT_HEADER_VERSION := 6
  sizeof_version := 4
  sizeof_millis := 8
  sizeof_pid := 4
  sizeof_python_allocator := 1
  staleVersion := leNat
  ndebug := ndebug
  max_frames := 2 ^ 60 - 1
  max_segments := 2 ^ 59 - 1

/-- A reader that has read nothing yet, over the body `input`. -/
def freshReader (track_stacks : Bool) (input : List Byte) : Reader where
  d_input := input
  d_header :=
    { magic := [], version := 0, native_traces := false,
      stats := { n_allocations := 0, n_frames := 0, start_time := 0, end_time := 0 },
      command_line := [], pid := 0, python_allocator := 0 }
  d_track_stacks := track_stacks
  d_current_thread := 0
  d_stack_traces := []
  d_tree := { nodes := [] }
  d_frame_map := []
  d_native_frames := []
  d_thread_names := []
  d_latest_allocation :=
    { tid := 0, address := 0, size := 0, allocator := 0, native_frame_id := 0,
      frame_index := 0, native_segment_generation := 0, n_allocations := 0 }
  d_latest_memory_record := { ms_since_epoch := 0, rss := 0 }
  d_symbol_resolver := { generation := 0, calls := [] }

/-- The `while` loop of `Py_GetNativeStackFrame`, as the list it appends to; `remaining`
is `max_stacks - stacks_obtained`. `resolve ip generation` is the resolver's answer,
`none` when it has no frames for the address. The result is `none` when
`d_native_frames` is indexed past its end. -/
def nativeStackFrameLoop {F : Type} (r : Reader) (resolve : Nat → Nat → Option (List F))
    (generation : Nat) : Nat → Nat → Option (List F)
  | _, 0 => some []
  | 0, _ + 1 => some []
  | remaining + 1, current_index + 1 =>
    match r.d_native_frames.get? current_index with
    | none => none
    | some frame =>
      match nativeStackFrameLoop r resolve generation remaining frame.index with
      | none => none
      | some later =>
        match resolve frame.ip generation with
        | none => some later
        | some resolved_frames => some (resolved_frames ++ later)

/-- `RecordReader::Py_GetNativeStackFrame`: the frames of the returned list, or `none`
when an error is returned (always so when stack tracking is disabled). -/
def Py_GetNativeStackFrame {F : Type} (r : Reader) (resolve : Nat → Nat → Option (List F))
    (index generation max_stacks : Nat) : Option (List F) :=
  if !r.d_track_stacks then none
  else nativeStackFrameLoop r resolve generation max_stacks index

/-- How call number `n` of `nextRecord` (counting from 0) ends, when the calls before
it returned. -/
def nthCall (B : Build) : Nat → Reader → Option Outcome
  | 0, r => some (nextRecord B r)
  | n + 1, r =>
    match nextRecord B r with
    | .returned _ r1 => nthCall B n r1
    | _ => none

/-! ## Whole bodies, record by record -/

/-- The reader with which the reading goes on after an iteration, when it goes on: the
iteration went round again, or `nextRecord` returned. -/
def Iteration.next? : Iteration → Option Reader
  | .again r => some r
  | .done (.returned _ r) => some r
  | .done _ => none

/-- The reader after every record of a body was read and processed, as `Build.apply`
does it, when none of them ends in an exception, a failed `assert` or undefined
behaviour; `tail` is what follows the body in the source. -/
def Build.run (B : Build) : List Record → List Byte → Reader → Option Reader
  | [], _, r => some r
  | rec :: recs, tail, r =>
    match B.apply rec { r with d_input := B.encodeBody recs ++ tail } with
    | .again r1 => B.run recs tail r1
    | .done (.returned _ r1) => B.run recs tail r1
    | .done _ => none

/-- The name that the last `THREAD_RECORD` of the body read while `tid` was the current
thread carries, if there is one; `cur` is the current thread before the body. -/
def namedBy : Nat → List Record → Nat → Option (List Byte)
  | _, [], _ => none
  | cur, .threadRecord name :: recs, tid =>
    match namedBy cur recs tid with
    | some later => some later
    | none => if cur = tid then some name else none
  | _, .contextSwitch t :: recs, tid => namedBy t recs tid
  | cur, _ :: recs, tid => namedBy cur recs tid

/-- The generation the resolver has after a body, `g` being the one before it: every
`MEMORY_MAP_START` bumps it. -/
def generationAfter (g : Nat) : List Record → Nat
  | [] => g
  | .memoryMapStart :: recs => generationAfter (g + 1) recs
  | _ :: recs => generationAfter g recs

/-- Modelled from the spec: the header on the wire (§6): magic, version,
`native_traces`, the stats, the command line with its NUL, pid and allocator kind.
The signed fields are given as the unsigned numbers their bytes spell. -/
def Build.encodeHeader (B : Build) (native_traces : Bool)
    (n_allocations n_frames start_time end_time : Nat) (command_line : List Byte)
    (pid python_allocator : Nat) : List Byte :=
  B.MAGIC ++ (leBytes B.sizeof_version B.CURRENT_HEADER_VERSION ++
    (leBytes 1 (if native_traces then 1 else 0) ++ (leBytes sizeof_size_t n_allocations ++
      (leBytes sizeof_size_t n_frames ++ (leBytes B.sizeof_millis start_time ++
        (leBytes B.sizeof_millis end_time ++ (cstring command_line ++
          (leBytes B.sizeof_pid pid ++ leBytes B.sizeof_python_allocator python_allocator))))))))

/-- The instruction pointers met when the `parent_index` links of the native-frame list
are followed from `index`, at most `limit` of them; `none` when a link points past the
end of the list. Indices count from 1, 0 is "no frame". -/
def chainIps (frames : List UnresolvedNativeFrame) : Nat → Nat → Option (List Nat)
  | _, 0 => some []
  | 0, _ + 1 => some []
  | limit + 1, index + 1 =>
    match frames.get? index with
    | none => none
    | some frame =>
      match chainIps frames limit frame.index with
      | none => none
      | some ips => some (frame.ip :: ips)

/-- How many `NATIVE_TRACE_INDEX` records a body holds. -/
def nativeTraceCount : List Record → Nat
  | [] => 0
  | .nativeTraceIndex _ _ :: recs => nativeTraceCount recs + 1
  | _ :: recs => nativeTraceCount recs

/-- A frame tree in which every node has a parent with a smaller index. -/
def FrameTree.Valid (t : FrameTree) : Prop :=
  ∀ i parent frame_id, t.nodes.get? i = some (parent, frame_id) → parent ≤ i

/-- The states of the frame tree: the empty tree, and what `get_trace_index` makes of a
state when it is called with a parent that is the root or a node of that state. -/
inductive FrameTree.Reachable : FrameTree → Prop
  | empty : FrameTree.Reachable { nodes := [] }
  | call (t : FrameTree) (parent frame_id : Nat) :
    FrameTree.Reachable t → parent ≤ t.nodes.length →
    FrameTree.Reachable (t.getTraceIndex parent frame_id).2

/-- The frame tree of the reader is in one of its states and every entry of every stack
is a node of it: what holds of a reader when it is constructed and after every record
(`run_treeOK`). -/
def Reader.treeOK (r : Reader) : Prop :=
  r.d_tree.Reachable ∧ ∀ t, ∀ i ∈ r.stackOf t, i ≤ r.d_tree.nodes.length

/-- Every frame of the native-frame list has its parent before it in the list (indices
count from 1, 0 is "no parent"). -/
def linksOK (frames : List UnresolvedNativeFrame) : Prop :=
  ∀ i frame, frames.get? i = some frame → frame.index ≤ i

/-- Every `NATIVE_TRACE_INDEX` record of the body names as its parent 0 or a native frame
defined before it; `n` is the number of native frames defined before the body. -/
def nativeLinksOK : Nat → List Record → Prop
  | _, [] => True
  | n, .nativeTraceIndex _ index :: recs => index ≤ n ∧ nativeLinksOK (n + 1) recs
  | n, _ :: recs => nativeLinksOK n recs

/-- The records whose payload only feeds the stack tracking: `FRAME_PUSH`, `FRAME_POP`,
`FRAME_INDEX` and `NATIVE_TRACE_INDEX`. -/
def Record.feedsStacks : Record → Bool
  | .framePush _ => true
  | .framePop _ => true
  | .frameIndex _ _ _ _ => true
  | .nativeTraceIndex _ _ => true
  | _ => false

end Memray

namespace Memray

/-! ## The byte source -/

theorem read_append (l rest : List Byte) :
    Source.read l.length (l ++ rest) = some (l, rest) := by
  simp [Source.read]

theorem read_some {n : Nat} {s v t : List Byte} (h : Source.read n s = some (v, t)) :
    s = v ++ t ∧ v.length = n := by
  unfold Source.read at h
  split at h
  · simp only [Option.some.injEq, Prod.mk.injEq] at h
    obtain ⟨rfl, rfl⟩ := h
    refine ⟨(List.take_append_drop n s).symm, ?_⟩
    simp only [List.length_take]
    omega
  · cases h

theorem getline_cstring (name rest : List Byte) (h : (0 : Byte) ∉ name) :
    Source.getline 0 (cstring name ++ rest) = some (name, rest) := by
  induction name with
  | nil => simp [cstring, Source.getline]
  | cons b bs ih =>
    have hb : b ≠ 0 := fun e => h (by simp [e])
    have hbs : (0 : Byte) ∉ bs := fun e => h (by simp [e])
    have ih1 := ih hbs
    simp only [cstring, List.cons_append, List.append_assoc, List.nil_append] at ih1 ⊢
    simp [Source.getline, hb, ih1]

theorem getline_some {d : Byte} {s v t : List Byte} (h : Source.getline d s = some (v, t)) :
    s = v ++ d :: t := by
  induction s generalizing v with
  | nil => simp [Source.getline] at h
  | cons b bs ih =>
    unfold Source.getline at h
    split at h
    · rename_i hb
      simp only [Option.some.injEq, Prod.mk.injEq] at h
      obtain ⟨rfl, rfl⟩ := h
      simp [hb]
    · split at h
      · cases h
      · rename_i l r heq
        simp only [Option.some.injEq, Prod.mk.injEq] at h
        obtain ⟨rfl, rfl⟩ := h
        simp [ih heq]

theorem getline_append {d : Byte} {s v t : List Byte} (h : Source.getline d s = some (v, t))
    (t1 : List Byte) : Source.getline d (v ++ d :: t1) = some (v, t1) := by
  induction s generalizing v with
  | nil => simp [Source.getline] at h
  | cons b bs ih =>
    unfold Source.getline at h
    split at h
    · simp only [Option.some.injEq, Prod.mk.injEq] at h
      obtain ⟨rfl, rfl⟩ := h
      simp [Source.getline]
    · rename_i hb
      split at h
      · cases h
      · rename_i l r heq
        simp only [Option.some.injEq, Prod.mk.injEq] at h
        obtain ⟨rfl, rfl⟩ := h
        simp [Source.getline, hb, ih heq]

theorem length_leBytes (w v : Nat) : (leBytes w v).length = w := by
  induction w generalizing v with
  | zero => rfl
  | succ w ih => simp [leBytes, ih]

theorem leNat_leBytes (w v : Nat) (h : v < 256 ^ w) : leNat (leBytes w v) = v := by
  induction w generalizing v with
  | zero => simp at h; simp [leBytes, leNat, h]
  | succ w ih =>
    have h1 : v / 256 < 256 ^ w := by
      rw [Nat.div_lt_iff_lt_mul (by decide)]
      rw [pow_succ] at h
      exact h
    simp only [leBytes, leNat, ih _ h1]
    omega

theorem read_leBytes (w v : Nat) (rest : List Byte) :
    Source.read w (leBytes w v ++ rest) = some (leBytes w v, rest) := by
  have := read_append (leBytes w v) rest
  rwa [length_leBytes] at this

/-! ## `readVarint` -/

set_option maxRecDepth 8192 in
theorem high_bit_clear (b : Byte) : b.val &&& 0x80 = 0 ↔ b.val < 128 := by
  revert b
  decide

theorem and_127 (x : Nat) : x &&& 127 = x % 128 :=
  Nat.and_pow_two_sub_one_eq_mod x 7

theorem payload_eq_mod (b : Byte) : b.val &&& 0x7f = b.val % 128 :=
  and_127 b.val

theorem or_shifted (val x shift : Nat) (h : val < 2 ^ shift) :
    val ||| (x * 2 ^ shift) = val + x * 2 ^ shift := by
  have := Nat.mul_add_lt_is_or h x
  rw [Nat.lor_comm, Nat.mul_comm, ← this]
  ring

theorem varintValue_eq_sum (l : List Byte) :
    varintValue l = ∑ i in Finset.range l.length, ((l.getD i 0).val &&& 0x7f) * 2 ^ (7 * i) := by
  induction l with
  | nil => simp [varintValue]
  | cons b bs ih =>
    rw [List.length_cons, Finset.sum_range_succ', varintValue, ih, Finset.mul_sum]
    simp only [List.getD_cons_succ, List.getD_cons_zero, Nat.mul_zero, pow_zero, Nat.mul_one]
    rw [Nat.add_comm]
    congr 1
    apply Finset.sum_congr rfl
    intro i _
    rw [Nat.mul_add, pow_add]
    ring

theorem shifted_mod (val x shift : Nat) (hs : shift < 64) (hv : val < 2 ^ shift) :
    val ||| ((x <<< shift) % 2 ^ 64) = (val + 2 ^ shift * x) % 2 ^ 64 := by
  have h64 : (2 : Nat) ^ 64 = 2 ^ (64 - shift) * 2 ^ shift := by
    rw [← pow_add]
    congr 1
    omega
  have hp : 0 < 2 ^ (64 - shift) := Nat.pow_pos (by decide)
  rw [Nat.shiftLeft_eq, h64, Nat.mul_mod_mul_right, or_shifted _ _ _ hv]
  have hx : x % 2 ^ (64 - shift) < 2 ^ (64 - shift) := Nat.mod_lt _ hp
  have hlt : val + x % 2 ^ (64 - shift) * 2 ^ shift < 2 ^ (64 - shift) * 2 ^ shift := by
    calc val + x % 2 ^ (64 - shift) * 2 ^ shift
        < 2 ^ shift + x % 2 ^ (64 - shift) * 2 ^ shift := by omega
      _ = (x % 2 ^ (64 - shift) + 1) * 2 ^ shift := by ring
      _ ≤ 2 ^ (64 - shift) * 2 ^ shift := Nat.mul_le_mul_right _ hx
  have hsplit : val + 2 ^ shift * x =
      val + x % 2 ^ (64 - shift) * 2 ^ shift +
        2 ^ (64 - shift) * 2 ^ shift * (x / 2 ^ (64 - shift)) := by
    conv_lhs => rw [← Nat.div_add_mod x (2 ^ (64 - shift))]
    ring
  rw [hsplit, Nat.add_mul_mod_self_left, Nat.mod_eq_of_lt hlt]

theorem readVarintLoop_spec (bs : List Byte) (b : Byte) (rest : List Byte) (val shift : Nat)
    (hbs : ∀ c ∈ bs, 128 ≤ c.val) (hb : b.val < 128) (hs : shift + 7 * bs.length < 64)
    (hv : val < 2 ^ shift) :
    readVarintLoop val shift (bs ++ b :: rest) =
      some ((val + 2 ^ shift * varintValue (bs ++ [b])) % 2 ^ 64, rest) := by
  induction bs generalizing val shift with
  | nil =>
    simp only [List.nil_append, readVarintLoop, (high_bit_clear b).2 hb, if_true]
    rw [shifted_mod _ _ _ (by simpa using hs) hv]
    simp [varintValue]
  | cons c bs ih =>
    have hc : ¬ (c.val &&& 0x80 = 0) := by
      rw [high_bit_clear]
      have := hbs c (by simp)
      omega
    simp only [List.length_cons] at hs
    have hs7 : ¬ (shift + 7 ≥ 64) := by omega
    simp only [List.cons_append, readVarintLoop, hc, if_false, hs7]
    have hx : c.val &&& 0x7f < 128 := by
      rw [payload_eq_mod]
      omega
    have hval : val ||| ((c.val &&& 0x7f) <<< shift) % 2 ^ 64 = val + 2 ^ shift * (c.val &&& 0x7f) := by
      rw [shifted_mod _ _ _ (by omega) hv]
      apply Nat.mod_eq_of_lt
      calc val + 2 ^ shift * (c.val &&& 0x7f)
          < 2 ^ shift + 2 ^ shift * 127 := by
            have : 2 ^ shift * (c.val &&& 0x7f) ≤ 2 ^ shift * 127 :=
              Nat.mul_le_mul_left _ (by omega)
            omega
        _ = 2 ^ (shift + 7) := by rw [pow_add]; ring
        _ ≤ 2 ^ 64 := Nat.pow_le_pow_right (by decide) (by omega)
    have hlt : val + 2 ^ shift * (c.val &&& 0x7f) < 2 ^ (shift + 7) := by
      calc val + 2 ^ shift * (c.val &&& 0x7f)
          < 2 ^ shift + 2 ^ shift * 127 := by
            have : 2 ^ shift * (c.val &&& 0x7f) ≤ 2 ^ shift * 127 :=
              Nat.mul_le_mul_left _ (by omega)
            omega
        _ = 2 ^ (shift + 7) := by rw [pow_add]; ring
    rw [hval]
    show readVarintLoop _ _ (bs ++ b :: rest) = _
    rw [ih _ _ (fun d hd => hbs d (by simp [hd])) (by omega) hlt]
    congr 2
    simp only [varintValue, List.cons_append]
    rw [pow_add]
    ring_nf

theorem encodeVarintAux_spec (more v : Nat) (h : v < 128 ^ (more + 1)) :
    ∃ bs b, encodeVarintAux more v = bs ++ [b] ∧ bs.length ≤ more ∧
      (∀ c ∈ bs, 128 ≤ c.val) ∧ b.val < 128 ∧ varintValue (bs ++ [b]) = v := by
  induction more generalizing v with
  | zero =>
    refine ⟨[], ⟨v % 128, by omega⟩, rfl, Nat.le_refl _, by simp, Nat.mod_lt _ (by decide), ?_⟩
    simp only [zero_add, pow_one] at h
    simp only [List.nil_append, varintValue, and_127]
    omega
  | succ more ih =>
    unfold encodeVarintAux
    split
    · rename_i hv
      refine ⟨[], ⟨v % 128, by omega⟩, rfl, Nat.zero_le _, by simp, Nat.mod_lt _ (by decide), ?_⟩
      simp only [List.nil_append, varintValue, and_127]
      omega
    · have hdiv : v / 128 < 128 ^ (more + 1) := by
        rw [Nat.div_lt_iff_lt_mul (by decide)]
        rw [pow_succ] at h
        exact h
      obtain ⟨bs, b, he, hl, hbs, hb, hval⟩ := ih _ hdiv
      refine ⟨⟨128 + v % 128, by omega⟩ :: bs, b, by rw [he]; rfl, by simp; omega, ?_, hb, ?_⟩
      · intro c hc
        rcases List.mem_cons.1 hc with rfl | hc
        · simp
        · exact hbs c hc
      · show (128 + v % 128 &&& 0x7f) + 128 * varintValue (bs ++ [b]) = v
        rw [hval]
        simp only [and_127]
        omega

theorem readVarint_encodeVarint (v : Nat) (rest : List Byte) (h : v < 2 ^ 64) :
    readVarint (encodeVarint v ++ rest) = some (v, rest) := by
  obtain ⟨bs, b, he, hl, hbs, hb, hval⟩ :=
    encodeVarintAux_spec 9 v (Nat.lt_of_lt_of_le h (by norm_num))
  unfold readVarint encodeVarint
  rw [he, List.append_assoc, List.singleton_append,
    readVarintLoop_spec bs b rest 0 0 hbs hb (by omega) (by simp), hval]
  simp only [pow_zero, Nat.one_mul, Nat.zero_add, Nat.mod_eq_of_lt h]

theorem readVarintLoop_some {s : List Byte} {val shift v : Nat} {t : List Byte}
    (h : readVarintLoop val shift s = some (v, t)) :
    ∃ c, s = c ++ t ∧ ∀ t1, readVarintLoop val shift (c ++ t1) = some (v, t1) := by
  induction s generalizing val shift with
  | nil => simp [readVarintLoop] at h
  | cons b bs ih =>
    simp only [readVarintLoop] at h
    split at h
    · rename_i hb
      simp only [Option.some.injEq, Prod.mk.injEq] at h
      obtain ⟨rfl, rfl⟩ := h
      exact ⟨[b], rfl, fun t1 => by simp [readVarintLoop, hb]⟩
    · rename_i hb
      split at h
      · cases h
      · rename_i hs
        obtain ⟨c, rfl, hc⟩ := ih h
        exact ⟨b :: c, rfl, fun t1 => by simp only [List.cons_append, readVarintLoop, hb, hs, if_false]; exact hc t1⟩

theorem readVarint_some {s : List Byte} {v : Nat} {t : List Byte}
    (h : readVarint s = some (v, t)) :
    ∃ c, s = c ++ t ∧ ∀ t1, readVarint (c ++ t1) = some (v, t1) :=
  readVarintLoop_some h

theorem readVarintLoop_none (s : List Byte) (val i : Nat) (hi : i ≤ 9) :
    readVarintLoop val (7 * i) s = none ↔ ∀ b ∈ s.take (10 - i), 128 ≤ b.val := by
  induction s generalizing val i with
  | nil => simp [readVarintLoop]
  | cons b bs ih =>
    obtain ⟨k, hk⟩ : ∃ k, 10 - i = k + 1 := ⟨9 - i, by omega⟩
    simp only [readVarintLoop, hk, List.take_succ_cons, List.mem_cons, forall_eq_or_imp]
    by_cases hb : b.val &&& 0x80 = 0
    · have := (high_bit_clear b).1 hb
      simp only [hb, if_true]
      constructor
      · intro h
        cases h
      · intro h
        omega
    · have hge : 128 ≤ b.val := by
        rw [high_bit_clear] at hb
        omega
      simp only [hb, if_false, hge, true_and]
      by_cases h9 : i = 9
      · subst h9
        have : k = 0 := by omega
        subst this
        simp
      · have hs : ¬ (7 * i + 7 ≥ 64) := by omega
        simp only [hs, if_false]
        have : 7 * i + 7 = 7 * (i + 1) := by ring
        rw [this, ih _ (i + 1) (by omega)]
        have : 10 - (i + 1) = k := by omega
        rw [this]

/-- C5. `readVarint` decodes unsigned LEB128: on an input that starts with up to nine
bytes with the high bit set followed by a byte with the high bit clear it succeeds,
consumes exactly these bytes, and returns the sum of `(b i AND 0x7f) * 2 ^ (7 i)` modulo
`2 ^ 64`; so it returns `v` on the LEB128 encoding of every 64-bit `v`. -/
theorem readVarint_decodes_leb128 :
    (∀ (bs : List Byte) (b : Byte) (rest : List Byte), bs.length ≤ 9 →
      (∀ c ∈ bs, 128 ≤ c.val) → b.val < 128 →
      readVarint (bs ++ b :: rest) =
        some ((∑ i in Finset.range (bs.length + 1),
                (((bs ++ [b]).getD i 0).val &&& 0x7f) * 2 ^ (7 * i)) % 2 ^ 64, rest)) ∧
    (∀ (v : Nat) (rest : List Byte), v < 2 ^ 64 →
      readVarint (encodeVarint v ++ rest) = some (v, rest)) := by
  refine ⟨?_, fun v rest h => readVarint_encodeVarint v rest h⟩
  intro bs b rest hl hbs hb
  unfold readVarint
  rw [readVarintLoop_spec bs b rest 0 0 hbs hb (by omega) (by simp), varintValue_eq_sum]
  simp

/-- C5, an instance: the bytes `0xac 0x02` decode to 300 and leave what follows
unread, and so does the encoding of 300. -/
theorem readVarint_decodes_leb128_witness :
    readVarint ([0xac] ++ 0x02 :: [0xff]) =
        some ((∑ i in Finset.range (([0xac] : List Byte).length + 1),
                ((([0xac] ++ [0x02] : List Byte).getD i 0).val &&& 0x7f) * 2 ^ (7 * i)) % 2 ^ 64,
              [0xff]) ∧
      readVarint (encodeVarint 300 ++ [0xff]) = some (300, [0xff]) :=
  ⟨readVarint_decodes_leb128.1 [0xac] 0x02 [0xff] (by simp) (by intro c hc; simp at hc; subst hc; decide) (by decide),
   readVarint_decodes_leb128.2 300 [0xff] (by norm_num)⟩

/-- C6. `readVarint` fails in exactly two cases: the source ends before a byte with
the high bit clear was read (fewer than ten bytes, all with the high bit set), or the
first ten bytes all have the high bit set; on every other input it succeeds. -/
theorem readVarint_fails_iff (s : List Byte) :
    (readVarint s = none ↔
      (s.length < 10 ∧ ∀ b ∈ s, 128 ≤ b.val) ∨
      (10 ≤ s.length ∧ ∀ b ∈ s.take 10, 128 ≤ b.val)) ∧
    (readVarint s ≠ none → ∃ v rest, readVarint s = some (v, rest)) := by
  constructor
  · have h := readVarintLoop_none s 0 0 (by omega)
    simp only [Nat.mul_zero, Nat.sub_zero] at h
    unfold readVarint
    rw [h]
    by_cases hl : s.length < 10
    · rw [List.take_of_length_le (by omega)]
      constructor
      · intro hs
        exact Or.inl ⟨hl, hs⟩
      · rintro (⟨_, hs⟩ | ⟨h10, _⟩)
        · exact hs
        · omega
    · constructor
      · intro hs
        exact Or.inr ⟨by omega, hs⟩
      · rintro (⟨h10, _⟩ | ⟨_, hs⟩)
        · omega
        · exact hs
  · intro h
    cases hr : readVarint s with
    | none => exact absurd hr h
    | some p => exact ⟨p.1, p.2, rfl⟩

/-! ## The parsers -/

theorem consumes_read (n : Nat) : Consumes (Source.read n) := by
  intro s v t h
  obtain ⟨rfl, hl⟩ := read_some h
  exact ⟨v, rfl, fun t1 => by rw [← hl]; exact read_append v t1⟩

theorem consumes_getline (d : Byte) : Consumes (Source.getline d) := by
  intro s v t h
  refine ⟨v ++ [d], by rw [getline_some h]; simp, fun t1 => ?_⟩
  have := getline_append h t1
  simpa using this

theorem consumes_readVarint : Consumes readVarint :=
  fun _ _ _ h => readVarint_some h

theorem consumes_bind {α β : Type} {p : List Byte → Option (α × List Byte)}
    {k : α × List Byte → Option (β × List Byte)} (hp : Consumes p)
    (hk : ∀ a, Consumes (fun s => k (a, s))) :
    Consumes (fun s => p s >>= k) := by
  intro s v t h
  simp only [Option.bind_eq_bind, Option.bind_eq_some] at h
  obtain ⟨⟨a, s1⟩, h1, h2⟩ := h
  obtain ⟨c1, rfl, hc1⟩ := hp _ _ _ h1
  obtain ⟨c2, rfl, hc2⟩ := hk a _ _ _ h2
  refine ⟨c1 ++ c2, by simp, fun t1 => ?_⟩
  simp only [Option.bind_eq_bind, Option.bind_eq_some, List.append_assoc]
  exact ⟨(a, c2 ++ t1), hc1 _, hc2 _⟩

theorem consumes_pure {α : Type} (a : α) : Consumes (fun s => pure (a, s)) := by
  intro s v t h
  simp only [Option.pure_def, Option.some.injEq, Prod.mk.injEq] at h
  obtain ⟨rfl, rfl⟩ := h
  exact ⟨[], rfl, fun t1 => rfl⟩

theorem consumes_parseFramePush (B : Build) : Consumes (parseFramePush B) :=
  consumes_bind (consumes_read _) fun _ => consumes_pure _

theorem consumes_parseFramePop (B : Build) : Consumes (parseFramePop B) :=
  consumes_bind (consumes_read _) fun _ => consumes_pure _

theorem consumes_parseFrameIndex (B : Build) : Consumes (parseFrameIndex B) :=
  consumes_bind (consumes_read _) fun _ =>
    consumes_bind (consumes_getline _) fun _ =>
      consumes_bind (consumes_getline _) fun _ =>
        consumes_bind (consumes_read _) fun _ => consumes_pure _

theorem consumes_parseNativeFrameIndex : Consumes parseNativeFrameIndex :=
  consumes_bind (consumes_read _) fun _ =>
    consumes_bind consumes_readVarint fun _ => consumes_pure _

theorem consumes_parseSegmentHeader : Consumes parseSegmentHeader :=
  consumes_bind (consumes_getline _) fun _ =>
    consumes_bind (consumes_read _) fun _ =>
      consumes_bind (consumes_read _) fun _ => consumes_pure _

theorem consumes_parseSegment : Consumes parseSegment :=
  consumes_bind (consumes_read _) fun _ =>
    consumes_bind (consumes_read _) fun _ => consumes_pure _

theorem consumes_parseThreadRecord : Consumes parseThreadRecord :=
  consumes_getline _

theorem consumes_parseContextSwitch (B : Build) : Consumes (parseContextSwitch B) :=
  consumes_bind (consumes_read _) fun _ => consumes_pure _

theorem Consumes.length_le {α : Type} {p : List Byte → Option (α × List Byte)}
    (hp : Consumes p) {s : List Byte} {v : α} {t : List Byte} (h : p s = some (v, t)) :
    t.length ≤ s.length := by
  obtain ⟨c, rfl, _⟩ := hp _ _ _ h
  simp

/-- A parser that succeeds on `e` and reads all of it fails on `e` cut short. -/
theorem Consumes.truncated {α : Type} {p : List Byte → Option (α × List Byte)}
    (hp : Consumes p) {e : List Byte} {v : α} (he : p e = some (v, []))
    {a d : List Byte} (had : e = a ++ d) (hd : d ≠ []) : p a = none := by
  cases h : p a with
  | none => rfl
  | some x =>
    obtain ⟨w, t⟩ := x
    obtain ⟨c, rfl, hc⟩ := hp _ _ _ h
    have h1 := hc (t ++ d)
    rw [← List.append_assoc, ← had, he] at h1
    simp only [Option.some.injEq, Prod.mk.injEq] at h1
    have : t ++ d = [] := h1.2.symm
    simp at this
    exact absurd this.2 hd

/-! ## Hash maps -/

theorem mapFind_mapSet {V : Type} (m : List (Nat × V)) (k : Nat) (v : V) (k1 : Nat) :
    mapFind (mapSet m k v) k1 = if k1 = k then some v else mapFind m k1 := by
  induction m with
  | nil =>
    by_cases h : k1 = k
    · simp [mapSet, mapFind, h]
    · have h2 : ¬ k = k1 := fun e => h e.symm
      simp [mapSet, mapFind, h, h2]
  | cons p m ih =>
    obtain ⟨k2, v2⟩ := p
    by_cases h2 : k2 = k
    · by_cases h : k1 = k
      · simp [mapSet, mapFind, h2, h]
      · have h3 : ¬ k = k1 := fun e => h e.symm
        simp [mapSet, mapFind, h2, h, h3]
    · by_cases h : k1 = k
      · subst h
        simp [mapSet, mapFind, h2, ih]
      · simp only [mapSet, h2, if_false, mapFind, ih, h]

theorem mapFind_ne_none {V : Type} (m : List (Nat × V)) (k : Nat) :
    mapFind m k ≠ none ↔ k ∈ m.map Prod.fst := by
  induction m with
  | nil => simp [mapFind]
  | cons p m ih =>
    obtain ⟨k2, v2⟩ := p
    by_cases h : k2 = k
    · simp [mapFind, h]
    · have h2 : ¬ k = k2 := fun e => h e.symm
      simp only [mapFind, h, if_false, ih, List.map_cons, List.mem_cons, h2, false_or]

/-! ## Header bytes -/

theorem header_val (B : Build) (hB : B.WF) (t : RecordType) (flags : Nat)
    (hf : flags * 2 ^ B.typeBits < 256) :
    (B.header t flags).val = B.tag t + flags * 2 ^ B.typeBits := by
  obtain ⟨_, hlt, h8⟩ := hB
  have h256 : 256 = 2 ^ (8 - B.typeBits) * 2 ^ B.typeBits := by
    rw [← pow_add, Nat.sub_add_cancel h8]
    norm_num
  have h1 : flags < 2 ^ (8 - B.typeBits) := by
    rw [h256] at hf
    exact Nat.lt_of_mul_lt_mul_right hf
  have h2 : (flags + 1) * 2 ^ B.typeBits ≤ 256 := by
    rw [h256]
    exact Nat.mul_le_mul_right _ h1
  have h3 := hlt t
  show (B.tag t + flags * 2 ^ B.typeBits) % 256 = _
  apply Nat.mod_eq_of_lt
  rw [Nat.add_mul] at h2
  omega

theorem typeOf_header (B : Build) (hB : B.WF) (t : RecordType) (flags : Nat)
    (hf : flags * 2 ^ B.typeBits < 256) : B.typeOf (B.header t flags) = B.tag t := by
  unfold Build.typeOf
  rw [header_val B hB t flags hf, Nat.add_mul_mod_self_right]
  exact Nat.mod_eq_of_lt (hB.2.1 t)

theorem flagsOf_header (B : Build) (hB : B.WF) (t : RecordType) (flags : Nat)
    (hf : flags * 2 ^ B.typeBits < 256) : B.flagsOf (B.header t flags) = flags := by
  unfold Build.flagsOf
  have hp : 0 < 2 ^ B.typeBits := Nat.pow_pos (by decide)
  rw [header_val B hB t flags hf, Nat.add_mul_div_right _ _ hp,
    Nat.div_eq_of_lt (hB.2.1 t), Nat.zero_add]

theorem typeOf_header_zero (B : Build) (hB : B.WF) (t : RecordType) :
    B.typeOf (B.header t 0) = B.tag t :=
  typeOf_header B hB t 0 (by simp)

theorem leNat_header_zero (B : Build) (hB : B.WF) (t : RecordType) :
    leNat [B.header t 0] = B.tag t := by
  simp [leNat, header_val B hB t 0 (by simp)]

/-! ## Parsing what the writer wrote -/

theorem leNat_leBytes_word (v : Nat) (h : v < 2 ^ 64) :
    leNat (leBytes sizeof_size_t v) = v :=
  leNat_leBytes _ _ (by simpa [sizeof_size_t] using h)

theorem parseAllocationRecord_encode (flags address size : Nat) (rest : List Byte)
    (ha : address < 2 ^ 64) (hs : size < 2 ^ 64) :
    parseAllocationRecord flags (leBytes sizeof_size_t address ++ (encodeVarint size ++ rest)) =
      some ({ address := address, size := size, allocator := flags }, rest) := by
  simp [parseAllocationRecord, read_leBytes, readVarint_encodeVarint _ _ hs,
    leNat_leBytes_word _ ha]

theorem parseNativeAllocationRecord_encode (flags address size nf : Nat) (rest : List Byte)
    (ha : address < 2 ^ 64) (hs : size < 2 ^ 64) (hn : nf < 2 ^ 64) :
    parseNativeAllocationRecord flags
        (leBytes sizeof_size_t address ++ (encodeVarint size ++ (encodeVarint nf ++ rest))) =
      some ({ address := address, size := size, allocator := flags, native_frame_id := nf },
        rest) := by
  simp [parseNativeAllocationRecord, read_leBytes, readVarint_encodeVarint _ _ hs,
    readVarint_encodeVarint _ _ hn, leNat_leBytes_word _ ha]

theorem parseFramePush_encode (B : Build) (frame_id : Nat) (rest : List Byte)
    (h : frame_id < 256 ^ B.sizeof_frame_id) :
    parseFramePush B (leBytes B.sizeof_frame_id frame_id ++ rest) = some (frame_id, rest) := by
  simp [parseFramePush, read_leBytes, leNat_leBytes _ _ h]

theorem parseFramePop_encode (B : Build) (count : Nat) (rest : List Byte)
    (h : count < 256 ^ B.sizeof_FramePop) :
    parseFramePop B (leBytes B.sizeof_FramePop count ++ rest) = some (count, rest) := by
  simp [parseFramePop, read_leBytes, leNat_leBytes _ _ h]

theorem parseFrameIndex_encode (B : Build) (frame_id : Nat) (fn file : List Byte) (lineno : Nat)
    (rest : List Byte) (h : frame_id < 256 ^ B.sizeof_frame_id) (hfn : (0 : Byte) ∉ fn)
    (hfile : (0 : Byte) ∉ file) (hl : lineno < 256 ^ B.sizeof_lineno) :
    parseFrameIndex B (leBytes B.sizeof_frame_id frame_id ++
        (cstring fn ++ (cstring file ++ (leBytes B.sizeof_lineno lineno ++ rest)))) =
      some ((frame_id, { function_name := fn, filename := file,
                         lineno := toSigned B.sizeof_lineno lineno }), rest) := by
  simp [parseFrameIndex, read_leBytes, leNat_leBytes _ _ h, leNat_leBytes _ _ hl,
    getline_cstring _ _ hfn, getline_cstring _ _ hfile]

theorem parseNativeFrameIndex_encode (ip index : Nat) (rest : List Byte)
    (hi : ip < 2 ^ 64) (hx : index < 2 ^ 64) :
    parseNativeFrameIndex (leBytes sizeof_size_t ip ++ (encodeVarint index ++ rest)) =
      some ({ ip := ip, index := index }, rest) := by
  simp [parseNativeFrameIndex, read_leBytes, readVarint_encodeVarint _ _ hx,
    leNat_leBytes_word _ hi]

theorem parseSegmentHeader_encode (filename : List Byte) (n base : Nat) (rest : List Byte)
    (hf : (0 : Byte) ∉ filename) (hn : n < 2 ^ 64) (hb : base < 2 ^ 64) :
    parseSegmentHeader (cstring filename ++ (leBytes sizeof_size_t n ++
        (leBytes sizeof_size_t base ++ rest))) = some ((filename, n, base), rest) := by
  simp [parseSegmentHeader, read_leBytes, getline_cstring _ _ hf, leNat_leBytes_word _ hn,
    leNat_leBytes_word _ hb]

theorem parseSegment_encode (seg : Segment) (rest : List Byte)
    (hv : seg.vaddr < 2 ^ 64) (hm : seg.memsz < 2 ^ 64) :
    parseSegment (leBytes sizeof_size_t seg.vaddr ++ (leBytes sizeof_size_t seg.memsz ++ rest)) =
      some (seg, rest) := by
  simp [parseSegment, read_leBytes, leNat_leBytes_word _ hv, leNat_leBytes_word _ hm]

theorem parseMemoryRecord_encode (B : Build) (ms rss : Nat) (rest : List Byte)
    (hms : ms < 256 ^ B.sizeof_time) (hr : rss < 2 ^ 64) :
    parseMemoryRecord B (leBytes B.sizeof_time ms ++ (leBytes sizeof_size_t rss ++ rest)) =
      some ({ ms_since_epoch := ms, rss := rss }, rest) := by
  simp [parseMemoryRecord, read_leBytes, leNat_leBytes _ _ hms, leNat_leBytes_word _ hr]

theorem parseContextSwitch_encode (B : Build) (tid : Nat) (rest : List Byte)
    (h : tid < 256 ^ B.sizeof_thread_id) :
    parseContextSwitch B (leBytes B.sizeof_thread_id tid ++ rest) = some (tid, rest) := by
  simp [parseContextSwitch, read_leBytes, leNat_leBytes _ _ h]

theorem segmentLoop_encode (B : Build) (hB : B.WF) (track : Bool) (segs acc : List Segment)
    (rest : List Byte) (h : ∀ seg ∈ segs, seg.vaddr < 2 ^ 64 ∧ seg.memsz < 2 ^ 64) :
    segmentLoop B track segs.length acc (B.encodeSegments segs ++ rest) =
      (some (if track then acc ++ segs else acc), rest) := by
  induction segs generalizing acc with
  | nil => cases track <;> simp [segmentLoop, Build.encodeSegments]
  | cons seg segs ih =>
    have h1 := h seg (by simp)
    have hr : ∀ l : List Byte, Source.read 1 (B.header .SEGMENT 0 :: l) =
        some ([B.header .SEGMENT 0], l) := fun l => read_append [B.header .SEGMENT 0] l
    simp only [List.length_cons, segmentLoop, Build.encodeSegments, Build.encodeSegment,
      List.cons_append, List.append_assoc, hr, leNat_header_zero B hB, ne_eq,
      not_true_eq_false, if_false, parseSegment_encode seg _ h1.1 h1.2]
    rw [ih _ (fun s hs => h s (by simp [hs]))]
    cases track <;> simp

/-! ## One iteration of `nextRecord` on a record the writer wrote -/

theorem processSegmentHeader_encode (B : Build) (hB : B.WF) (filename : List Byte) (base : Nat)
    (segs : List Segment) (rest : List Byte) (r : Reader)
    (h : ∀ seg ∈ segs, seg.vaddr < 2 ^ 64 ∧ seg.memsz < 2 ^ 64)
    (hcap : segs.length ≤ B.max_segments)
    (hin : r.d_input = B.encodeSegments segs ++ rest) :
    processSegmentHeader B filename segs.length base r =
      .ok (true, if r.d_track_stacks then
          { r with
            d_input := rest
            d_symbol_resolver := r.d_symbol_resolver.addSegments filename base
              (List.replicate segs.length zeroSegment ++ segs) }
        else { r with d_input := rest }) := by
  unfold processSegmentHeader
  rw [if_neg (Nat.not_lt.2 hcap)]
  simp only [hin, segmentLoop_encode B hB _ segs _ rest h]
  cases r.d_track_stacks <;> simp [zeroSegment]

theorem iteration_encode (B : Build) (hB : B.WF) (rec : Record) (hrec : rec.WF B) (r : Reader)
    (rest : List Byte) (hin : r.d_input = B.encode rec ++ rest) :
    iteration B r = B.apply rec { r with d_input := rest } := by
  have htag : ∀ a b, B.tag a = B.tag b ↔ a = b := fun a b => hB.1.eq_iff
  have ht0 := typeOf_header_zero B hB
  unfold iteration
  cases rec with
  | padding =>
    simp only [Build.encode, Build.headerOf, Build.encodeFields, List.cons_append,
      List.nil_append] at hin
    simp only [hin, ht0, if_true, Build.apply]
  | allocation flags address size =>
    obtain ⟨hf, ha, hs⟩ := hrec
    simp only [Build.encode, Build.headerOf, Build.encodeFields, List.cons_append,
      List.append_assoc] at hin
    simp only [hin, typeOf_header B hB _ _ hf, flagsOf_header B hB _ _ hf, htag, reduceCtorEq,
      if_false, if_true, parseAllocationRecord_encode _ _ _ _ ha hs, Build.apply]
  | allocationWithNative flags address size nf =>
    obtain ⟨hf, ha, hs, hn⟩ := hrec
    simp only [Build.encode, Build.headerOf, Build.encodeFields, List.cons_append,
      List.append_assoc] at hin
    simp only [hin, typeOf_header B hB _ _ hf, flagsOf_header B hB _ _ hf, htag, reduceCtorEq,
      if_false, if_true, parseNativeAllocationRecord_encode _ _ _ _ _ ha hs hn, Build.apply]
  | framePush frame_id =>
    simp only [Build.encode, Build.headerOf, Build.encodeFields, List.cons_append,
      List.append_assoc] at hin
    simp only [hin, ht0, htag, reduceCtorEq, if_false, if_true,
      parseFramePush_encode B _ _ hrec, Build.apply]
  | framePop count =>
    simp only [Build.encode, Build.headerOf, Build.encodeFields, List.cons_append,
      List.append_assoc] at hin
    simp only [hin, ht0, htag, reduceCtorEq, if_false, if_true,
      parseFramePop_encode B _ _ hrec, Build.apply]
  | frameIndex frame_id fn file lineno =>
    obtain ⟨h1, h2, h3, h4⟩ := hrec
    simp only [Build.encode, Build.headerOf, Build.encodeFields, List.cons_append,
      List.append_assoc] at hin
    simp only [hin, ht0, htag, reduceCtorEq, if_false, if_true,
      parseFrameIndex_encode B _ _ _ _ _ h1 h2 h3 h4, Build.apply]
  | nativeTraceIndex ip index =>
    obtain ⟨h1, h2⟩ := hrec
    simp only [Build.encode, Build.headerOf, Build.encodeFields, List.cons_append,
      List.append_assoc] at hin
    simp only [hin, ht0, htag, reduceCtorEq, if_false, if_true,
      parseNativeFrameIndex_encode _ _ _ h1 h2, Build.apply]
  | memoryMapStart =>
    simp only [Build.encode, Build.headerOf, Build.encodeFields, List.cons_append,
      List.nil_append] at hin
    simp only [hin, ht0, htag, reduceCtorEq, if_false, if_true, Build.apply]
  | segmentGroup filename base segs =>
    obtain ⟨h1, h2, h3, h4, h5⟩ := hrec
    simp only [Build.encode, Build.headerOf, Build.encodeFields, List.cons_append,
      List.append_assoc] at hin
    simp only [hin, ht0, htag, reduceCtorEq, if_false, if_true,
      parseSegmentHeader_encode _ _ _ _ h1 h3 h2, Build.apply]
    rw [processSegmentHeader_encode B hB filename base segs rest _ h4 h5 rfl]
    cases r.d_track_stacks <;> simp
  | threadRecord name =>
    simp only [Build.encode, Build.headerOf, Build.encodeFields, List.cons_append,
      List.append_assoc] at hin
    simp only [hin, ht0, htag, reduceCtorEq, if_false, if_true, parseThreadRecord,
      getline_cstring _ _ hrec, Build.apply]
  | memoryRecord ms rss =>
    obtain ⟨h1, h2⟩ := hrec
    simp only [Build.encode, Build.headerOf, Build.encodeFields, List.cons_append,
      List.append_assoc] at hin
    simp only [hin, ht0, htag, reduceCtorEq, if_false, if_true,
      parseMemoryRecord_encode B _ _ _ h1 h2, Build.apply]
  | contextSwitch tid =>
    simp only [Build.encode, Build.headerOf, Build.encodeFields, List.cons_append,
      List.append_assoc] at hin
    simp only [hin, ht0, htag, reduceCtorEq, if_false, if_true,
      parseContextSwitch_encode B _ _ hrec, Build.apply]

/-! ## The loop of `nextRecord` ends -/

theorem processFramePush_input (frame_id : Nat) (r : Reader) :
    (processFramePush frame_id r).d_input = r.d_input := by
  unfold processFramePush
  split <;> rfl

theorem processFramePop_input (B : Build) (count : Nat) (r r1 : Reader)
    (h : processFramePop B count r = .ok r1) : r1.d_input = r.d_input := by
  unfold processFramePop at h
  split at h
  · cases h
    rfl
  · simp only at h
    split at h
    · cases h
    · split at h
      · cases h
      · cases h
        rfl

theorem processFrameIndex_input (v : Nat × Frame) (r r1 : Reader)
    (h : processFrameIndex v r = .ok r1) : r1.d_input = r.d_input := by
  unfold processFrameIndex at h
  split at h
  · cases h
    rfl
  · split at h
    · cases h
    · cases h
      rfl

theorem processNativeFrameIndex_input (f : UnresolvedNativeFrame) (r : Reader) :
    (processNativeFrameIndex f r).d_input = r.d_input := by
  unfold processNativeFrameIndex
  split <;> rfl

theorem segmentLoop_length (B : Build) (track : Bool) (n : Nat) (acc : List Segment)
    (s : List Byte) : (segmentLoop B track n acc s).2.length ≤ s.length := by
  induction n generalizing acc s with
  | zero => simp [segmentLoop]
  | succ n ih =>
    unfold segmentLoop
    split
    · simp
    · rename_i rt s1 h1
      have hl1 := (consumes_read 1).length_le h1
      split
      · exact hl1
      · split
        · simp
        · rename_i seg s2 h2
          have hl2 := consumes_parseSegment.length_le h2
          exact Nat.le_trans (ih _ _) (Nat.le_trans hl2 hl1)

theorem processSegmentHeader_length (B : Build) (filename : List Byte) (n addr : Nat)
    (r : Reader) (b : Bool) (r1 : Reader)
    (hok : processSegmentHeader B filename n addr r = .ok (b, r1)) :
    r1.d_input.length ≤ r.d_input.length := by
  have h := segmentLoop_length B r.d_track_stacks n
    (List.replicate n ({ vaddr := 0, memsz := 0 } : Segment)) r.d_input
  unfold processSegmentHeader at hok
  split at hok
  · cases hok
  · cases hsl : segmentLoop B r.d_track_stacks n
        (List.replicate n ({ vaddr := 0, memsz := 0 } : Segment)) r.d_input with
    | mk res s =>
      rw [hsl] at h
      simp only [hsl] at hok
      cases res with
      | none =>
        simp only [Except.ok.injEq, Prod.mk.injEq] at hok
        rw [← hok.2]
        exact h
      | some segs =>
        dsimp only at hok
        split at hok <;>
        · simp only [Except.ok.injEq, Prod.mk.injEq] at hok
          rw [← hok.2]
          exact h

theorem processSegmentHeader_error (B : Build) (filename : List Byte) (n addr : Nat)
    (r : Reader) (o : Outcome) (h : processSegmentHeader B filename n addr r = .error o) :
    B.max_segments < n ∧ o = .threw r := by
  unfold processSegmentHeader at h
  split at h
  · rename_i hn
    cases h
    exact ⟨hn, rfl⟩
  · dsimp only at h
    split at h
    · cases h
    · split at h <;> cases h

theorem iteration_again_length (B : Build) (r r1 : Reader) (h : iteration B r = .again r1) :
    r1.d_input.length < r.d_input.length := by
  unfold iteration at h
  cases hin : r.d_input with
  | nil =>
    rw [hin] at h
    cases h
  | cons hdr rest =>
    rw [hin] at h
    rw [List.length_cons]
    apply Nat.lt_succ_of_le
    dsimp only at h
    by_cases c1 : B.typeOf hdr = B.tag .UNINITIALIZED
    · rw [if_pos c1] at h
      cases h
      exact Nat.le_refl _
    rw [if_neg c1] at h
    by_cases c2 : B.typeOf hdr = B.tag .ALLOCATION
    · rw [if_pos c2] at h
      split at h <;> cases h
    rw [if_neg c2] at h
    by_cases c3 : B.typeOf hdr = B.tag .ALLOCATION_WITH_NATIVE
    · rw [if_pos c3] at h
      split at h <;> cases h
    rw [if_neg c3] at h
    by_cases c4 : B.typeOf hdr = B.tag .MEMORY_RECORD
    · rw [if_pos c4] at h
      split at h <;> cases h
    rw [if_neg c4] at h
    by_cases c5 : B.typeOf hdr = B.tag .CONTEXT_SWITCH
    · rw [if_pos c5] at h
      split at h
      · cases h
      · rename_i hp
        cases h
        exact (consumes_parseContextSwitch B).length_le hp
    rw [if_neg c5] at h
    by_cases c6 : B.typeOf hdr = B.tag .FRAME_PUSH
    · rw [if_pos c6] at h
      split at h
      · cases h
      · rename_i hp
        cases h
        rw [processFramePush_input]
        exact (consumes_parseFramePush B).length_le hp
    rw [if_neg c6] at h
    by_cases c7 : B.typeOf hdr = B.tag .FRAME_POP
    · rw [if_pos c7] at h
      split at h
      · cases h
      · rename_i hp
        split at h
        · rename_i r2 hq
          cases h
          rw [processFramePop_input B _ _ _ hq]
          exact (consumes_parseFramePop B).length_le hp
        · cases h
    rw [if_neg c7] at h
    by_cases c8 : B.typeOf hdr = B.tag .FRAME_INDEX
    · rw [if_pos c8] at h
      split at h
      · cases h
      · rename_i hp
        split at h
        · rename_i r2 hq
          cases h
          rw [processFrameIndex_input _ _ _ hq]
          exact (consumes_parseFrameIndex B).length_le hp
        · cases h
    rw [if_neg c8] at h
    by_cases c9 : B.typeOf hdr = B.tag .NATIVE_TRACE_INDEX
    · rw [if_pos c9] at h
      split at h
      · cases h
      · rename_i hp
        cases h
        rw [processNativeFrameIndex_input]
        exact consumes_parseNativeFrameIndex.length_le hp
    rw [if_neg c9] at h
    by_cases c10 : B.typeOf hdr = B.tag .MEMORY_MAP_START
    · rw [if_pos c10] at h
      cases h
      exact Nat.le_refl _
    rw [if_neg c10] at h
    by_cases c11 : B.typeOf hdr = B.tag .SEGMENT_HEADER
    · rw [if_pos c11] at h
      split at h
      · cases h
      · rename_i fn n addr s hp
        split at h
        · rename_i r2 hq
          cases h
          have := processSegmentHeader_length B fn n addr { r with d_input := s } _ _ hq
          exact Nat.le_trans this (consumes_parseSegmentHeader.length_le hp)
        · cases h
        · cases h
    rw [if_neg c11] at h
    by_cases c12 : B.typeOf hdr = B.tag .THREAD_RECORD
    · rw [if_pos c12] at h
      split at h
      · cases h
      · rename_i hp
        cases h
        exact consumes_parseThreadRecord.length_le hp
    rw [if_neg c12] at h
    cases h

theorem nextRecordLoop_fuel (B : Build) (fuel : Nat) (r : Reader)
    (h : r.d_input.length < fuel) : nextRecordLoop B fuel r = nextRecord B r := by
  induction fuel using Nat.strong_induction_on generalizing r with
  | _ fuel ih =>
    cases fuel with
    | zero => omega
    | succ fuel =>
      unfold nextRecord
      simp only [nextRecordLoop]
      cases hit : iteration B r with
      | done o => rfl
      | again r1 =>
        have hl := iteration_again_length B r r1 hit
        simp only
        rw [ih fuel (by omega) r1 (by omega), ih r.d_input.length (by omega) r1 hl]

/-- The loop of `nextRecord`, unrolled once. -/
theorem nextRecord_eq (B : Build) (r : Reader) :
    nextRecord B r =
      match iteration B r with
      | .again r1 => nextRecord B r1
      | .done o => o := by
  conv_lhs => unfold nextRecord
  simp only [nextRecordLoop]
  cases hit : iteration B r with
  | done o => rfl
  | again r1 =>
    exact nextRecordLoop_fuel B _ r1 (iteration_again_length B r r1 hit)

/-! ## The per-thread stacks -/

theorem stackOf_mapSet (r : Reader) (traces : List (Nat × List Nat)) (tid : Nat)
    (stack : List Nat) (t : Nat) :
    ({ r with d_stack_traces := mapSet traces tid stack } : Reader).stackOf t =
      if t = tid then stack else (mapFind traces t).getD [] := by
  unfold Reader.stackOf
  simp only [mapFind_mapSet]
  split <;> rfl

theorem popLoop_ok (tid count : Nat) (traces : List (Nat × List Nat))
    (h : count ≤ ((mapFind traces tid).getD []).length) :
    ∃ traces1, popLoop tid count traces = some traces1 ∧
      ∀ t, (mapFind traces1 t).getD [] =
        if t = tid then
          ((mapFind traces tid).getD []).take (((mapFind traces tid).getD []).length - count)
        else (mapFind traces t).getD [] := by
  induction count generalizing traces with
  | zero =>
    refine ⟨traces, rfl, fun t => ?_⟩
    split
    · rename_i ht
      subst ht
      simp
    · rfl
  | succ count ih =>
    unfold popLoop
    cases hst : (mapFind traces tid).getD [] with
    | nil =>
      rw [hst] at h
      simp at h
    | cons x stack =>
      rw [hst] at h
      simp only
      have hfind : (mapFind (mapSet traces tid (x :: stack).dropLast) tid).getD [] =
          (x :: stack).dropLast := by
        simp [mapFind_mapSet]
      have hlen : count ≤ ((mapFind (mapSet traces tid (x :: stack).dropLast) tid).getD []).length := by
        rw [hfind, List.length_dropLast]
        simp only [List.length_cons] at h ⊢
        omega
      obtain ⟨traces1, h1, h2⟩ := ih _ hlen
      refine ⟨traces1, h1, fun t => ?_⟩
      rw [h2 t]
      by_cases ht : t = tid
      · simp only [ht, if_true, hfind, List.length_dropLast]
        rw [List.dropLast_eq_take, List.take_take]
        congr 1
        simp only [List.length_cons] at h ⊢
        omega
      · simp only [ht, if_false, mapFind_mapSet]

theorem popLoop_none (tid count : Nat) (traces : List (Nat × List Nat))
    (h : ((mapFind traces tid).getD []).length < count) : popLoop tid count traces = none := by
  induction count generalizing traces with
  | zero => omega
  | succ count ih =>
    unfold popLoop
    cases hst : (mapFind traces tid).getD [] with
    | nil => rfl
    | cons x stack =>
      rw [hst] at h
      simp only
      apply ih
      simp only [mapFind_mapSet, if_true, Option.getD_some, List.length_dropLast,
        List.length_cons] at h ⊢
      omega

/-- What `processFramePop` does when the stack is deep enough (and, where `assert` is
compiled in, not empty): the stack of the current thread loses its last `count`
entries, nothing else changes. -/
theorem processFramePop_ok (B : Build) (count : Nat) (r : Reader) (ht : r.d_track_stacks = true)
    (h : count ≤ (r.stackOf r.d_current_thread).length)
    (ha : B.ndebug = false → r.stackOf r.d_current_thread ≠ []) :
    ∃ traces, processFramePop B count r = .ok { r with d_stack_traces := traces } ∧
      ∀ t, ({ r with d_stack_traces := traces } : Reader).stackOf t =
        if t = r.d_current_thread then
          (r.stackOf r.d_current_thread).take ((r.stackOf r.d_current_thread).length - count)
        else r.stackOf t := by
  obtain ⟨traces, h1, h2⟩ := popLoop_ok r.d_current_thread count r.d_stack_traces h
  refine ⟨traces, ?_, h2⟩
  unfold processFramePop
  simp only [ht, Bool.not_true, Bool.false_eq_true, if_false, h1]
  cases hn : B.ndebug with
  | true => simp
  | false => simp [ha hn]

theorem stackOf_touch (r : Reader) (tid t : Nat) :
    ({ r with d_stack_traces := touchStack r tid } : Reader).stackOf t = r.stackOf t := by
  unfold touchStack
  split
  · rw [stackOf_mapSet]
    split
    · rename_i h
      rw [h]
    · rfl
  · rfl

/-! ## A body the writer wrote -/

theorem calls_again (B : Build) (r r1 : Reader) (h : iteration B r = .again r1) (n : Nat) :
    calls B n r = calls B n r1 := by
  cases n with
  | zero => rfl
  | succ n =>
    have : nextRecord B r = nextRecord B r1 := by
      rw [nextRecord_eq B r, h]
    simp only [calls, this]

theorem calls_done (B : Build) (r r1 : Reader) (res : RecordResult)
    (h : iteration B r = .done (.returned res r1)) (n : Nat) :
    calls B (n + 1) r = res :: calls B n r1 := by
  have : nextRecord B r = .returned res r1 := by
    rw [nextRecord_eq B r, h]
  simp only [calls, this]

theorem stackOf_eq_of_traces {r r1 : Reader} (h : r1.d_stack_traces = r.d_stack_traces)
    (t : Nat) : r1.stackOf t = r.stackOf t := by
  unfold Reader.stackOf
  rw [h]

theorem processFramePush_stackOf (frame_id : Nat) (r : Reader) (ht : r.d_track_stacks = true)
    (t : Nat) :
    (processFramePush frame_id r).stackOf t =
      if t = r.d_current_thread then
        r.stackOf r.d_current_thread ++
          [(r.d_tree.getTraceIndex (stackTop (r.stackOf r.d_current_thread)) frame_id).1]
      else r.stackOf t := by
  unfold processFramePush
  simp only [ht, Bool.not_true, Bool.false_eq_true, if_false, Reader.stackOf, mapFind_mapSet]
  split <;> rfl

theorem processAllocationRecord_stackOf (record : AllocationRecord) (r : Reader) (t : Nat) :
    (processAllocationRecord record r).stackOf t = r.stackOf t :=
  stackOf_touch r r.d_current_thread t

theorem processNativeAllocationRecord_stackOf (record : NativeAllocationRecord) (r : Reader)
    (t : Nat) : (processNativeAllocationRecord record r).stackOf t = r.stackOf t :=
  stackOf_touch r r.d_current_thread t

/-- The effect of one well-formed record, as far as the later records depend on it. -/
theorem apply_step (B : Build) (rec : Record) (recs : List Record) (r : Reader)
    (ids : List Nat) (depth : Nat → Nat)
    (hinv : r.d_track_stacks = true → Tracks r ids depth ∧ (ids ++ frameIds (rec :: recs)).Nodup ∧
      popsOK B r.d_current_thread depth (rec :: recs)) :
    ∃ r1 ids1 depth1, r1.d_input = r.d_input ∧ r1.d_track_stacks = r.d_track_stacks ∧
      (B.apply rec r = match report rec with
        | none => .again r1
        | some res => .done (.returned res r1)) ∧
      (r1.d_track_stacks = true → Tracks r1 ids1 depth1 ∧ (ids1 ++ frameIds recs).Nodup ∧
        popsOK B r1.d_current_thread depth1 recs) := by
  cases rec with
  | padding => exact ⟨r, ids, depth, rfl, rfl, rfl, hinv⟩
  | memoryMapStart => exact ⟨processMemoryMapStart r, ids, depth, rfl, rfl, rfl, hinv⟩
  | threadRecord name => exact ⟨processThreadRecord name r, ids, depth, rfl, rfl, rfl, hinv⟩
  | memoryRecord ms rss =>
    exact ⟨processMemoryRecord { ms_since_epoch := ms, rss := rss } r, ids, depth, rfl, rfl, rfl,
      hinv⟩
  | nativeTraceIndex ip index =>
    refine ⟨processNativeFrameIndex { ip := ip, index := index } r, ids, depth,
      processNativeFrameIndex_input _ _, ?_, rfl, ?_⟩
    · unfold processNativeFrameIndex
      split <;> rfl
    · unfold processNativeFrameIndex
      split
      · exact hinv
      · exact hinv
  | contextSwitch tid => exact ⟨processContextSwitch tid r, ids, depth, rfl, rfl, rfl, hinv⟩
  | segmentGroup filename base segs =>
    by_cases ht : r.d_track_stacks = true
    · refine ⟨{ r with
          d_symbol_resolver := r.d_symbol_resolver.addSegments filename base
            (List.replicate segs.length zeroSegment ++ segs) }, ids, depth, rfl, rfl, ?_, hinv⟩
      simp only [Build.apply, ht, if_true, report]
    · refine ⟨r, ids, depth, rfl, rfl, ?_, hinv⟩
      simp [Build.apply, ht, report]
  | allocation flags address size =>
    refine ⟨processAllocationRecord { address := address, size := size, allocator := flags } r,
      ids, depth, rfl, rfl, rfl, ?_⟩
    · intro ht
      obtain ⟨⟨h1, h2⟩, h3, h4⟩ := hinv ht
      exact ⟨⟨h1, fun t => by rw [h2 t, processAllocationRecord_stackOf]⟩, h3, h4⟩
  | allocationWithNative flags address size nf =>
    refine ⟨processNativeAllocationRecord ⟨address, size, flags, nf⟩ r, ids, depth, rfl, rfl, rfl,
      ?_⟩
    · intro ht
      obtain ⟨⟨h1, h2⟩, h3, h4⟩ := hinv ht
      exact ⟨⟨h1, fun t => by rw [h2 t, processNativeAllocationRecord_stackOf]⟩, h3, h4⟩
  | framePush frame_id =>
    refine ⟨processFramePush frame_id r, ids,
      Function.update depth r.d_current_thread (depth r.d_current_thread + 1),
      processFramePush_input _ _, ?_, rfl, ?_⟩
    · unfold processFramePush
      split <;> rfl
    · intro ht1
      have ht : r.d_track_stacks = true := by
        unfold processFramePush at ht1
        split at ht1
        · exact ht1
        · exact ht1
      obtain ⟨⟨h1, h2⟩, h3, h4⟩ := hinv ht
      have hcur : (processFramePush frame_id r).d_current_thread = r.d_current_thread := by
        unfold processFramePush
        split <;> rfl
      have hmap : (processFramePush frame_id r).d_frame_map = r.d_frame_map := by
        unfold processFramePush
        split <;> rfl
      refine ⟨⟨by rw [hmap]; exact h1, fun t => ?_⟩, h3, by rw [hcur]; exact h4⟩
      rw [processFramePush_stackOf _ _ ht]
      by_cases hc : t = r.d_current_thread
      · subst hc
        simp [h2]
      · simp [Function.update, hc, h2]
  | framePop count =>
    by_cases ht : r.d_track_stacks = true
    · obtain ⟨⟨h1, h2⟩, h3, h4, h5, h6⟩ := hinv ht
      have hne : B.ndebug = false → r.stackOf r.d_current_thread ≠ [] := by
        intro hn
        have := h5 hn
        rw [h2] at this
        exact List.ne_nil_of_length_pos this
      obtain ⟨traces, hok, hst⟩ := processFramePop_ok B count r ht (by rw [← h2]; exact h4) hne
      refine ⟨{ r with d_stack_traces := traces }, ids,
        Function.update depth r.d_current_thread (depth r.d_current_thread - count),
        rfl, rfl, by simp only [Build.apply, hok, report], ?_⟩
      intro _
      refine ⟨⟨h1, fun t => ?_⟩, h3, h6⟩
      rw [hst t]
      by_cases hc : t = r.d_current_thread
      · subst hc
        simp only [Function.update_same, if_true, List.length_take, h2]
        omega
      · simp [Function.update, hc, h2]
    · refine ⟨r, ids, depth, rfl, rfl, ?_, fun h => absurd h ht⟩
      simp only [Build.apply, processFramePop, report]
      simp [ht]
  | frameIndex frame_id fn file lineno =>
    by_cases ht : r.d_track_stacks = true
    · obtain ⟨⟨h1, h2⟩, h3, h4⟩ := hinv ht
      simp only [frameIds] at h3
      have hnotin : frame_id ∉ ids := by
        intro hmem
        have := List.nodup_append.1 h3
        exact (List.disjoint_left.1 this.2.2) hmem (by simp)
      have hnone : mapFind r.d_frame_map frame_id = none := by
        by_contra hc
        exact hnotin (h1 _ hc)
      refine ⟨{ r with
          d_frame_map := mapSet r.d_frame_map frame_id
            { function_name := fn, filename := file, lineno := toSigned B.sizeof_lineno lineno } },
        ids ++ [frame_id], depth, rfl, rfl,
        by simp only [Build.apply, processFrameIndex, ht, hnone, report]; rfl, ?_⟩
      · intro _
        refine ⟨⟨fun id hid => ?_, h2⟩, ?_, h4⟩
        · simp only [mapFind_mapSet] at hid
          by_cases he : id = frame_id
          · simp [he]
          · simp only [he, if_false] at hid
            simp [h1 id hid]
        · simpa using h3
    · refine ⟨r, ids, depth, rfl, rfl, ?_, fun h => absurd h ht⟩
      simp only [Build.apply, processFrameIndex, report]
      simp [ht]

theorem calls_body (B : Build) (hB : B.WF) (recs : List Record) :
    ∀ (r : Reader) (tail : List Byte) (ids : List Nat) (depth : Nat → Nat),
      r.d_input = B.encodeBody recs ++ tail → (∀ rec ∈ recs, rec.WF B) →
      (r.d_track_stacks = true → Tracks r ids depth ∧ (ids ++ frameIds recs).Nodup ∧
        popsOK B r.d_current_thread depth recs) →
      ∃ r1, r1.d_input = tail ∧ r1.d_track_stacks = r.d_track_stacks ∧
        ∀ k, calls B ((recs.filterMap report).length + k) r =
          recs.filterMap report ++ calls B k r1 := by
  induction recs with
  | nil =>
    intro r tail ids depth hin _ _
    exact ⟨r, by simpa [Build.encodeBody] using hin, rfl, fun k => by simp⟩
  | cons rec recs ih =>
    intro r tail ids depth hin hwf hinv
    simp only [Build.encodeBody, List.append_assoc] at hin
    have hit := iteration_encode B hB rec (hwf rec (by simp)) r _ hin
    obtain ⟨r1, ids1, depth1, hin1, ht1, happ, hinv1⟩ :=
      apply_step B rec recs { r with d_input := B.encodeBody recs ++ tail } ids depth hinv
    obtain ⟨r2, hin2, ht2, hcalls⟩ :=
      ih r1 tail ids1 depth1 hin1 (fun x hx => hwf x (by simp [hx])) hinv1
    refine ⟨r2, hin2, by rw [ht2, ht1], fun k => ?_⟩
    rw [happ] at hit
    cases hrep : report rec with
    | none =>
      rw [hrep] at hit
      simp only [List.filterMap_cons, hrep]
      rw [calls_again B r r1 hit, hcalls k]
    | some res =>
      rw [hrep] at hit
      simp only [List.filterMap_cons, hrep, List.length_cons, List.cons_append]
      rw [Nat.add_right_comm, calls_done B r r1 res hit, hcalls k]

theorem nextRecord_nil (B : Build) (r : Reader) (h : r.d_input = []) :
    nextRecord B r = .returned .END_OF_FILE r := by
  rw [nextRecord_eq]
  simp only [iteration, h]

theorem calls_nil (B : Build) (r : Reader) (h : r.d_input = []) (k : Nat) :
    calls B k r = List.replicate k .END_OF_FILE := by
  induction k with
  | zero => rfl
  | succ k ih => simp only [calls, nextRecord_nil B r h, ih, List.replicate_succ]

theorem tracks_initial (r : Reader) :
    Tracks r (r.d_frame_map.map Prod.fst).dedup (fun t => (r.stackOf t).length) :=
  ⟨fun _ hid => List.mem_dedup.2 ((mapFind_ne_none _ _).1 hid), fun _ => rfl⟩

theorem nodup_initial (r : Reader) (recs : List Record) (hn : (frameIds recs).Nodup)
    (hnew : ∀ id ∈ frameIds recs, mapFind r.d_frame_map id = none) :
    ((r.d_frame_map.map Prod.fst).dedup ++ frameIds recs).Nodup := by
  refine List.nodup_append.2 ⟨List.nodup_dedup _, hn, ?_⟩
  intro x h1 h2
  exact (mapFind_ne_none _ _).2 (List.mem_dedup.1 h1) (hnew x h2)

/-- C1, as amended. For every body of complete records (known top-level tags, every
segment group followed by its `SEGMENT` records) that defines no frame id twice and,
when stack tracking is enabled, pops no more frames than the current thread's stack
holds (and, where `assert` is compiled in, pops nothing from an empty stack), the
successive calls of `nextRecord` return one `ALLOCATION_RECORD` per allocation record
and one `MEMORY_RECORD` per memory record, in stream order, and `END_OF_FILE` ever
after; the other records and the padding bytes produce no result of their own. -/
theorem nextRecord_reports_body (B : Build) (hB : B.WF) (recs : List Record) (r : Reader)
    (hin : r.d_input = B.encodeBody recs) (hwf : ∀ rec ∈ recs, rec.WF B)
    (hids : r.d_track_stacks = true →
      (frameIds recs).Nodup ∧ ∀ id ∈ frameIds recs, mapFind r.d_frame_map id = none)
    (hpops : r.d_track_stacks = true →
      popsOK B r.d_current_thread (fun t => (r.stackOf t).length) recs) (k : Nat) :
    calls B ((recs.filterMap report).length + k) r =
      recs.filterMap report ++ List.replicate k .END_OF_FILE := by
  obtain ⟨r1, hin1, _, hcalls⟩ := calls_body B hB recs r [] _ _ (by simpa using hin) hwf
    (fun ht => ⟨tracks_initial r, nodup_initial r recs (hids ht).1 (hids ht).2, hpops ht⟩)
  rw [hcalls k, calls_nil B r1 hin1]

theorem build64_WF (ndebug : Bool) : (build64 ndebug).WF := by
  cases ndebug <;>
  · refine ⟨?_, ?_, by decide⟩
    · intro a b h
      cases a <;> cases b <;> first | rfl | exact absurd h (by decide)
    · intro t
      cases t <;> decide

/-- C1 as amended, an instance: a context switch, a frame push, an allocation, a
padding byte and a memory record give `ALLOCATION_RECORD`, `MEMORY_RECORD` and then
`END_OF_FILE`. -/
theorem nextRecord_reports_body_witness :
    calls (build64 false) 3
        (freshReader true ((build64 false).encodeBody
          [.contextSwitch 7, .framePush 1, .allocation 1 0xdead 128, .padding,
            .memoryRecord 5 6])) =
      [.ALLOCATION_RECORD, .MEMORY_RECORD, .END_OF_FILE] :=
  nextRecord_reports_body (build64 false) (build64_WF false)
    [.contextSwitch 7, .framePush 1, .allocation 1 0xdead 128, .padding, .memoryRecord 5 6]
    (freshReader true ((build64 false).encodeBody
      [.contextSwitch 7, .framePush 1, .allocation 1 0xdead 128, .padding, .memoryRecord 5 6]))
    rfl
    (by
      intro rec hrec
      simp only [List.mem_cons, List.mem_singleton, List.not_mem_nil, or_false] at hrec
      rcases hrec with rfl | rfl | rfl | rfl | rfl <;> simp [Record.WF, build64])
    (fun _ => by simp [frameIds])
    (fun _ => by simp [popsOK])
    1

/-- C1 as stated fails: the body `FRAME_POP 1, ALLOCATION` is made of complete records
with known tags and defines no frame id twice, yet with stack tracking enabled no call
of `nextRecord` returns: the pop meets an empty stack, so the `assert` fails, and where
`assert` is compiled out `pop_back()` is applied to an empty vector. -/
theorem nextRecord_reports_body_counterexample :
    (∀ rec ∈ [Record.framePop 1, Record.allocation 1 0xdead 128], rec.WF (build64 false)) ∧
    (frameIds [Record.framePop 1, Record.allocation 1 0xdead 128]).Nodup ∧
    nextRecord (build64 false) (freshReader true ((build64 false).encodeBody
      [.framePop 1, .allocation 1 0xdead 128])) = .aborted ∧
    nextRecord (build64 true) (freshReader true ((build64 true).encodeBody
      [.framePop 1, .allocation 1 0xdead 128])) = .undefined ∧
    calls (build64 false) 2 (freshReader true ((build64 false).encodeBody
      [.framePop 1, .allocation 1 0xdead 128])) ≠ [.ALLOCATION_RECORD, .END_OF_FILE] ∧
    calls (build64 true) 2 (freshReader true ((build64 true).encodeBody
      [.framePop 1, .allocation 1 0xdead 128])) ≠ [.ALLOCATION_RECORD, .END_OF_FILE] := by
  refine ⟨?_, by simp [frameIds], by decide, by decide, by decide, by decide⟩
  intro rec hrec
  simp only [List.mem_cons, List.mem_singleton, List.not_mem_nil, or_false] at hrec
  rcases hrec with rfl | rfl <;> simp [Record.WF, build64]

/-! ## Allocation records -/

theorem nextRecord_allocation (B : Build) (hB : B.WF) (r : Reader) (a x s : Nat)
    (rest : List Byte) (ha : a * 2 ^ B.typeBits < 256) (hx : x < 2 ^ 64) (hs : s < 2 ^ 64)
    (hin : r.d_input = B.encode (.allocation a x s) ++ rest) :
    nextRecord B r = .returned .ALLOCATION_RECORD
      (processAllocationRecord { address := x, size := s, allocator := a }
        { r with d_input := rest }) := by
  have hwf : (Record.allocation a x s).WF B := ⟨ha, hx, hs⟩
  rw [nextRecord_eq, iteration_encode B hB _ hwf r rest hin]
  rfl

/-- C2. An `ALLOCATION` record with flags `a`, address `x` and varint size `s` that is
parsed while the current thread is `t` makes `nextRecord` return `ALLOCATION_RECORD`
with the latest allocation exactly `tid = t`, `address = x`, `size = s`,
`allocator = a`, `frame_index` the top of thread `t`'s stack (0 when that stack is
empty or stack tracking is disabled), `native_frame_id = 0`,
`native_segment_generation = 0`, `n_allocations = 1`; and `t` is what the last
`CONTEXT_SWITCH` record carried. -/
theorem allocation_snapshot (B : Build) (hB : B.WF) (r : Reader) (t a x s : Nat)
    (rest : List Byte) (ha : a * 2 ^ B.typeBits < 256) (hx : x < 2 ^ 64) (hs : s < 2 ^ 64)
    (ht : t < 256 ^ B.sizeof_thread_id) :
    (r.d_current_thread = t → r.d_input = B.encode (.allocation a x s) ++ rest →
      ∃ r1, nextRecord B r = .returned .ALLOCATION_RECORD r1 ∧ r1.d_input = rest ∧
        r1.d_latest_allocation =
          { tid := t, address := x, size := s, allocator := a, native_frame_id := 0,
            frame_index := if r.d_track_stacks then (r.stackOf t).getLast?.getD 0 else 0,
            native_segment_generation := 0, n_allocations := 1 }) ∧
    (r.d_input = B.encode (.contextSwitch t) ++ (B.encode (.allocation a x s) ++ rest) →
      ∃ r1, nextRecord B r = .returned .ALLOCATION_RECORD r1 ∧ r1.d_input = rest ∧
        r1.d_latest_allocation =
          { tid := t, address := x, size := s, allocator := a, native_frame_id := 0,
            frame_index := if r.d_track_stacks then (r.stackOf t).getLast?.getD 0 else 0,
            native_segment_generation := 0, n_allocations := 1 }) := by
  constructor
  · intro hcur hin
    refine ⟨_, nextRecord_allocation B hB r a x s rest ha hx hs hin, rfl, ?_⟩
    subst hcur
    rfl
  · intro hin
    have hit := iteration_encode B hB (.contextSwitch t) ht r _ hin
    rw [nextRecord_eq, hit]
    refine ⟨_, nextRecord_allocation B hB _ a x s rest ha hx hs rfl, rfl, rfl⟩

/-- C2, the scenario S2: `CONTEXT_SWITCH tid=7` then `ALLOCATION` with allocator 1,
address `0xdead` and size 128, without stack tracking. -/
theorem allocation_snapshot_witness :
    ∃ r1, nextRecord (build64 false) (freshReader false ((build64 false).encodeBody
        [.contextSwitch 7, .allocation 1 0xdead 128])) = .returned .ALLOCATION_RECORD r1 ∧
      r1.d_input = [] ∧
      r1.d_latest_allocation =
        { tid := 7, address := 0xdead, size := 128, allocator := 1, native_frame_id := 0,
          frame_index := 0, native_segment_generation := 0, n_allocations := 1 } :=
  (allocation_snapshot (build64 false) (build64_WF false)
    (freshReader false ((build64 false).encodeBody [.contextSwitch 7, .allocation 1 0xdead 128]))
    7 1 0xdead 128 [] (by decide) (by decide) (by decide) (by decide)).2 (by decide)

/-! ## Unknown record types -/

/-- C8. A header byte whose record type is none of the twelve kinds the `switch`
handles makes `nextRecord` return `ERROR`; this includes the `SEGMENT` tag, which is
only read inside a segment group. -/
theorem unknown_record_type_is_error (B : Build) (r : Reader) (hdr : Byte) (rest : List Byte)
    (hin : r.d_input = hdr :: rest) :
    ((∀ t, t ≠ RecordType.SEGMENT → B.typeOf hdr ≠ B.tag t) →
      nextRecord B r = .returned .ERROR { r with d_input := rest }) ∧
    (Function.Injective B.tag → B.typeOf hdr = B.tag .SEGMENT →
      nextRecord B r = .returned .ERROR { r with d_input := rest }) := by
  have key : (∀ t, t ≠ RecordType.SEGMENT → B.typeOf hdr ≠ B.tag t) →
      nextRecord B r = .returned .ERROR { r with d_input := rest } := by
    intro h
    rw [nextRecord_eq]
    unfold iteration
    simp only [hin]
    rw [if_neg (h _ (by decide)), if_neg (h _ (by decide)), if_neg (h _ (by decide)),
      if_neg (h _ (by decide)), if_neg (h _ (by decide)), if_neg (h _ (by decide)),
      if_neg (h _ (by decide)), if_neg (h _ (by decide)), if_neg (h _ (by decide)),
      if_neg (h _ (by decide)), if_neg (h _ (by decide)), if_neg (h _ (by decide))]
  refine ⟨key, fun hinj hseg => key fun t ht => ?_⟩
  rw [hseg]
  exact fun e => ht (hinj e).symm

/-- C8, two instances: the header byte 13, which is no record type, and the header
byte 8, the `SEGMENT` tag, at top level. -/
theorem unknown_record_type_is_error_witness :
    nextRecord (build64 false) (freshReader true [13, 1, 2]) =
        .returned .ERROR { freshReader true [13, 1, 2] with d_input := [1, 2] } ∧
      nextRecord (build64 false) (freshReader true [8, 1, 2]) =
        .returned .ERROR { freshReader true [8, 1, 2] with d_input := [1, 2] } :=
  ⟨(unknown_record_type_is_error (build64 false) (freshReader true [13, 1, 2]) 13 [1, 2]
      rfl).1 (by intro t _; cases t <;> decide),
   (unknown_record_type_is_error (build64 false) (freshReader true [8, 1, 2]) 8 [1, 2]
      rfl).2 (build64_WF false).1 (by decide)⟩

/-! ## Segment groups -/

/-- What a well-formed segment group does to the resolver when stack tracking is
enabled: one `add_segments` call, whose list is `n` zeroed segments followed by the `n`
parsed ones. -/
theorem segment_group_call (B : Build) (hB : B.WF) (r : Reader) (filename : List Byte)
    (base : Nat) (segs : List Segment) (rest : List Byte)
    (hwf : (Record.segmentGroup filename base segs).WF B) (ht : r.d_track_stacks = true)
    (hin : r.d_input = B.encode (.segmentGroup filename base segs) ++ rest) :
    iteration B r = .again { r with
      d_input := rest
      d_symbol_resolver :=
        { generation := r.d_symbol_resolver.generation
          calls := r.d_symbol_resolver.calls ++
            [.addSegments filename base (List.replicate segs.length zeroSegment ++ segs)] } } := by
  rw [iteration_encode B hB _ hwf r rest hin]
  simp only [Build.apply, ht, if_true]
  rfl

/-- C10 fails on the code. The scenario S4 (`MEMORY_MAP_START`, then the group "libc",
two segments, base `0x1000`, with segments `(0, 0x800)` and `(0x800, 0x800)`) with
stack tracking enabled: the resolver receives one `add_segments` call, but its list has
four entries, two zeroed segments ahead of the two parsed ones.
`std::vector<Segment> segments(num_segments)` already holds `num_segments` elements
when the loop starts to `emplace_back`. -/
theorem segment_group_S4 :
    (nextRecord (build64 false) (freshReader true ((build64 false).encodeBody
        [.memoryMapStart,
          .segmentGroup [108, 105, 98, 99] 0x1000
            [{ vaddr := 0, memsz := 0x800 }, { vaddr := 0x800, memsz := 0x800 }]]))).result? =
        some .END_OF_FILE ∧
      (nextRecord (build64 false) (freshReader true ((build64 false).encodeBody
        [.memoryMapStart,
          .segmentGroup [108, 105, 98, 99] 0x1000
            [{ vaddr := 0, memsz := 0x800 }, { vaddr := 0x800, memsz := 0x800 }]]))).reader?.map
          (fun r1 => r1.d_symbol_resolver.calls) =
        some [.clearSegments,
          .addSegments [108, 105, 98, 99] 0x1000
            [{ vaddr := 0, memsz := 0 }, { vaddr := 0, memsz := 0 },
              { vaddr := 0, memsz := 0x800 }, { vaddr := 0x800, memsz := 0x800 }]] :=
  ⟨by decide, by decide⟩

/-! ## Truncated records -/

theorem split_block (e rest a d : List Byte) (h : e ++ rest = a ++ d) :
    (∃ a2, a = e ++ a2 ∧ rest = a2 ++ d) ∨ (∃ c, c ≠ [] ∧ e = a ++ c) := by
  rcases List.append_eq_append_iff.1 h with ⟨a2, ha2, hrest⟩ | ⟨c, hc, hdc⟩
  · exact Or.inl ⟨a2, ha2, hrest⟩
  · by_cases hc0 : c = []
    · subst hc0
      refine Or.inl ⟨[], by simpa using hc.symm, by simpa using hdc.symm⟩
    · exact Or.inr ⟨c, hc0, hc⟩

theorem processFramePop_error (B : Build) (count : Nat) (r : Reader) (o : Outcome)
    (h : processFramePop B count r = .error o) : o.result? = none := by
  unfold processFramePop at h
  split at h
  · cases h
  · dsimp only at h
    split at h
    · cases h
      rfl
    · split at h
      · cases h
        rfl
      · cases h

theorem processFrameIndex_error (v : Nat × Frame) (r : Reader) (o : Outcome)
    (h : processFrameIndex v r = .error o) : o.result? = none := by
  unfold processFrameIndex at h
  split at h
  · cases h
  · split at h
    · cases h
      rfl
    · cases h

theorem get?_nodePosition (node : Nat × Nat) (ns : List (Nat × Nat)) (h : node ∈ ns) :
    ns.get? (nodePosition node ns) = some node := by
  induction ns with
  | nil => cases h
  | cons n ns ih =>
    unfold nodePosition
    split
    · rename_i hn
      simp [hn]
    · rename_i hn
      rcases List.mem_cons.1 h with rfl | hmem
      · exact absurd rfl hn
      · simpa using ih hmem

theorem getTraceIndex_nextNode (t : FrameTree) (parent frame_id : Nat) :
    (t.getTraceIndex parent frame_id).2.nextNode (t.getTraceIndex parent frame_id).1 =
      some (frame_id, parent) := by
  unfold FrameTree.getTraceIndex
  split
  · rename_i hmem
    simp only [FrameTree.nextNode, get?_nodePosition _ _ hmem, Option.map_some']
  · simp [FrameTree.nextNode]

theorem getTraceIndex_mono (t : FrameTree) (parent frame_id i : Nat) (x : Nat × Nat)
    (h : t.nextNode i = some x) : (t.getTraceIndex parent frame_id).2.nextNode i = some x := by
  unfold FrameTree.getTraceIndex
  split
  · exact h
  · cases i with
    | zero => simp [FrameTree.nextNode] at h
    | succ j =>
      simp only [FrameTree.nextNode, List.get?_eq_getElem?, Option.map_eq_some'] at h ⊢
      obtain ⟨n, hn, hx⟩ := h
      have hj : j < t.nodes.length := by
        by_contra hc
        rw [List.getElem?_eq_none (by omega)] at hn
        cases hn
      exact ⟨n, by rw [List.getElem?_append_left hj]; exact hn, hx⟩

theorem chained_mono (t : FrameTree) (parent frame_id : Nat) (fs stack : List Nat)
    (h : chained t fs stack) : chained (t.getTraceIndex parent frame_id).2 fs stack := by
  induction fs generalizing stack with
  | nil =>
    cases stack with
    | nil => trivial
    | cons i stack => exact h
  | cons f fs ih =>
    cases stack with
    | nil => exact h
    | cons i stack => exact ⟨getTraceIndex_mono _ _ _ _ _ h.1, ih _ h.2⟩

theorem chained_length (t : FrameTree) (fs stack : List Nat) (h : chained t fs stack) :
    fs.length = stack.length := by
  induction fs generalizing stack with
  | nil =>
    cases stack with
    | nil => rfl
    | cons i stack => exact absurd h id
  | cons f fs ih =>
    cases stack with
    | nil => exact absurd h id
    | cons i stack => simp [ih _ h.2]

theorem chained_drop (t : FrameTree) (k : Nat) (fs stack : List Nat) (h : chained t fs stack) :
    chained t (fs.drop k) (stack.drop k) := by
  induction k generalizing fs stack with
  | zero => simpa using h
  | succ k ih =>
    cases fs with
    | nil =>
      cases stack with
      | nil => trivial
      | cons i stack => exact absurd h id
    | cons f fs =>
      cases stack with
      | nil => exact absurd h id
      | cons i stack => exact ih _ _ h.2

theorem stackTop_eq_head (stack : List Nat) : stackTop stack = stack.reverse.head?.getD 0 := by
  unfold stackTop
  rw [List.head?_reverse]

/-- Walking from the top of a chained stack yields the descriptors of its frames,
topmost first, up to the limit. -/
theorem stackFrameLoop_chained (r : Reader) (desc : Nat → Frame) (fs stack : List Nat)
    (max : Nat) (h : chained r.d_tree fs stack)
    (hdesc : ∀ f ∈ fs, mapFind r.d_frame_map f = some (desc f)) :
    stackFrameLoop r max (stack.head?.getD 0) = some ((fs.take max).map desc) := by
  induction fs generalizing stack max with
  | nil =>
    cases stack with
    | nil =>
      cases max <;> simp [stackFrameLoop]
    | cons i stack => exact absurd h id
  | cons f fs ih =>
    cases stack with
    | nil => exact absurd h id
    | cons i stack =>
      obtain ⟨hnode, hrest⟩ := h
      cases i with
      | zero => simp [FrameTree.nextNode] at hnode
      | succ j =>
        cases max with
        | zero => simp [stackFrameLoop]
        | succ m =>
          have hf := hdesc f (by simp)
          have hrec := ih stack m hrest (fun g hg => hdesc g (by simp [hg]))
          simp only [List.head?_cons, Option.getD_some, stackFrameLoop, hnode, hf, hrec,
            List.take_succ_cons, List.map_cons]

theorem processFramePush_eq (frame_id : Nat) (r : Reader) (ht : r.d_track_stacks = true) :
    processFramePush frame_id r =
      { r with
        d_tree := (r.d_tree.getTraceIndex (stackTop (r.stackOf r.d_current_thread)) frame_id).2
        d_stack_traces := mapSet r.d_stack_traces r.d_current_thread
          (r.stackOf r.d_current_thread ++
            [(r.d_tree.getTraceIndex (stackTop (r.stackOf r.d_current_thread)) frame_id).1]) } := by
  unfold processFramePush
  simp only [ht, Bool.not_true, Bool.false_eq_true, if_false]

theorem reverse_take_sub (l : List Nat) (k : Nat) (hk : k ≤ l.length) :
    (l.take (l.length - k)).reverse = l.reverse.drop k := by
  rw [List.reverse_take]
  congr 1
  omega

/-- After the frames `fs` were pushed one after the other, the stack of the current
thread is chained to them; nothing but the tree and that stack has changed. -/
theorem pushes_chained (fs : List Nat) :
    ∀ (r : Reader) (below : List Nat), r.d_track_stacks = true →
      chained r.d_tree below (r.stackOf r.d_current_thread).reverse →
      chained (fs.foldl (fun r f => processFramePush f r) r).d_tree (fs.reverse ++ below)
          ((fs.foldl (fun r f => processFramePush f r) r).stackOf r.d_current_thread).reverse ∧
        (fs.foldl (fun r f => processFramePush f r) r).d_current_thread = r.d_current_thread ∧
        (fs.foldl (fun r f => processFramePush f r) r).d_frame_map = r.d_frame_map ∧
        (fs.foldl (fun r f => processFramePush f r) r).d_track_stacks = true ∧
        ∀ u, u ≠ r.d_current_thread →
          (fs.foldl (fun r f => processFramePush f r) r).stackOf u = r.stackOf u := by
  induction fs with
  | nil =>
    intro r below ht h
    exact ⟨by simpa using h, rfl, rfl, ht, fun _ _ => rfl⟩
  | cons f fs ih =>
    intro r below ht h
    have heq := processFramePush_eq f r ht
    have hcur : (processFramePush f r).d_current_thread = r.d_current_thread := by rw [heq]
    have hmap : (processFramePush f r).d_frame_map = r.d_frame_map := by rw [heq]
    have htr : (processFramePush f r).d_track_stacks = true := by rw [heq]; exact ht
    have htree : (processFramePush f r).d_tree =
        (r.d_tree.getTraceIndex (stackTop (r.stackOf r.d_current_thread)) f).2 := by rw [heq]
    have hst := processFramePush_stackOf f r ht
    have hchain : chained (processFramePush f r).d_tree (f :: below)
        ((processFramePush f r).stackOf (processFramePush f r).d_current_thread).reverse := by
      rw [hcur, hst, if_pos rfl, htree, List.reverse_append, List.reverse_singleton,
        List.singleton_append]
      refine ⟨?_, chained_mono _ _ _ _ _ h⟩
      rw [← stackTop_eq_head]
      exact getTraceIndex_nextNode _ _ _
    obtain ⟨h1, h2, h3, h4, h5⟩ := ih (processFramePush f r) (f :: below) htr hchain
    simp only [List.foldl_cons]
    refine ⟨?_, by rw [h2, hcur], by rw [h3, hmap], h4, fun u hu => ?_⟩
    · rw [hcur] at h1
      simpa using h1
    · rw [h5 u (by rw [hcur]; exact hu), hst, if_neg hu]

/-- C3, as amended. With stack tracking enabled, on a thread whose stack is empty, for
frame ids `f1 .. fn` with `n ≥ 1` (or any `n` where `assert` is compiled out) that the
frame dictionary defines, and `k ≤ n`: after the pushes of `f1 .. fn`, a pop of `k` and
an allocation, walking the managed stack from the allocation's `frame_index` with limit
`max_frames` yields exactly the descriptors of `f(n-k), .., f1`, topmost first, cut to
the first `max_frames`. -/
theorem walk_after_push_pop (B : Build) (r : Reader) (fs : List Nat) (k max_frames : Nat)
    (desc : Nat → Frame) (record : AllocationRecord) (ht : r.d_track_stacks = true)
    (hempty : r.stackOf r.d_current_thread = [])
    (hdesc : ∀ f ∈ fs, mapFind r.d_frame_map f = some (desc f)) (hk : k ≤ fs.length)
    (hn : B.ndebug = true ∨ fs ≠ []) :
    ∃ r1, processFramePop B k (fs.foldl (fun r f => processFramePush f r) r) = .ok r1 ∧
      Py_GetStackFrame (processAllocationRecord record r1)
          (processAllocationRecord record r1).d_latest_allocation.frame_index max_frames =
        some ((((fs.take (fs.length - k)).reverse).take max_frames).map desc) := by
  obtain ⟨hch, hcur, hmap, htr, _⟩ :=
    pushes_chained fs r [] ht (by rw [hempty]; trivial)
  generalize hr0 : fs.foldl (fun r f => processFramePush f r) r = r0 at hch hcur hmap htr
  rw [← hcur] at hch
  have hlen : fs.length = (r0.stackOf r0.d_current_thread).length := by
    have := chained_length _ _ _ hch
    simpa using this
  have hne : B.ndebug = false → r0.stackOf r0.d_current_thread ≠ [] := by
    intro hnd
    rcases hn with hn | hn
    · rw [hn] at hnd
      cases hnd
    · intro he
      rw [he] at hlen
      exact hn (List.length_eq_zero.1 hlen)
  obtain ⟨traces, hok, hst⟩ := processFramePop_ok B k r0 htr (by rw [← hlen]; exact hk) hne
  refine ⟨_, hok, ?_⟩
  have hdrop := chained_drop _ k _ _ hch
  simp only [List.append_nil] at hdrop
  have hwalk := stackFrameLoop_chained
    (processAllocationRecord record { r0 with d_stack_traces := traces }) desc _ _ max_frames
    hdrop (fun f hf => by
      show mapFind r0.d_frame_map f = _
      rw [hmap]
      exact hdesc f (List.mem_reverse.1 (List.mem_of_mem_drop hf)))
  have htop : (processAllocationRecord record
      { r0 with d_stack_traces := traces }).d_latest_allocation.frame_index =
      ((r0.stackOf r0.d_current_thread).reverse.drop k).head?.getD 0 := by
    show (if r0.d_track_stacks = true then
      stackTop (({ r0 with d_stack_traces := traces } : Reader).stackOf r0.d_current_thread)
      else 0) = _
    rw [if_pos htr, hst, if_pos rfl, stackTop_eq_head,
      reverse_take_sub _ _ (by rw [← hlen]; exact hk)]
  unfold Py_GetStackFrame
  have htr2 : (processAllocationRecord record
      { r0 with d_stack_traces := traces }).d_track_stacks = true := htr
  simp only [htr2, Bool.not_true, Bool.false_eq_true, if_false]
  rw [htop, hwalk, ← reverse_take_sub fs k hk]

/-- C3 as amended, the scenario S3: frames 1 ("f", "a.c", 10) and 2 ("g", "a.c", 20)
are defined, thread 1 pushes 1, pushes 2 and pops 1; the allocation's `frame_index`
walks to exactly the one descriptor of "f". -/
theorem walk_after_push_pop_witness :
    ∃ r1, processFramePop (build64 false) 1
        ([1, 2].foldl (fun r f => processFramePush f r)
          { freshReader true [] with
            d_current_thread := 1
            d_frame_map :=
              [(1, { function_name := [102], filename := [97, 46, 99], lineno := 10 }),
               (2, { function_name := [103], filename := [97, 46, 99], lineno := 20 })] }) =
        .ok r1 ∧
      Py_GetStackFrame
          (processAllocationRecord { address := 0xdead, size := 3, allocator := 1 } r1)
          (processAllocationRecord { address := 0xdead, size := 3, allocator := 1 }
            r1).d_latest_allocation.frame_index 10 =
        some [{ function_name := [102], filename := [97, 46, 99], lineno := 10 }] :=
  walk_after_push_pop (build64 false)
    { freshReader true [] with
      d_current_thread := 1
      d_frame_map :=
        [(1, { function_name := [102], filename := [97, 46, 99], lineno := 10 }),
         (2, { function_name := [103], filename := [97, 46, 99], lineno := 20 })] }
    [1, 2] 1 10
    (fun f => if f = 1 then { function_name := [102], filename := [97, 46, 99], lineno := 10 }
      else { function_name := [103], filename := [97, 46, 99], lineno := 20 })
    { address := 0xdead, size := 3, allocator := 1 } rfl rfl
    (by
      intro f hf
      simp only [List.mem_cons, List.mem_singleton, List.not_mem_nil, or_false] at hf
      rcases hf with rfl | rfl <;> rfl)
    (by decide) (Or.inr (by simp))

/-- The scenario S3 from the bytes: two `FRAME_INDEX` records, `CONTEXT_SWITCH 1`, two
pushes, a pop and an allocation; `nextRecord` returns `ALLOCATION_RECORD` and the walk
from the allocation's `frame_index` gives the descriptor of "f" alone. -/
theorem scenario_S3 :
    (nextRecord (build64 false) (freshReader true ((build64 false).encodeBody
        [.frameIndex 1 [102] [97, 46, 99] 10, .frameIndex 2 [103] [97, 46, 99] 20,
          .contextSwitch 1, .framePush 1, .framePush 2, .framePop 1,
          .allocation 1 0xdead 3]))).result? = some .ALLOCATION_RECORD ∧
      (nextRecord (build64 false) (freshReader true ((build64 false).encodeBody
        [.frameIndex 1 [102] [97, 46, 99] 10, .frameIndex 2 [103] [97, 46, 99] 20,
          .contextSwitch 1, .framePush 1, .framePush 2, .framePop 1,
          .allocation 1 0xdead 3]))).reader?.bind
          (fun r1 => Py_GetStackFrame r1 r1.d_latest_allocation.frame_index 10) =
        some [{ function_name := [102], filename := [97, 46, 99], lineno := 10 }] :=
  ⟨by decide, by decide⟩

/-- C3 as stated fails for the empty list of frames (`n = 0`, `k = 0`) where `assert` is
compiled in: `FRAME_POP 0` on the empty stack fails the assertion of `processFramePop`,
so that no allocation follows and nothing is walked; at the level of `nextRecord`, the
body `FRAME_POP 0, ALLOCATION` aborts. -/
theorem walk_after_push_pop_counterexample :
    processFramePop (build64 false) 0
        (([] : List Nat).foldl (fun r f => processFramePush f r) (freshReader true [])) =
      .error .aborted ∧
    nextRecord (build64 false) (freshReader true ((build64 false).encodeBody
      [.framePop 0, .allocation 1 0xdead 3])) = .aborted :=
  ⟨rfl, by decide⟩

/-! ## Matched pushes and pops -/

theorem applyOps_matched (B : Build) (ops : List StackOp) :
    ∀ (r : Reader) (base ext : List Nat), r.d_track_stacks = true →
      r.stackOf r.d_current_thread = base ++ ext → matched ext.length ops →
      (B.ndebug = false → popZeroOK (base.length + ext.length) ops) →
      ∃ r1, applyOps B ops r = .ok r1 ∧ r1.stackOf r.d_current_thread = base ∧
        r1.d_current_thread = r.d_current_thread ∧ r1.d_track_stacks = true := by
  induction ops with
  | nil =>
    intro r base ext ht hst hm _
    have hext : ext = [] := List.length_eq_zero.1 hm
    subst hext
    exact ⟨r, rfl, by simpa using hst, rfl, ht⟩
  | cons op ops ih =>
    intro r base ext ht hst hm hn
    cases op with
    | push f =>
      have heq := processFramePush_eq f r ht
      have hcur : (processFramePush f r).d_current_thread = r.d_current_thread := by rw [heq]
      have htr : (processFramePush f r).d_track_stacks = true := by rw [heq]; exact ht
      have hst1 := processFramePush_stackOf f r ht r.d_current_thread
      rw [if_pos rfl, hst, List.append_assoc] at hst1
      obtain ⟨r1, h1, h2, h3, h4⟩ := ih (processFramePush f r) base _ htr
        (by rw [hcur]; exact hst1) (by simpa [matched] using hm)
        (fun hnd => by
          have := hn hnd
          simp only [popZeroOK] at this
          simpa [Nat.add_assoc] using this)
      exact ⟨r1, h1, by rw [← hcur]; exact h2, by rw [h3, hcur], h4⟩
    | pop c =>
      obtain ⟨hc, hm⟩ := hm
      have hne : B.ndebug = false → r.stackOf r.d_current_thread ≠ [] := by
        intro hnd he
        rw [hst] at he
        obtain ⟨hb, hx⟩ := List.append_eq_nil.1 he
        subst hb
        subst hx
        have hc0 : c = 0 := by simpa using hc
        have := (hn hnd).1 hc0
        simp at this
      obtain ⟨traces, hok, hst1⟩ := processFramePop_ok B c r ht
        (by rw [hst, List.length_append]; omega) hne
      have hst2 := hst1 r.d_current_thread
      rw [if_pos rfl, hst, List.length_append, List.take_append_eq_append_take] at hst2
      have e1 : base.length + ext.length - c - base.length = ext.length - c := by omega
      have e2 : List.take (base.length + ext.length - c) base = base :=
        List.take_of_length_le (by omega)
      rw [e1, e2] at hst2
      obtain ⟨r1, h1, h2, h3, h4⟩ := ih { r with d_stack_traces := traces } base
        (ext.take (ext.length - c)) ht hst2
        (by rw [List.length_take, Nat.min_eq_left (Nat.sub_le _ _)]; exact hm)
        (fun hnd => by
          have := (hn hnd).2
          rw [List.length_take, Nat.min_eq_left (Nat.sub_le _ _)]
          have e3 : base.length + ext.length - c = base.length + (ext.length - c) := by omega
          rw [e3] at this
          exact this)
      exact ⟨r1, by simp only [applyOps, hok]; exact h1, h2, h3, h4⟩

/-- C4, as amended. With stack tracking enabled, after a sequence of `FRAME_PUSH` /
`FRAME_POP` records with matched counts on one thread, in which no pop of count 0 meets
an empty stack where `assert` is compiled in, the thread's stack, and with it the
`frame_index` a following allocation records, is what it was before the sequence. -/
theorem matched_ops_restore_stack (B : Build) (r : Reader) (ops : List StackOp)
    (ht : r.d_track_stacks = true) (hm : matched 0 ops)
    (hn : B.ndebug = false → popZeroOK (r.stackOf r.d_current_thread).length ops) :
    ∃ r1, applyOps B ops r = .ok r1 ∧
      r1.stackOf r.d_current_thread = r.stackOf r.d_current_thread ∧
      r1.d_current_thread = r.d_current_thread ∧
      ∀ record, (processAllocationRecord record r1).d_latest_allocation.frame_index =
        (processAllocationRecord record r).d_latest_allocation.frame_index := by
  obtain ⟨r1, h1, h2, h3, h4⟩ := applyOps_matched B ops r (r.stackOf r.d_current_thread) [] ht
    (by simp) hm (fun hnd => by simpa using hn hnd)
  refine ⟨r1, h1, h2, h3, fun record => ?_⟩
  show (if r1.d_track_stacks = true then stackTop (r1.stackOf r1.d_current_thread) else 0) =
    (if r.d_track_stacks = true then stackTop (r.stackOf r.d_current_thread) else 0)
  rw [if_pos h4, if_pos ht, h3, h2]

/-- C4 as amended, an instance where `assert` is compiled in: push 1, pop 0, pop 1 on a
thread whose stack is empty; the pop of count 0 meets a stack of one frame. -/
theorem matched_ops_restore_stack_witness :
    ∃ r1, applyOps (build64 false) [.push 1, .pop 0, .pop 1] (freshReader true []) = .ok r1 ∧
      r1.stackOf 0 = [] ∧ r1.d_current_thread = 0 ∧
      ∀ record, (processAllocationRecord record r1).d_latest_allocation.frame_index =
        (processAllocationRecord record (freshReader true [])).d_latest_allocation.frame_index :=
  matched_ops_restore_stack (build64 false) (freshReader true [])
    [.push 1, .pop 0, .pop 1] rfl (by simp [matched])
    (fun _ => by
      show popZeroOK 0 [.push 1, .pop 0, .pop 1]
      simp [popZeroOK])

/-- C4 as stated fails where `assert` is compiled in: the one-record sequence
`FRAME_POP 0` has matched counts (no push, pops summing to 0), yet on a thread whose
stack is empty `processFramePop` fails its assertion instead of leaving the stack as it
was. -/
theorem matched_ops_restore_stack_counterexample :
    matched 0 [StackOp.pop 0] ∧
      applyOps (build64 false) [StackOp.pop 0] (freshReader true []) = .error .aborted :=
  ⟨by simp [matched], rfl⟩

end Memray

namespace Memray

/-! ## The header -/

theorem parseHeaderFields_encode (B : Build) (native_traces : Bool)
    (na nf st et : Nat) (cmd rest : List Byte) (hna : na < 2 ^ 64) (hnf : nf < 2 ^ 64)
    (hst : st < 256 ^ B.sizeof_millis) (het : et < 256 ^ B.sizeof_millis)
    (hcmd : (0 : Byte) ∉ cmd) :
    parseHeaderFields B (leBytes 1 (if native_traces then 1 else 0) ++
        (leBytes sizeof_size_t na ++ (leBytes sizeof_size_t nf ++ (leBytes B.sizeof_millis st ++
          (leBytes B.sizeof_millis et ++ (cstring cmd ++ rest)))))) =
      some ((native_traces,
        { n_allocations := na, n_frames := nf, start_time := toSigned B.sizeof_millis st,
          end_time := toSigned B.sizeof_millis et }, cmd), rest) := by
  have hb : leNat (leBytes 1 (if native_traces then 1 else 0)) = if native_traces then 1 else 0 :=
    leNat_leBytes _ _ (by cases native_traces <;> simp)
  simp only [parseHeaderFields, read_leBytes, Option.bind_eq_bind, Option.some_bind,
    Option.pure_def, getline_cstring _ _ hcmd, leNat_leBytes_word _ hna, leNat_leBytes_word _ hnf,
    leNat_leBytes _ _ hst, leNat_leBytes _ _ het, hb]
  cases native_traces <;> simp

theorem consumes_parseHeaderFields (B : Build) : Consumes (parseHeaderFields B) :=
  consumes_bind (consumes_read _) fun _ =>
    consumes_bind (consumes_read _) fun _ =>
      consumes_bind (consumes_read _) fun _ =>
        consumes_bind (consumes_read _) fun _ =>
          consumes_bind (consumes_read _) fun _ =>
            consumes_bind (consumes_getline _) fun _ => consumes_pure _

theorem readHeader_encode (B : Build) (native_traces : Bool)
    (na nf st et : Nat) (cmd : List Byte) (pid alloc : Nat) (rest : List Byte)
    (hv : B.CURRENT_HEADER_VERSION < 256 ^ B.sizeof_version)
    (hna : na < 2 ^ 64) (hnf : nf < 2 ^ 64)
    (hst : st < 256 ^ B.sizeof_millis) (het : et < 256 ^ B.sizeof_millis)
    (hcmd : (0 : Byte) ∉ cmd) (hpid : pid < 256 ^ B.sizeof_pid)
    (halloc : alloc < 256 ^ B.sizeof_python_allocator) :
    readHeader B (B.encodeHeader native_traces na nf st et cmd pid alloc ++ rest) =
      .ok ({ magic := B.MAGIC, version := B.CURRENT_HEADER_VERSION,
             native_traces := native_traces,
             stats := { n_allocations := na, n_frames := nf,
                        start_time := toSigned B.sizeof_millis st,
                        end_time := toSigned B.sizeof_millis et },
             command_line := cmd, pid := toSigned B.sizeof_pid pid,
             python_allocator := alloc }, rest) := by
  unfold readHeader Build.encodeHeader
  simp only [List.append_assoc, read_append, ne_eq, not_true_eq_false, if_false, read_leBytes,
    leNat_leBytes _ _ hv, parseHeaderFields_encode B native_traces na nf st et cmd _ hna hnf hst
      het hcmd, leNat_leBytes _ _ hpid, leNat_leBytes _ _ halloc]

/-- C12. Construction fails with "does not look like a binary generated by memray"
(invalid format) on every input that does not start with the bytes of `MAGIC`, and
with "incompatible with this version" (version mismatch) on every input that starts
with `MAGIC` followed by a version field other than `CURRENT_HEADER_VERSION`; in
neither case is there a reader. -/
theorem construction_rejects (B : Build) (track_stacks : Bool) :
    (∀ s : List Byte, (∀ rest, s ≠ B.MAGIC ++ rest) →
      RecordReader.new B s track_stacks = .error .notMemray) ∧
    (∀ (v : Nat) (rest : List Byte), v < 256 ^ B.sizeof_version →
      v ≠ B.CURRENT_HEADER_VERSION →
      RecordReader.new B (B.MAGIC ++ (leBytes B.sizeof_version v ++ rest)) track_stacks =
        .error .incompatible) := by
  constructor
  · intro s hs
    unfold RecordReader.new readHeader
    cases hr : Source.read B.MAGIC.length s with
    | none => rfl
    | some x =>
      obtain ⟨magic, s1⟩ := x
      obtain ⟨hsplit, _⟩ := read_some hr
      have hne : magic ≠ B.MAGIC := fun e => hs s1 (by rw [hsplit, e])
      simp only [ne_eq, hne, not_false_eq_true, if_true]
  · intro v rest hv hne
    unfold RecordReader.new readHeader
    simp only [read_append, ne_eq, not_true_eq_false, if_false, read_leBytes,
      leNat_leBytes _ _ hv, hne, not_false_eq_true, if_true]

/-- C12, two instances (scenario S7): an input that does not start with the magic, and
the magic followed by version 5 where 6 is current. -/
theorem construction_rejects_witness :
    RecordReader.new (build64 false) [1, 2, 3] true = .error .notMemray ∧
      RecordReader.new (build64 false)
          ((build64 false).MAGIC ++ (leBytes (build64 false).sizeof_version 5 ++ [1, 0])) true =
        .error .incompatible :=
  ⟨(construction_rejects (build64 false) true).1 [1, 2, 3] (by
      intro rest h
      have := congrArg List.head? h
      simp [build64] at this),
   (construction_rejects (build64 false) true).2 5 [1, 0] (by decide) (by decide)⟩

theorem ofSigned_lt (w : Nat) (x : Int) : ofSigned w x < 256 ^ w := by
  unfold ofSigned
  have hpos : (0 : Int) < 2 ^ (8 * w) := by positivity
  have h1 := Int.emod_lt_of_pos x hpos
  have h0 := Int.emod_nonneg x (ne_of_gt hpos)
  have h256 : (256 : Nat) ^ w = 2 ^ (8 * w) := by
    rw [pow_mul]
    norm_num
  rw [h256]
  zify
  rw [Int.toNat_of_nonneg h0]
  exact_mod_cast h1

/-- Reading a signed field gives back the value that was written. -/
theorem toSigned_ofSigned (w : Nat) (x : Int) (hw : 0 < w)
    (h1 : -(2 ^ (8 * w - 1) : Int) ≤ x) (h2 : x < 2 ^ (8 * w - 1)) :
    toSigned w (ofSigned w x) = x := by
  have hM : (2 : Int) ^ (8 * w) = 2 * 2 ^ (8 * w - 1) := by
    rw [← pow_succ']
    congr 1
    omega
  have hH : (0 : Int) < 2 ^ (8 * w - 1) := by positivity
  unfold toSigned ofSigned
  by_cases hx : 0 ≤ x
  · have hmod : x % 2 ^ (8 * w) = x := Int.emod_eq_of_lt hx (by rw [hM]; omega)
    rw [hmod]
    have hlt : x.toNat < 2 ^ (8 * w - 1) := by
      zify
      rw [Int.toNat_of_nonneg hx]
      exact_mod_cast h2
    rw [if_pos hlt, Int.toNat_of_nonneg hx]
  · have hmod : x % 2 ^ (8 * w) = x + 2 ^ (8 * w) := by
      rw [← Int.add_emod_self]
      exact Int.emod_eq_of_lt (by rw [hM]; omega) (by omega)
    rw [hmod]
    have hnn : 0 ≤ x + 2 ^ (8 * w) := by rw [hM]; omega
    have hge : ¬ (x + 2 ^ (8 * w)).toNat < 2 ^ (8 * w - 1) := by
      intro hlt
      have : ((x + 2 ^ (8 * w)).toNat : Int) < 2 ^ (8 * w - 1) := by exact_mod_cast hlt
      rw [Int.toNat_of_nonneg hnn, hM] at this
      omega
    rw [if_neg hge, Int.toNat_of_nonneg hnn]
    ring

/-- C14 (amended). On a valid header followed by no body, whose `n_frames` is, when stack
tracking is enabled, no more than `d_frame_map.reserve` can reserve, construction
succeeds, `getHeader` returns the field values of the header (the signed ones, the two
times and the pid, as the integers that were written in two's complement; the command
line without its NUL), and the first `nextRecord` returns `END_OF_FILE`. -/
theorem valid_header_empty_trace (B : Build) (track_stacks native_traces : Bool)
    (na nf : Nat) (st et : Int) (cmd : List Byte) (pid : Int) (alloc : Nat)
    (hv : B.CURRENT_HEADER_VERSION < 256 ^ B.sizeof_version)
    (hna : na < 2 ^ 64) (hnf : nf < 2 ^ 64)
    (hm : 0 < B.sizeof_millis) (hp : 0 < B.sizeof_pid)
    (hst : -(2 ^ (8 * B.sizeof_millis - 1) : Int) ≤ st ∧ st < 2 ^ (8 * B.sizeof_millis - 1))
    (het : -(2 ^ (8 * B.sizeof_millis - 1) : Int) ≤ et ∧ et < 2 ^ (8 * B.sizeof_millis - 1))
    (hcmd : (0 : Byte) ∉ cmd)
    (hpid : -(2 ^ (8 * B.sizeof_pid - 1) : Int) ≤ pid ∧ pid < 2 ^ (8 * B.sizeof_pid - 1))
    (halloc : alloc < 256 ^ B.sizeof_python_allocator)
    (hcap : track_stacks = true → nf ≤ B.max_frames) :
    ∃ r, RecordReader.new B
        (B.encodeHeader native_traces na nf (ofSigned B.sizeof_millis st)
          (ofSigned B.sizeof_millis et) cmd (ofSigned B.sizeof_pid pid) alloc)
        track_stacks = .ok r ∧
      getHeader r =
        { magic := B.MAGIC, version := B.CURRENT_HEADER_VERSION,
          native_traces := native_traces,
          stats := { n_allocations := na, n_frames := nf, start_time := st, end_time := et },
          command_line := cmd, pid := pid, python_allocator := alloc } ∧
      nextRecord B r = .returned .END_OF_FILE r := by
  have h := readHeader_encode B native_traces na nf (ofSigned B.sizeof_millis st)
    (ofSigned B.sizeof_millis et) cmd (ofSigned B.sizeof_pid pid) alloc [] hv hna hnf
    (ofSigned_lt _ _) (ofSigned_lt _ _) hcmd (ofSigned_lt _ _) halloc
  rw [List.append_nil, toSigned_ofSigned _ st hm hst.1 hst.2,
    toSigned_ofSigned _ et hm het.1 het.2, toSigned_ofSigned _ pid hp hpid.1 hpid.2] at h
  have hres : (track_stacks && decide (B.max_frames < nf)) = false := by
    cases track_stacks with
    | false => rfl
    | true =>
      have := hcap rfl
      simp only [Bool.true_and, decide_eq_false_iff_not, Nat.not_lt]
      exact this
  unfold RecordReader.new
  rw [h]
  simp only [hres, Bool.false_eq_true, if_false]
  exact ⟨_, rfl, rfl, nextRecord_nil B _ rfl⟩

/-- C14 as amended, the scenario S1 with a start time before the epoch: a header with
native traces on, 3 allocations, 2 frames, times -5 and 20, the command line "py", pid
42 and allocator kind 1, read with stack tracking enabled. -/
theorem valid_header_empty_trace_witness :
    ∃ r, RecordReader.new (build64 false)
        ((build64 false).encodeHeader true 3 2 (ofSigned 8 (-5)) (ofSigned 8 20) [112, 121]
          (ofSigned 4 42) 1) true = .ok r ∧
      getHeader r =
        { magic := [109, 101, 109, 114, 97, 121, 0], version := 6, native_traces := true,
          stats := { n_allocations := 3, n_frames := 2, start_time := -5, end_time := 20 },
          command_line := [112, 121], pid := 42, python_allocator := 1 } ∧
      nextRecord (build64 false) r = .returned .END_OF_FILE r :=
  valid_header_empty_trace (build64 false) true true 3 2 (-5) 20 [112, 121] 42 1
    (by decide) (by decide) (by decide) (by decide) (by decide) (by decide) (by decide)
    (by decide) (by decide) (by decide) (fun _ => by decide)

/-- C14 as stated fails on the valid header that announces `2 ^ 61` frames, read with
stack tracking enabled: `d_frame_map.reserve(stats.n_frames)` throws and no reader is
constructed. -/
theorem valid_header_empty_trace_counterexample :
    RecordReader.new (build64 false)
        ((build64 false).encodeHeader true 3 (2 ^ 61) (ofSigned 8 10) (ofSigned 8 20) [112, 121]
          (ofSigned 4 42) 1) true = .error .reserveFailed := by
  rfl

theorem read_short (n : Nat) (s : List Byte) (h : s.length < n) : Source.read n s = none := by
  unfold Source.read
  rw [if_neg (by omega)]

theorem parseHeaderFields_nil (B : Build) : parseHeaderFields B [] = none := rfl

/-- A source that ends inside the version field, after the magic: the version read fails
untested, and what `header.version` then holds decides between the two errors. -/
theorem readHeader_short_version (B : Build) (a : List Byte)
    (ha : a.length < B.sizeof_version) :
    readHeader B (B.MAGIC ++ a) =
      .error (if B.staleVersion a = B.CURRENT_HEADER_VERSION then .failedInput
        else .incompatible) := by
  unfold readHeader
  simp only [read_append, ne_eq, not_true_eq_false, if_false, read_short _ _ ha]
  by_cases hver : B.staleVersion a = B.CURRENT_HEADER_VERSION
  · simp only [hver, not_true_eq_false, if_false, if_true, parseHeaderFields_nil]
  · simp only [hver, not_false_eq_true, if_true, if_false]

/-- C13, as amended. On every proper prefix of a valid header, construction fails. When
the source ends inside the magic, it fails with the invalid-format message. When it
ends inside the version field, a read that `readHeader` does not test, it fails with
"Failed to read input file." if the value then left in `header.version` is the current
version, and with the version-mismatch message otherwise. When it ends after the version
field, inside `native_traces`, the stats, the command line, the pid or the allocator
kind, it fails with one of the three "Failed to read ..." messages (the truncated-header
error). -/
theorem truncated_header (B : Build) (track_stacks native_traces : Bool)
    (na nf st et : Nat) (cmd : List Byte) (pid alloc : Nat) (p d : List Byte)
    (hv : B.CURRENT_HEADER_VERSION < 256 ^ B.sizeof_version)
    (hna : na < 2 ^ 64) (hnf : nf < 2 ^ 64)
    (hst : st < 256 ^ B.sizeof_millis) (het : et < 256 ^ B.sizeof_millis)
    (hcmd : (0 : Byte) ∉ cmd)
    (hsplit : B.encodeHeader native_traces na nf st et cmd pid alloc = p ++ d) (hd : d ≠ []) :
    (∃ e, RecordReader.new B p track_stacks = .error e) ∧
    (p.length < B.MAGIC.length → RecordReader.new B p track_stacks = .error .notMemray) ∧
    (B.MAGIC.length ≤ p.length → p.length < B.MAGIC.length + B.sizeof_version →
      RecordReader.new B p track_stacks =
        .error (if B.staleVersion (p.drop B.MAGIC.length) = B.CURRENT_HEADER_VERSION
          then .failedInput else .incompatible)) ∧
    (B.MAGIC.length + B.sizeof_version ≤ p.length →
      RecordReader.new B p track_stacks = .error .failedInput ∨
      RecordReader.new B p track_stacks = .error .failedPid ∨
      RecordReader.new B p track_stacks = .error .failedAllocator) := by
  have hshortP : p.length < B.MAGIC.length →
      RecordReader.new B p track_stacks = .error .notMemray := by
    intro hshort
    unfold RecordReader.new readHeader
    rw [read_short _ _ hshort]
  have hmidP : B.MAGIC.length ≤ p.length → p.length < B.MAGIC.length + B.sizeof_version →
      RecordReader.new B p track_stacks =
        .error (if B.staleVersion (p.drop B.MAGIC.length) = B.CURRENT_HEADER_VERSION
          then .failedInput else .incompatible) := by
    intro hge hlt
    unfold Build.encodeHeader at hsplit
    rcases split_block _ _ _ _ hsplit with ⟨a2, hp, _⟩ | ⟨c, hc0, hc⟩
    · subst hp
      rw [List.length_append] at hlt
      unfold RecordReader.new
      rw [readHeader_short_version B a2 (by omega), List.drop_left]
    · exfalso
      have := congrArg List.length hc
      rw [List.length_append] at this
      have : 0 < c.length := List.length_pos.2 hc0
      omega
  have hlongP : B.MAGIC.length + B.sizeof_version ≤ p.length →
      RecordReader.new B p track_stacks = .error .failedInput ∨
      RecordReader.new B p track_stacks = .error .failedPid ∨
      RecordReader.new B p track_stacks = .error .failedAllocator := by
    intro hlong
    unfold Build.encodeHeader at hsplit
    rcases split_block _ _ _ _ hsplit with ⟨a2, hp, h2⟩ | ⟨c, hc0, hc⟩
    swap
    · exfalso
      have := congrArg List.length hc
      rw [List.length_append] at this
      have : 0 < c.length := List.length_pos.2 hc0
      omega
    rcases split_block _ _ _ _ h2 with ⟨a3, ha2, h3⟩ | ⟨c, hc0, hc⟩
    swap
    · exfalso
      have hl := congrArg List.length hc
      rw [List.length_append, length_leBytes] at hl
      have : 0 < c.length := List.length_pos.2 hc0
      rw [hp, List.length_append] at hlong
      omega
    have hfull := parseHeaderFields_encode B native_traces na nf st et cmd [] hna hnf hst het hcmd
    simp only [List.append_nil] at hfull
    have h3' : (leBytes 1 (if native_traces then 1 else 0) ++ (leBytes sizeof_size_t na ++
        (leBytes sizeof_size_t nf ++ (leBytes B.sizeof_millis st ++
          (leBytes B.sizeof_millis et ++ cstring cmd))))) ++
        (leBytes B.sizeof_pid pid ++ leBytes B.sizeof_python_allocator alloc) = a3 ++ d := by
      rw [← h3]
      simp only [List.append_assoc]
    have hstart : ∀ rest : List Byte, readHeader B (B.MAGIC ++ (leBytes B.sizeof_version
        B.CURRENT_HEADER_VERSION ++ rest)) =
        match parseHeaderFields B rest with
        | none => .error .failedInput
        | some ((native_traces, stats, command_line), s3) =>
          match Source.read B.sizeof_pid s3 with
          | none => .error .failedPid
          | some (pid, s4) =>
            match Source.read B.sizeof_python_allocator s4 with
            | none => .error .failedAllocator
            | some (python_allocator, s5) =>
              .ok ({ magic := B.MAGIC, version := B.CURRENT_HEADER_VERSION,
                     native_traces := native_traces,
                     stats := stats, command_line := command_line,
                     pid := toSigned B.sizeof_pid (leNat pid),
                     python_allocator := leNat python_allocator }, s5) := by
      intro rest
      unfold readHeader
      simp only [read_append, ne_eq, not_true_eq_false, if_false, read_leBytes,
        leNat_leBytes _ _ hv]
    subst hp
    subst ha2
    unfold RecordReader.new
    rw [hstart]
    rcases split_block _ _ _ _ h3' with ⟨a4, ha3, h4⟩ | ⟨c, hc0, hc⟩
    swap
    · left
      rw [(consumes_parseHeaderFields B).truncated hfull hc hc0]
    subst ha3
    have hp1 := parseHeaderFields_encode B native_traces na nf st et cmd a4 hna hnf hst het hcmd
    simp only [← List.append_assoc] at hp1 ⊢
    rw [hp1]
    simp only
    rcases split_block _ _ _ _ h4 with ⟨a5, ha4, h5⟩ | ⟨c, hc0, hc⟩
    · right
      right
      subst ha4
      rw [read_leBytes]
      simp only
      have hl := congrArg List.length h5
      rw [length_leBytes, List.length_append] at hl
      have : 0 < d.length := List.length_pos.2 hd
      rw [read_short _ _ (by omega)]
    · right
      left
      have hl := congrArg List.length hc
      rw [length_leBytes, List.length_append] at hl
      have : 0 < c.length := List.length_pos.2 hc0
      rw [read_short _ _ (by omega)]
  refine ⟨?_, hshortP, hmidP, hlongP⟩
  by_cases h1 : p.length < B.MAGIC.length
  · exact ⟨_, hshortP h1⟩
  · by_cases h2 : p.length < B.MAGIC.length + B.sizeof_version
    · exact ⟨_, hmidP (Nat.le_of_not_lt h1) h2⟩
    · rcases hlongP (Nat.le_of_not_lt h2) with h | h | h
      · exact ⟨_, h⟩
      · exact ⟨_, h⟩
      · exact ⟨_, h⟩

/-- C13 as amended, on prefixes of the header with native traces on, 3 allocations, 2
frames, times 10 and 20, the command line "py", pid 42 and allocator kind 1: the magic
alone is met with the version-mismatch message (the version left is 0, not 6), the
magic with the first byte of the version with "Failed to read input file.", and the
header without its last byte with one of the three "Failed to read ..." messages. -/
theorem truncated_header_witness :
    RecordReader.new (build64 false) [109, 101, 109, 114, 97, 121, 0] true =
        .error .incompatible ∧
      RecordReader.new (build64 false) [109, 101, 109, 114, 97, 121, 0, 6] true =
        .error .failedInput ∧
      (RecordReader.new (build64 false)
          [109, 101, 109, 114, 97, 121, 0, 6, 0, 0, 0, 1, 3, 0, 0, 0, 0, 0, 0, 0, 2, 0, 0, 0, 0, 0,
            0, 0, 10, 0, 0, 0, 0, 0, 0, 0, 20, 0, 0, 0, 0, 0, 0, 0, 112, 121, 0, 42, 0, 0, 0]
          false = .error .failedInput ∨
        RecordReader.new (build64 false)
          [109, 101, 109, 114, 97, 121, 0, 6, 0, 0, 0, 1, 3, 0, 0, 0, 0, 0, 0, 0, 2, 0, 0, 0, 0, 0,
            0, 0, 10, 0, 0, 0, 0, 0, 0, 0, 20, 0, 0, 0, 0, 0, 0, 0, 112, 121, 0, 42, 0, 0, 0]
          false = .error .failedPid ∨
        RecordReader.new (build64 false)
          [109, 101, 109, 114, 97, 121, 0, 6, 0, 0, 0, 1, 3, 0, 0, 0, 0, 0, 0, 0, 2, 0, 0, 0, 0, 0,
            0, 0, 10, 0, 0, 0, 0, 0, 0, 0, 20, 0, 0, 0, 0, 0, 0, 0, 112, 121, 0, 42, 0, 0, 0]
          false = .error .failedAllocator) :=
  ⟨(truncated_header (build64 false) true true 3 2 10 20 [112, 121] 42 1
      [109, 101, 109, 114, 97, 121, 0]
      (((build64 false).encodeHeader true 3 2 10 20 [112, 121] 42 1).drop 7)
      (by decide) (by decide) (by decide) (by decide) (by decide) (by decide) (by decide)
      (by decide)).2.2.1 (by decide) (by decide),
    (truncated_header (build64 false) true true 3 2 10 20 [112, 121] 42 1
      [109, 101, 109, 114, 97, 121, 0, 6]
      (((build64 false).encodeHeader true 3 2 10 20 [112, 121] 42 1).drop 8)
      (by decide) (by decide) (by decide) (by decide) (by decide) (by decide) (by decide)
      (by decide)).2.2.1 (by decide) (by decide),
    (truncated_header (build64 false) false true 3 2 10 20 [112, 121] 42 1 _ [1]
      (by decide) (by decide) (by decide) (by decide) (by decide) (by decide) (by decide)
      (by decide)).2.2.2 (by decide)⟩

/-- C13 as stated fails: the two bytes "me" are a proper prefix of a valid header, and
construction fails on them with the invalid-format message ("does not look like a
binary generated by memray"), the one a wrong magic gets, not with a truncated-header
error. -/
theorem truncated_header_counterexample :
    (build64 false).encodeHeader true 3 2 10 20 [112, 121] 42 1 =
        [109, 101] ++ ((build64 false).encodeHeader true 3 2 10 20 [112, 121] 42 1).drop 2 ∧
      ((build64 false).encodeHeader true 3 2 10 20 [112, 121] 42 1).drop 2 ≠ [] ∧
      RecordReader.new (build64 false) [109, 101] true = .error .notMemray :=
  ⟨by decide, by decide, rfl⟩

end Memray

namespace Memray

/-! ## Running a body record by record -/

theorem apply_input (B : Build) (rec : Record) (r : Reader) :
    (∀ r1, B.apply rec r = .again r1 → r1.d_input = r.d_input) ∧
    (∀ res r1, B.apply rec r = .done (.returned res r1) → r1.d_input = r.d_input) := by
  cases rec with
  | framePush f =>
    refine ⟨fun r1 h => ?_, fun res r1 h => ?_⟩
    · simp only [Build.apply, Iteration.again.injEq] at h
      rw [← h, processFramePush_input]
    · simp [Build.apply] at h
  | framePop c =>
    refine ⟨fun r1 h => ?_, fun res r1 h => ?_⟩
    · simp only [Build.apply] at h
      cases hp : processFramePop B c r with
      | ok r2 =>
        rw [hp] at h
        simp only [Iteration.again.injEq] at h
        rw [← h, processFramePop_input B c r r2 hp]
      | error o =>
        rw [hp] at h
        cases h
    · simp only [Build.apply] at h
      cases hp : processFramePop B c r with
      | ok r2 =>
        rw [hp] at h
        cases h
      | error o =>
        rw [hp] at h
        simp only [Iteration.done.injEq] at h
        have := processFramePop_error B c r o hp
        rw [h] at this
        cases this
  | frameIndex id fn file l =>
    refine ⟨fun r1 h => ?_, fun res r1 h => ?_⟩
    · simp only [Build.apply] at h
      split at h
      · rename_i r2 hp
        simp only [Iteration.again.injEq] at h
        rw [← h, processFrameIndex_input _ r r2 hp]
      · cases h
    · simp only [Build.apply] at h
      split at h
      · cases h
      · rename_i o hp
        simp only [Iteration.done.injEq] at h
        have := processFrameIndex_error _ r o hp
        rw [h] at this
        cases this
  | nativeTraceIndex ip index =>
    refine ⟨fun r1 h => ?_, fun res r1 h => ?_⟩
    · simp only [Build.apply, Iteration.again.injEq] at h
      rw [← h, processNativeFrameIndex_input]
    · simp [Build.apply] at h
  | segmentGroup fn base segs =>
    refine ⟨fun r1 h => ?_, fun res r1 h => ?_⟩
    · simp only [Build.apply] at h
      split at h <;>
      · simp only [Iteration.again.injEq] at h
        rw [← h]
    · simp only [Build.apply] at h
      split at h <;> cases h
  | padding =>
    refine ⟨fun r1 h => ?_, fun res r1 h => ?_⟩
    · simp only [Build.apply, Iteration.again.injEq] at h
      rw [← h]
    · simp [Build.apply] at h
  | memoryMapStart =>
    refine ⟨fun r1 h => ?_, fun res r1 h => ?_⟩
    · simp only [Build.apply, Iteration.again.injEq] at h
      rw [← h]
      rfl
    · simp [Build.apply] at h
  | threadRecord name =>
    refine ⟨fun r1 h => ?_, fun res r1 h => ?_⟩
    · simp only [Build.apply, Iteration.again.injEq] at h
      rw [← h]
      rfl
    · simp [Build.apply] at h
  | contextSwitch tid =>
    refine ⟨fun r1 h => ?_, fun res r1 h => ?_⟩
    · simp only [Build.apply, Iteration.again.injEq] at h
      rw [← h]
      rfl
    · simp [Build.apply] at h
  | allocation a x s =>
    refine ⟨fun r1 h => ?_, fun res r1 h => ?_⟩
    · simp [Build.apply] at h
    · simp only [Build.apply, Iteration.done.injEq, Outcome.returned.injEq] at h
      rw [← h.2]
      rfl
  | allocationWithNative a x s nf =>
    refine ⟨fun r1 h => ?_, fun res r1 h => ?_⟩
    · simp [Build.apply] at h
    · simp only [Build.apply, Iteration.done.injEq, Outcome.returned.injEq] at h
      rw [← h.2]
      rfl
  | memoryRecord ms rss =>
    refine ⟨fun r1 h => ?_, fun res r1 h => ?_⟩
    · simp [Build.apply] at h
    · simp only [Build.apply, Iteration.done.injEq, Outcome.returned.injEq] at h
      rw [← h.2]
      rfl

theorem apply_report (B : Build) (rec : Record) (r : Reader) :
    (∀ r1, B.apply rec r = .again r1 → report rec = none) ∧
    (∀ res r1, B.apply rec r = .done (.returned res r1) → report rec = some res) := by
  cases rec with
  | framePop c =>
    refine ⟨fun _ _ => rfl, fun res r1 h => ?_⟩
    simp only [Build.apply] at h
    cases hp : processFramePop B c r with
    | ok r2 =>
      rw [hp] at h
      cases h
    | error o =>
      rw [hp] at h
      simp only [Iteration.done.injEq] at h
      have := processFramePop_error B c r o hp
      rw [h] at this
      cases this
  | frameIndex id fn file l =>
    refine ⟨fun _ _ => rfl, fun res r1 h => ?_⟩
    simp only [Build.apply] at h
    split at h
    · cases h
    · rename_i o hp
      simp only [Iteration.done.injEq] at h
      have := processFrameIndex_error _ r o hp
      rw [h] at this
      cases this
  | segmentGroup fn base segs =>
    refine ⟨fun _ _ => rfl, fun res r1 h => ?_⟩
    simp only [Build.apply] at h
    split at h <;> cases h
  | padding => exact ⟨fun _ _ => rfl, fun res r1 h => by simp [Build.apply] at h⟩
  | framePush f => exact ⟨fun _ _ => rfl, fun res r1 h => by simp [Build.apply] at h⟩
  | nativeTraceIndex ip index =>
    exact ⟨fun _ _ => rfl, fun res r1 h => by simp [Build.apply] at h⟩
  | memoryMapStart => exact ⟨fun _ _ => rfl, fun res r1 h => by simp [Build.apply] at h⟩
  | threadRecord name => exact ⟨fun _ _ => rfl, fun res r1 h => by simp [Build.apply] at h⟩
  | contextSwitch tid => exact ⟨fun _ _ => rfl, fun res r1 h => by simp [Build.apply] at h⟩
  | allocation a x s =>
    refine ⟨fun r1 h => by simp [Build.apply] at h, fun res r1 h => ?_⟩
    simp only [Build.apply, Iteration.done.injEq, Outcome.returned.injEq] at h
    rw [← h.1]
    rfl
  | allocationWithNative a x s nf =>
    refine ⟨fun r1 h => by simp [Build.apply] at h, fun res r1 h => ?_⟩
    simp only [Build.apply, Iteration.done.injEq, Outcome.returned.injEq] at h
    rw [← h.1]
    rfl
  | memoryRecord ms rss =>
    refine ⟨fun r1 h => by simp [Build.apply] at h, fun res r1 h => ?_⟩
    simp only [Build.apply, Iteration.done.injEq, Outcome.returned.injEq] at h
    rw [← h.1]
    rfl

theorem nthCall_again (B : Build) (r r1 : Reader) (h : iteration B r = .again r1) (n : Nat) :
    nthCall B n r = nthCall B n r1 := by
  have : nextRecord B r = nextRecord B r1 := by
    rw [nextRecord_eq B r, h]
  cases n <;> simp only [nthCall, this]

theorem nthCall_done (B : Build) (r r1 : Reader) (res : RecordResult)
    (h : iteration B r = .done (.returned res r1)) (n : Nat) :
    nthCall B (n + 1) r = nthCall B n r1 := by
  have : nextRecord B r = .returned res r1 := by
    rw [nextRecord_eq B r, h]
  simp only [nthCall, this]

/-- The reader that `Build.run` computes for a body is the reader that the calls of
`nextRecord` have reached when the body is read. -/
theorem run_nthCall (B : Build) (hB : B.WF) (recs : List Record) :
    ∀ (r r1 : Reader) (tail : List Byte), r.d_input = B.encodeBody recs ++ tail →
      (∀ rec ∈ recs, rec.WF B) → B.run recs tail r = some r1 →
      r1.d_input = tail ∧
        ∀ k, nthCall B ((recs.filterMap report).length + k) r = nthCall B k r1 := by
  induction recs with
  | nil =>
    intro r r1 tail hin _ hrun
    simp only [Build.run, Option.some.injEq] at hrun
    subst hrun
    exact ⟨by simpa [Build.encodeBody] using hin, fun k => by simp⟩
  | cons rec recs ih =>
    intro r r1 tail hin hwf hrun
    simp only [Build.encodeBody, List.append_assoc] at hin
    have hit := iteration_encode B hB rec (hwf rec (by simp)) r _ hin
    simp only [Build.run] at hrun
    cases hap : B.apply rec { r with d_input := B.encodeBody recs ++ tail } with
    | again r2 =>
      rw [hap] at hrun hit
      have hin2 := (apply_input B rec _).1 r2 hap
      obtain ⟨h1, h2⟩ := ih r2 r1 tail hin2 (fun x hx => hwf x (by simp [hx])) hrun
      refine ⟨h1, fun k => ?_⟩
      have hrep : report rec = none := (apply_report B rec _).1 r2 hap
      simp only [List.filterMap_cons, hrep]
      rw [nthCall_again B r r2 hit, h2 k]
    | done o =>
      rw [hap] at hrun hit
      cases o with
      | returned res r2 =>
        simp only at hrun
        have hin2 := (apply_input B rec _).2 res r2 hap
        obtain ⟨h1, h2⟩ := ih r2 r1 tail hin2 (fun x hx => hwf x (by simp [hx])) hrun
        refine ⟨h1, fun k => ?_⟩
        have hx : report rec = some res := (apply_report B rec _).2 res r2 hap
        simp only [List.filterMap_cons, hx, List.length_cons]
        rw [Nat.add_right_comm, nthCall_done B r r2 res hit, h2 k]
      | threw r2 => cases hrun
      | aborted => cases hrun
      | undefined => cases hrun

end Memray

namespace Memray

theorem run_cons (B : Build) (rec : Record) (recs : List Record) (tail : List Byte)
    (r : Reader) :
    B.run (rec :: recs) tail r =
      ((B.apply rec { r with d_input := B.encodeBody recs ++ tail }).next?).bind
        (B.run recs tail) := by
  simp only [Build.run]
  cases hap : B.apply rec { r with d_input := B.encodeBody recs ++ tail } with
  | again r1 => rfl
  | done o => cases o <;> rfl

theorem run_ok (B : Build) (recs : List Record) :
    ∀ (r : Reader) (tail : List Byte) (ids : List Nat) (depth : Nat → Nat),
      (r.d_track_stacks = true → Tracks r ids depth ∧ (ids ++ frameIds recs).Nodup ∧
        popsOK B r.d_current_thread depth recs) →
      ∃ r1, B.run recs tail r = some r1 := by
  induction recs with
  | nil => exact fun r _ _ _ _ => ⟨r, rfl⟩
  | cons rec recs ih =>
    intro r tail ids depth hinv
    obtain ⟨r1, ids1, depth1, _, _, happ, hinv1⟩ :=
      apply_step B rec recs { r with d_input := B.encodeBody recs ++ tail } ids depth hinv
    obtain ⟨r2, h2⟩ := ih r1 tail ids1 depth1 hinv1
    refine ⟨r2, ?_⟩
    rw [run_cons, happ]
    cases report rec <;> exact h2

/-- A body of complete records that defines no frame id twice and pops within the
stacks can be run to its end. -/
theorem run_ok_initial (B : Build) (recs : List Record) (r : Reader) (tail : List Byte)
    (hids : r.d_track_stacks = true →
      (frameIds recs).Nodup ∧ ∀ id ∈ frameIds recs, mapFind r.d_frame_map id = none)
    (hpops : r.d_track_stacks = true →
      popsOK B r.d_current_thread (fun t => (r.stackOf t).length) recs) :
    ∃ r1, B.run recs tail r = some r1 :=
  run_ok B recs r tail _ _
    (fun ht => ⟨tracks_initial r, nodup_initial r recs (hids ht).1 (hids ht).2, hpops ht⟩)

theorem processFramePop_ok_eq (B : Build) (count : Nat) (r r1 : Reader)
    (h : processFramePop B count r = .ok r1) :
    ∃ traces, r1 = { r with d_stack_traces := traces } := by
  unfold processFramePop at h
  split at h
  · cases h
    exact ⟨r.d_stack_traces, rfl⟩
  · dsimp only at h
    split at h
    · cases h
    · split at h
      · cases h
      · cases h
        exact ⟨_, rfl⟩

theorem processFrameIndex_ok_eq (v : Nat × Frame) (r r1 : Reader)
    (h : processFrameIndex v r = .ok r1) :
    r1 = r ∨ (r.d_track_stacks = true ∧ mapFind r.d_frame_map v.1 = none ∧
      r1 = { r with d_frame_map := mapSet r.d_frame_map v.1 v.2 }) := by
  unfold processFrameIndex at h
  split at h
  · cases h
    exact Or.inl rfl
  · rename_i ht
    split at h
    · cases h
    · rename_i hnone
      cases h
      exact Or.inr ⟨by simpa using ht, hnone, rfl⟩

theorem processFramePush_frame_map (f : Nat) (r : Reader) :
    (processFramePush f r).d_frame_map = r.d_frame_map := by
  unfold processFramePush
  split <;> rfl

theorem processNativeFrameIndex_frame_map (f : UnresolvedNativeFrame) (r : Reader) :
    (processNativeFrameIndex f r).d_frame_map = r.d_frame_map := by
  unfold processNativeFrameIndex
  split <;> rfl

/-- The frame dictionary only grows: what it holds for an id stays. -/
theorem apply_frames_mono (B : Build) (rec : Record) (r r1 : Reader) (id : Nat) (d : Frame)
    (h : (B.apply rec r).next? = some r1) (hd : mapFind r.d_frame_map id = some d) :
    mapFind r1.d_frame_map id = some d := by
  cases rec with
  | framePop c =>
    simp only [Build.apply] at h
    cases hp : processFramePop B c r with
    | ok r2 =>
      rw [hp] at h
      simp only [Iteration.next?, Option.some.injEq] at h
      obtain ⟨traces, rfl⟩ := processFramePop_ok_eq B c r r2 hp
      rw [← h]
      exact hd
    | error o =>
      rw [hp] at h
      have := processFramePop_error B c r o hp
      cases o <;> simp [Iteration.next?, Outcome.result?] at h this
  | frameIndex fid fn file l =>
    simp only [Build.apply] at h
    split at h
    · rename_i r2 hp
      simp only [Iteration.next?, Option.some.injEq] at h
      subst h
      rcases processFrameIndex_ok_eq _ r r2 hp with rfl | ⟨_, hnone, rfl⟩
      · exact hd
      · simp only [mapFind_mapSet]
        split
        · rename_i he
          rw [he, hnone] at hd
          cases hd
        · exact hd
    · rename_i o hp
      have := processFrameIndex_error _ r o hp
      cases o <;> simp [Iteration.next?, Outcome.result?] at h this
  | segmentGroup fn base segs =>
    simp only [Build.apply] at h
    split at h <;>
    · simp only [Iteration.next?, Option.some.injEq] at h
      rw [← h]
      exact hd
  | framePush f =>
    simp only [Build.apply, Iteration.next?, Option.some.injEq] at h
    rw [← h, processFramePush_frame_map]
    exact hd
  | nativeTraceIndex ip index =>
    simp only [Build.apply, Iteration.next?, Option.some.injEq] at h
    rw [← h, processNativeFrameIndex_frame_map]
    exact hd
  | padding =>
    simp only [Build.apply, Iteration.next?, Option.some.injEq] at h
    rw [← h]
    exact hd
  | memoryMapStart =>
    simp only [Build.apply, Iteration.next?, Option.some.injEq] at h
    rw [← h]
    exact hd
  | threadRecord name =>
    simp only [Build.apply, Iteration.next?, Option.some.injEq] at h
    rw [← h]
    exact hd
  | contextSwitch tid =>
    simp only [Build.apply, Iteration.next?, Option.some.injEq] at h
    rw [← h]
    exact hd
  | allocation a x s =>
    simp only [Build.apply, Iteration.next?, Option.some.injEq] at h
    rw [← h]
    exact hd
  | allocationWithNative a x s nf =>
    simp only [Build.apply, Iteration.next?, Option.some.injEq] at h
    rw [← h]
    exact hd
  | memoryRecord ms rss =>
    simp only [Build.apply, Iteration.next?, Option.some.injEq] at h
    rw [← h]
    exact hd

theorem run_frames_mono (B : Build) (recs : List Record) :
    ∀ (r r1 : Reader) (tail : List Byte) (id : Nat) (d : Frame),
      B.run recs tail r = some r1 → mapFind r.d_frame_map id = some d →
      mapFind r1.d_frame_map id = some d := by
  induction recs with
  | nil =>
    intro r r1 tail id d h hd
    simp only [Build.run, Option.some.injEq] at h
    rw [← h]
    exact hd
  | cons rec recs ih =>
    intro r r1 tail id d h hd
    rw [run_cons] at h
    cases hn : (B.apply rec { r with d_input := B.encodeBody recs ++ tail }).next? with
    | none =>
      rw [hn] at h
      cases h
    | some r2 =>
      rw [hn] at h
      exact ih r2 r1 tail id d h (apply_frames_mono B rec _ r2 id d hn hd)

theorem apply_track (B : Build) (rec : Record) (r r1 : Reader)
    (h : (B.apply rec r).next? = some r1) : r1.d_track_stacks = r.d_track_stacks := by
  cases rec with
  | framePop c =>
    simp only [Build.apply] at h
    cases hp : processFramePop B c r with
    | ok r2 =>
      rw [hp] at h
      simp only [Iteration.next?, Option.some.injEq] at h
      obtain ⟨traces, rfl⟩ := processFramePop_ok_eq B c r r2 hp
      rw [← h]
    | error o =>
      rw [hp] at h
      have := processFramePop_error B c r o hp
      cases o <;> simp [Iteration.next?, Outcome.result?] at h this
  | frameIndex fid fn file l =>
    simp only [Build.apply] at h
    split at h
    · rename_i r2 hp
      simp only [Iteration.next?, Option.some.injEq] at h
      subst h
      rcases processFrameIndex_ok_eq _ r r2 hp with rfl | ⟨_, _, rfl⟩ <;> rfl
    · rename_i o hp
      have := processFrameIndex_error _ r o hp
      cases o <;> simp [Iteration.next?, Outcome.result?] at h this
  | segmentGroup fn base segs =>
    simp only [Build.apply] at h
    split at h <;>
    · simp only [Iteration.next?, Option.some.injEq] at h
      rw [← h]
  | framePush f =>
    simp only [Build.apply, Iteration.next?, Option.some.injEq] at h
    rw [← h]
    unfold processFramePush
    split <;> rfl
  | nativeTraceIndex ip index =>
    simp only [Build.apply, Iteration.next?, Option.some.injEq] at h
    rw [← h]
    unfold processNativeFrameIndex
    split <;> rfl
  | padding =>
    simp only [Build.apply, Iteration.next?, Option.some.injEq] at h
    rw [← h]
  | memoryMapStart =>
    simp only [Build.apply, Iteration.next?, Option.some.injEq] at h
    rw [← h]
    rfl
  | threadRecord name =>
    simp only [Build.apply, Iteration.next?, Option.some.injEq] at h
    rw [← h]
    rfl
  | contextSwitch tid =>
    simp only [Build.apply, Iteration.next?, Option.some.injEq] at h
    rw [← h]
    rfl
  | allocation a x s =>
    simp only [Build.apply, Iteration.next?, Option.some.injEq] at h
    rw [← h]
    rfl
  | allocationWithNative a x s nf =>
    simp only [Build.apply, Iteration.next?, Option.some.injEq] at h
    rw [← h]
    rfl
  | memoryRecord ms rss =>
    simp only [Build.apply, Iteration.next?, Option.some.injEq] at h
    rw [← h]
    rfl

theorem run_track (B : Build) (recs : List Record) :
    ∀ (r r1 : Reader) (tail : List Byte), B.run recs tail r = some r1 →
      r1.d_track_stacks = r.d_track_stacks := by
  induction recs with
  | nil =>
    intro r r1 tail h
    simp only [Build.run, Option.some.injEq] at h
    rw [← h]
  | cons rec recs ih =>
    intro r r1 tail h
    rw [run_cons] at h
    cases hn : (B.apply rec { r with d_input := B.encodeBody recs ++ tail }).next? with
    | none =>
      rw [hn] at h
      cases h
    | some r2 =>
      rw [hn] at h
      rw [ih r2 r1 tail h, apply_track B rec _ r2 hn]

/-- After a body was run with stack tracking enabled, the frame dictionary holds the
descriptor of each of its `FRAME_INDEX` records. -/
theorem run_frames (B : Build) (recs : List Record) :
    ∀ (r r1 : Reader) (tail : List Byte) (id : Nat) (fn file : List Byte) (l : Nat),
      B.run recs tail r = some r1 → r.d_track_stacks = true →
      Record.frameIndex id fn file l ∈ recs →
      mapFind r1.d_frame_map id =
        some { function_name := fn, filename := file, lineno := toSigned B.sizeof_lineno l } := by
  induction recs with
  | nil =>
    intro r r1 tail id fn file l _ _ hmem
    cases hmem
  | cons rec recs ih =>
    intro r r1 tail id fn file l h ht hmem
    rw [run_cons] at h
    cases hn : (B.apply rec { r with d_input := B.encodeBody recs ++ tail }).next? with
    | none =>
      rw [hn] at h
      cases h
    | some r2 =>
      rw [hn] at h
      have ht2 : r2.d_track_stacks = true := by rw [apply_track B rec _ r2 hn]; exact ht
      rcases List.mem_cons.1 hmem with heq | hmem
      · subst heq
        apply run_frames_mono B recs r2 r1 tail id _ h
        simp only [Build.apply] at hn
        split at hn
        · rename_i r3 hp
          simp only [Iteration.next?, Option.some.injEq] at hn
          subst hn
          rcases processFrameIndex_ok_eq _ _ r3 hp with hsame | ⟨_, _, rfl⟩
          · exfalso
            unfold processFrameIndex at hp
            simp only [ht, Bool.not_true, Bool.false_eq_true, if_false] at hp
            split at hp
            · cases hp
            · rename_i hnone
              simp only [Except.ok.injEq] at hp
              rw [hsame] at hp
              have := congrArg (fun x => mapFind x.d_frame_map id) hp
              simp only [mapFind_mapSet, if_true] at this
              rw [hnone] at this
              cases this
          · simp [mapFind_mapSet]
        · rename_i o hp
          have := processFrameIndex_error _ _ o hp
          cases o <;> simp [Iteration.next?, Outcome.result?] at hn this
      · exact ih r2 r1 tail id fn file l h ht2 hmem

/-- C11, as amended. With stack tracking enabled, for every body in which a
`FRAME_INDEX` record repeats the `frame_id` of an earlier one, the call of `nextRecord`
that reaches the second record does not return: the `std::runtime_error` "Two entries
with the same ID found!" leaves it, and the frame dictionary keeps the first descriptor
for that id. -/
theorem duplicate_frame_id_throws (B : Build) (hB : B.WF) (recs : List Record) (r : Reader)
    (id : Nat) (fn1 file1 : List Byte) (l1 : Nat) (fn2 file2 : List Byte) (l2 : Nat)
    (rest : List Byte) (ht : r.d_track_stacks = true) (hwf : ∀ rec ∈ recs, rec.WF B)
    (hwf2 : (Record.frameIndex id fn2 file2 l2).WF B)
    (hids : (frameIds recs).Nodup ∧ ∀ x ∈ frameIds recs, mapFind r.d_frame_map x = none)
    (hpops : popsOK B r.d_current_thread (fun t => (r.stackOf t).length) recs)
    (hfirst : Record.frameIndex id fn1 file1 l1 ∈ recs)
    (hin : r.d_input = B.encodeBody recs ++ (B.encode (.frameIndex id fn2 file2 l2) ++ rest)) :
    ∃ r1, nthCall B (recs.filterMap report).length r = some (.threw r1) ∧
      r1.d_input = rest ∧
      mapFind r1.d_frame_map id =
        some { function_name := fn1, filename := file1,
               lineno := toSigned B.sizeof_lineno l1 } := by
  obtain ⟨r0, hrun⟩ := run_ok_initial B recs r
    (B.encode (.frameIndex id fn2 file2 l2) ++ rest) (fun _ => hids) (fun _ => hpops)
  obtain ⟨hin0, hcall⟩ := run_nthCall B hB recs r r0 _ hin hwf hrun
  have ht0 : r0.d_track_stacks = true := by rw [run_track B recs r r0 _ hrun]; exact ht
  have hd := run_frames B recs r r0 _ id fn1 file1 l1 hrun ht hfirst
  have hit := iteration_encode B hB _ hwf2 r0 rest hin0
  have hthrow : processFrameIndex
      (id, { function_name := fn2, filename := file2, lineno := toSigned B.sizeof_lineno l2 })
      { r0 with d_input := rest } = .error (.threw { r0 with d_input := rest }) := by
    unfold processFrameIndex
    simp only [ht0, Bool.not_true, Bool.false_eq_true, if_false, hd]
  simp only [Build.apply, hthrow] at hit
  refine ⟨{ r0 with d_input := rest }, ?_, rfl, hd⟩
  have := hcall 0
  rw [Nat.add_zero] at this
  rw [this]
  simp only [nthCall, nextRecord_eq B r0, hit]

/-- C11 as amended, the scenario S6: two `FRAME_INDEX` records with `frame_id` 5, the
first for "f", the second for "g". -/
theorem duplicate_frame_id_throws_witness :
    ∃ r1, nthCall (build64 false) 0
        (freshReader true ((build64 false).encodeBody
          [.frameIndex 5 [102] [97, 46, 99] 10, .frameIndex 5 [103] [97, 46, 99] 20])) =
        some (.threw r1) ∧
      r1.d_input = [] ∧
      mapFind r1.d_frame_map 5 =
        some { function_name := [102], filename := [97, 46, 99], lineno := 10 } :=
  duplicate_frame_id_throws (build64 false) (build64_WF false)
    [.frameIndex 5 [102] [97, 46, 99] 10]
    (freshReader true ((build64 false).encodeBody
      [.frameIndex 5 [102] [97, 46, 99] 10, .frameIndex 5 [103] [97, 46, 99] 20]))
    5 [102] [97, 46, 99] 10 [103] [97, 46, 99] 20 [] rfl
    (by
      intro rec hrec
      simp only [List.mem_singleton] at hrec
      subst hrec
      simp [Record.WF, build64])
    (by simp [Record.WF, build64])
    ⟨by simp [frameIds], by simp [frameIds, freshReader, mapFind]⟩
    (by simp [popsOK])
    (by simp)
    (by decide)

/-- C11 as stated fails on the scenario S6 (two `FRAME_INDEX` records with `frame_id`
5): with stack tracking enabled `nextRecord` does not return `ERROR`, it does not
return at all (the exception of `processFrameIndex` leaves it); with stack tracking
disabled the duplicate goes unnoticed and `nextRecord` returns `END_OF_FILE`. -/
theorem duplicate_frame_id_counterexample :
    (nextRecord (build64 false)
        (freshReader true ((build64 false).encodeBody
          [.frameIndex 5 [102] [97, 46, 99] 10, .frameIndex 5 [103] [97, 46, 99] 20]))).result? =
        none ∧
      (nextRecord (build64 false)
        (freshReader false ((build64 false).encodeBody
          [.frameIndex 5 [102] [97, 46, 99] 10, .frameIndex 5 [103] [97, 46, 99] 20]))).result? =
        some .END_OF_FILE :=
  ⟨by decide, by decide⟩

end Memray

namespace Memray

/-! ## The native stack walk -/

theorem nativeStackFrameLoop_chain {F : Type} (r : Reader)
    (resolve : Nat → Nat → Option (List F)) (generation : Nat) :
    ∀ (remaining index : Nat),
      nativeStackFrameLoop r resolve generation remaining index =
        (chainIps r.d_native_frames remaining index).map
          (fun ips => (ips.map (fun ip => (resolve ip generation).getD [])).flatten) := by
  intro remaining
  induction remaining with
  | zero =>
    intro index
    cases index <;> simp [nativeStackFrameLoop, chainIps]
  | succ n ih =>
    intro index
    cases index with
    | zero => simp [nativeStackFrameLoop, chainIps]
    | succ i =>
      simp only [nativeStackFrameLoop, chainIps]
      cases hf : r.d_native_frames.get? i with
      | none => simp
      | some frame =>
        simp only [ih frame.index]
        cases hc : chainIps r.d_native_frames n frame.index with
        | none => simp
        | some ips =>
          cases hr : resolve frame.ip generation <;> simp [hr]

theorem chainIps_length (frames : List UnresolvedNativeFrame) :
    ∀ (limit index : Nat) (ips : List Nat), chainIps frames limit index = some ips →
      ips.length ≤ limit := by
  intro limit
  induction limit with
  | zero =>
    intro index ips h
    cases index <;> simp_all [chainIps]
  | succ n ih =>
    intro index ips h
    cases index with
    | zero => simp_all [chainIps]
    | succ i =>
      rw [chainIps] at h
      simp only [List.get?_eq_getElem?] at h
      cases hf : frames[i]? with
      | none => simp [hf] at h
      | some frame =>
        rw [hf] at h
        simp only at h
        cases hc : chainIps frames n frame.index with
        | none => simp [hc] at h
        | some ips1 =>
          rw [hc] at h
          simp only [Option.some.injEq] at h
          have := ih frame.index ips1 hc
          rw [← h]
          simp only [List.length_cons]
          omega

/-- C15 (amended): `Py_GetNativeStackFrame` follows the `parent_index` links from the start
index through at most `max_stacks` instruction pointers (`chainIps`; every visited IP
counts, also one the resolver has no frames for), and returns, in chain order, all the
frames the resolver gives for each visited IP, nothing for an IP it has no frames for; it
stops when the index is 0 or `max_stacks` IPs were visited. With stack tracking disabled
it returns an error. -/
theorem native_walk_follows_chain {F : Type} (r : Reader)
    (resolve : Nat → Nat → Option (List F)) (index generation max_stacks : Nat) :
    Py_GetNativeStackFrame r resolve index generation max_stacks =
        (if r.d_track_stacks then
          (chainIps r.d_native_frames max_stacks index).map
            (fun ips => (ips.map (fun ip => (resolve ip generation).getD [])).flatten)
        else none) ∧
      ∀ ips, chainIps r.d_native_frames max_stacks index = some ips →
        ips.length ≤ max_stacks := by
  refine ⟨?_, chainIps_length _ _ _⟩
  unfold Py_GetNativeStackFrame
  cases r.d_track_stacks <;> simp [nativeStackFrameLoop_chain]

/-- C15 as amended, on a list of two native frames (frame 2 has frame 1 as its parent,
the resolver has two frames for the IP of frame 1 and none for the IP of frame 2): the
walk from index 2 with a limit of 5 visits both IPs and returns the two frames. -/
theorem native_walk_follows_chain_witness :
    Py_GetNativeStackFrame
        { freshReader true [] with
          d_native_frames := [{ ip := 100, index := 0 }, { ip := 200, index := 1 }] }
        (fun ip _ => if ip = 100 then some [1, 2] else none) 2 0 5 = some [1, 2] ∧
      ∀ ips, chainIps [{ ip := 100, index := 0 }, { ip := 200, index := 1 }] 5 2 = some ips →
        ips.length ≤ 5 :=
  ⟨(native_walk_follows_chain
      { freshReader true [] with
        d_native_frames := [{ ip := 100, index := 0 }, { ip := 200, index := 1 }] }
      (fun ip _ => if ip = 100 then some [1, 2] else none) 2 0 5).1.trans (by decide),
    (native_walk_follows_chain
      { freshReader true [] with
        d_native_frames := [{ ip := 100, index := 0 }, { ip := 200, index := 1 }] }
      (fun ip _ => if ip = 100 then some [1, 2] else none) 2 0 5).2⟩

/-- C15 as stated fails: with `max_stacks = 1` the walk from a frame whose IP resolves to
two frames emits both (more than `max_stacks`), and the walk from a frame whose IP has
no frames stops after that one IP, emitting nothing, although its parent resolves. -/
theorem native_walk_counterexample :
    Py_GetNativeStackFrame
        { freshReader true [] with
          d_native_frames := [{ ip := 100, index := 0 }, { ip := 200, index := 1 }] }
        (fun ip _ => if ip = 100 then some [1, 2] else none) 1 0 1 = some [1, 2] ∧
      Py_GetNativeStackFrame
        { freshReader true [] with
          d_native_frames := [{ ip := 100, index := 0 }, { ip := 200, index := 1 }] }
        (fun ip _ => if ip = 100 then some [1, 2] else none) 2 0 1 = some [] ∧
      Py_GetNativeStackFrame
        { freshReader true [] with
          d_native_frames := [{ ip := 100, index := 0 }, { ip := 200, index := 1 }] }
        (fun ip _ => if ip = 100 then some [1, 2] else none) 2 0 2 = some [1, 2] := by
  decide

end Memray

namespace Memray

/-! ## What one record changes -/

theorem apply_next_eq (B : Build) (rec : Record) (r r1 : Reader)
    (h : (B.apply rec r).next? = some r1) :
    match rec with
    | .padding => r1 = r
    | .allocation flags address size =>
      r1 = processAllocationRecord { address := address, size := size, allocator := flags } r
    | .allocationWithNative flags address size native_frame_id =>
      r1 = processNativeAllocationRecord
        { address := address, size := size, allocator := flags,
          native_frame_id := native_frame_id } r
    | .framePush frame_id => r1 = processFramePush frame_id r
    | .framePop _ => ∃ traces, r1 = { r with d_stack_traces := traces }
    | .frameIndex _ _ _ _ => ∃ frames, r1 = { r with d_frame_map := frames }
    | .nativeTraceIndex ip index => r1 = processNativeFrameIndex { ip := ip, index := index } r
    | .memoryMapStart => r1 = processMemoryMapStart r
    | .segmentGroup _ _ _ =>
      ∃ calls, r1 = { r with d_symbol_resolver :=
        { generation := r.d_symbol_resolver.generation, calls := calls } }
    | .threadRecord name => r1 = processThreadRecord name r
    | .memoryRecord ms_since_epoch rss =>
      r1 = processMemoryRecord { ms_since_epoch := ms_since_epoch, rss := rss } r
    | .contextSwitch tid => r1 = processContextSwitch tid r := by
  cases rec with
  | framePop c =>
    simp only [Build.apply] at h
    cases hp : processFramePop B c r with
    | ok r2 =>
      rw [hp] at h
      simp only [Iteration.next?, Option.some.injEq] at h
      subst h
      exact processFramePop_ok_eq B c r r2 hp
    | error o =>
      rw [hp] at h
      have := processFramePop_error B c r o hp
      cases o <;> simp [Iteration.next?, Outcome.result?] at h this
  | frameIndex fid fn file l =>
    simp only [Build.apply] at h
    split at h
    · rename_i r2 hp
      simp only [Iteration.next?, Option.some.injEq] at h
      subst h
      rcases processFrameIndex_ok_eq _ r r2 hp with rfl | ⟨_, _, rfl⟩
      · exact ⟨r2.d_frame_map, rfl⟩
      · exact ⟨_, rfl⟩
    · rename_i o hp
      have := processFrameIndex_error _ r o hp
      cases o <;> simp [Iteration.next?, Outcome.result?] at h this
  | segmentGroup fn base segs =>
    simp only [Build.apply] at h
    split at h <;>
    · simp only [Iteration.next?, Option.some.injEq] at h
      subst h
      exact ⟨_, rfl⟩
  | framePush f => simpa [Build.apply, Iteration.next?, eq_comm] using h
  | nativeTraceIndex ip index => simpa [Build.apply, Iteration.next?, eq_comm] using h
  | padding => simpa [Build.apply, Iteration.next?, eq_comm] using h
  | memoryMapStart => simpa [Build.apply, Iteration.next?, eq_comm] using h
  | threadRecord name => simpa [Build.apply, Iteration.next?, eq_comm] using h
  | contextSwitch tid => simpa [Build.apply, Iteration.next?, eq_comm] using h
  | allocation a x s => simpa [Build.apply, Iteration.next?, eq_comm] using h
  | allocationWithNative a x s nf => simpa [Build.apply, Iteration.next?, eq_comm] using h
  | memoryRecord ms rss => simpa [Build.apply, Iteration.next?, eq_comm] using h

theorem apply_generation (B : Build) (rec : Record) (recs : List Record) (r r1 : Reader)
    (h : (B.apply rec r).next? = some r1) :
    generationAfter r1.d_symbol_resolver.generation recs =
      generationAfter r.d_symbol_resolver.generation (rec :: recs) := by
  have := apply_next_eq B rec r r1 h
  cases rec <;> simp only [generationAfter] at this ⊢
  all_goals first
    | (subst this; rfl)
    | (obtain ⟨x, rfl⟩ := this; rfl)
    | (subst this; unfold processFramePush; split <;> rfl)
    | (subst this; unfold processNativeFrameIndex; split <;> rfl)

theorem run_generation (B : Build) (recs : List Record) :
    ∀ (r r1 : Reader) (tail : List Byte), B.run recs tail r = some r1 →
      r1.d_symbol_resolver.generation =
        generationAfter r.d_symbol_resolver.generation recs := by
  induction recs with
  | nil =>
    intro r r1 tail h
    simp only [Build.run, Option.some.injEq] at h
    rw [← h]
    rfl
  | cons rec recs ih =>
    intro r r1 tail h
    rw [run_cons] at h
    cases hn : (B.apply rec { r with d_input := B.encodeBody recs ++ tail }).next? with
    | none =>
      rw [hn] at h
      cases h
    | some r2 =>
      rw [hn] at h
      rw [ih r2 r1 tail h, apply_generation B rec recs _ r2 hn]

theorem generationAfter_mono (recs : List Record) :
    ∀ g, g ≤ generationAfter g recs := by
  induction recs with
  | nil => intro g; exact Nat.le_refl g
  | cons rec recs ih =>
    intro g
    cases rec <;> simp only [generationAfter]
    all_goals first
      | exact ih g
      | exact Nat.le_trans (Nat.le_succ g) (ih (g + 1))

theorem generationAfter_append (pre mid : List Record) :
    ∀ g, generationAfter g (pre ++ mid) = generationAfter (generationAfter g pre) mid := by
  induction pre with
  | nil => intro g; rfl
  | cons rec recs ih =>
    intro g
    cases rec <;> simp only [generationAfter, List.cons_append]
    all_goals exact ih _

end Memray

namespace Memray

/-- The call of `nextRecord` that meets the record `x` after a well-formed body: the
body is absorbed, leaving the reader `r0`, and the call ends as the step on `x` does. -/
theorem nthCall_after_body (B : Build) (hB : B.WF) (pre : List Record) (x : Record)
    (r : Reader) (rest : List Byte) (hwf : ∀ rec ∈ pre, rec.WF B) (hx : x.WF B)
    (hids : r.d_track_stacks = true →
      (frameIds pre).Nodup ∧ ∀ id ∈ frameIds pre, mapFind r.d_frame_map id = none)
    (hpops : r.d_track_stacks = true →
      popsOK B r.d_current_thread (fun t => (r.stackOf t).length) pre)
    (hin : r.d_input = B.encodeBody pre ++ (B.encode x ++ rest)) :
    ∃ r0, B.run pre (B.encode x ++ rest) r = some r0 ∧
      nthCall B (pre.filterMap report).length r =
        some (match B.apply x { r0 with d_input := rest } with
          | .again r2 => nextRecord B r2
          | .done o => o) := by
  obtain ⟨r0, hrun⟩ := run_ok_initial B pre r (B.encode x ++ rest) hids hpops
  obtain ⟨hin0, hcall⟩ := run_nthCall B hB pre r r0 _ hin hwf hrun
  have hit := iteration_encode B hB x hx r0 rest hin0
  refine ⟨r0, hrun, ?_⟩
  have := hcall 0
  rw [Nat.add_zero] at this
  rw [this]
  simp only [nthCall, nextRecord_eq B r0, hit]

/-- C16 (amended): after a well-formed body, the `ALLOCATION_RECORD` result for an
`ALLOCATION_WITH_NATIVE` record read with stack tracking enabled records the resolver's
generation at that time, which is its generation at the start plus the number of
`MEMORY_MAP_START` records read before (`generationAfter`), and so never decreases from
one `ALLOCATION_WITH_NATIVE` record to a later one; the result for a plain `ALLOCATION`
record, and every result with stack tracking disabled, records generation 0. -/
theorem native_generation_recorded (B : Build) (hB : B.WF) (pre : List Record) (x : Record)
    (r : Reader) (rest : List Byte) (hwf : ∀ rec ∈ pre, rec.WF B) (hx : x.WF B)
    (hrep : report x = some .ALLOCATION_RECORD)
    (hids : r.d_track_stacks = true →
      (frameIds pre).Nodup ∧ ∀ id ∈ frameIds pre, mapFind r.d_frame_map id = none)
    (hpops : r.d_track_stacks = true →
      popsOK B r.d_current_thread (fun t => (r.stackOf t).length) pre)
    (hin : r.d_input = B.encodeBody pre ++ (B.encode x ++ rest)) :
    (∃ r1, nthCall B (pre.filterMap report).length r = some (.returned .ALLOCATION_RECORD r1) ∧
      r1.d_latest_allocation.native_segment_generation =
        match x with
        | .allocationWithNative _ _ _ _ =>
          if r.d_track_stacks then generationAfter r.d_symbol_resolver.generation pre else 0
        | _ => 0) ∧
      ∀ mid : List Record, generationAfter r.d_symbol_resolver.generation pre ≤
        generationAfter r.d_symbol_resolver.generation (pre ++ mid) := by
  refine ⟨?_, fun mid => ?_⟩
  · obtain ⟨r0, hrun, hcall⟩ := nthCall_after_body B hB pre x r rest hwf hx hids hpops hin
    have hg := run_generation B pre r r0 _ hrun
    have ht := run_track B pre r r0 _ hrun
    cases x <;> simp only [report, Option.some.injEq] at hrep <;> try cases hrep
    · simp only [Build.apply] at hcall
      exact ⟨_, hcall, rfl⟩
    · simp only [Build.apply] at hcall
      refine ⟨_, hcall, ?_⟩
      simp only [processNativeAllocationRecord, SymbolResolver.currentSegmentGeneration, ht, hg]
  · rw [generationAfter_append]
    exact generationAfter_mono mid _

/-- C16 as amended, on the stream MEMORY_MAP_START, ALLOCATION_WITH_NATIVE: the recorded
generation is 1. -/
theorem native_generation_recorded_witness :
    (∃ r1, nthCall (build64 false) 0
        (freshReader true ((build64 false).encodeBody
          [.memoryMapStart, .allocationWithNative 1 57005 8 0])) =
        some (.returned .ALLOCATION_RECORD r1) ∧
      r1.d_latest_allocation.native_segment_generation = 1) ∧
      ∀ mid : List Record, generationAfter 0 [.memoryMapStart] ≤
        generationAfter 0 ([.memoryMapStart] ++ mid) :=
  native_generation_recorded (build64 false) (build64_WF false) [.memoryMapStart]
    (.allocationWithNative 1 57005 8 0)
    (freshReader true ((build64 false).encodeBody
      [.memoryMapStart, .allocationWithNative 1 57005 8 0])) []
    (by
      intro rec hrec
      simp only [List.mem_singleton] at hrec
      subst hrec
      simp [Record.WF])
    (by simp [Record.WF, build64])
    rfl
    (fun _ => ⟨by simp [frameIds], by simp [frameIds]⟩)
    (fun _ => by simp [popsOK])
    (by decide)

/-- C16 as stated fails on the stream MEMORY_MAP_START, ALLOCATION_WITH_NATIVE,
ALLOCATION with stack tracking enabled: the first `ALLOCATION_RECORD` result records
generation 1, the second one generation 0. -/
theorem native_generation_counterexample :
    ((nthCall (build64 false) 0
        (freshReader true ((build64 false).encodeBody
          [.memoryMapStart, .allocationWithNative 1 57005 8 0, .allocation 1 48879 8]))).bind
        Outcome.reader?).map (fun r1 => r1.d_latest_allocation.native_segment_generation) =
      some 1 ∧
    ((nthCall (build64 false) 1
        (freshReader true ((build64 false).encodeBody
          [.memoryMapStart, .allocationWithNative 1 57005 8 0, .allocation 1 48879 8]))).bind
        Outcome.reader?).map (fun r1 => r1.d_latest_allocation.native_segment_generation) =
      some 0 ∧
    (nthCall (build64 false) 1
        (freshReader true ((build64 false).encodeBody
          [.memoryMapStart, .allocationWithNative 1 57005 8 0, .allocation 1 48879 8]))).bind
        Outcome.result? = some .ALLOCATION_RECORD := by
  decide

end Memray

namespace Memray

/-! ## The native-frame list -/

theorem apply_native_frames (B : Build) (rec : Record) (r r1 : Reader)
    (h : (B.apply rec r).next? = some r1) (ht : r.d_track_stacks = true) :
    match rec with
    | .nativeTraceIndex ip index =>
      r1.d_native_frames = r.d_native_frames ++ [{ ip := ip, index := index }]
    | _ => r1.d_native_frames = r.d_native_frames := by
  have := apply_next_eq B rec r r1 h
  cases rec <;> simp only at this ⊢
  all_goals first
    | (subst this; rfl)
    | (obtain ⟨x, rfl⟩ := this; rfl)
    | (subst this; unfold processFramePush; split <;> rfl)
    | (subst this; simp [processNativeFrameIndex, ht])

theorem linksOK_append (frames : List UnresolvedNativeFrame) (frame : UnresolvedNativeFrame)
    (h : linksOK frames) (hf : frame.index ≤ frames.length) : linksOK (frames ++ [frame]) := by
  intro i f hi
  rw [List.get?_eq_getElem?] at hi
  by_cases hlt : i < frames.length
  · rw [List.getElem?_append_left hlt] at hi
    exact h i f (by rw [List.get?_eq_getElem?]; exact hi)
  · have hge : frames.length ≤ i := Nat.le_of_not_lt hlt
    rw [List.getElem?_append_right hge] at hi
    cases hk : i - frames.length with
    | zero =>
      rw [hk] at hi
      simp only [List.getElem?_cons_zero, Option.some.injEq] at hi
      subst hi
      omega
    | succ k =>
      rw [hk] at hi
      simp at hi

theorem run_native_frames (B : Build) (recs : List Record) :
    ∀ (r r1 : Reader) (tail : List Byte), B.run recs tail r = some r1 →
      r.d_track_stacks = true →
      r1.d_native_frames.length = r.d_native_frames.length + nativeTraceCount recs ∧
        (linksOK r.d_native_frames → nativeLinksOK r.d_native_frames.length recs →
          linksOK r1.d_native_frames) := by
  induction recs with
  | nil =>
    intro r r1 tail h ht
    simp only [Build.run, Option.some.injEq] at h
    subst h
    exact ⟨rfl, fun h _ => h⟩
  | cons rec recs ih =>
    intro r r1 tail h ht
    rw [run_cons] at h
    cases hn : (B.apply rec { r with d_input := B.encodeBody recs ++ tail }).next? with
    | none =>
      rw [hn] at h
      cases h
    | some r2 =>
      rw [hn] at h
      have ht2 : r2.d_track_stacks = true := by rw [apply_track B rec _ r2 hn]; exact ht
      obtain ⟨hlen, hlinks⟩ := ih r2 r1 tail h ht2
      have hstep := apply_native_frames B rec _ r2 hn ht
      cases rec <;> simp only [nativeTraceCount, nativeLinksOK] at hstep ⊢
      case nativeTraceIndex ip index =>
        rw [hstep] at hlen hlinks
        simp only [List.length_append, List.length_singleton] at hlen hlinks
        refine ⟨by omega, fun h1 h2 => hlinks (linksOK_append _ _ h1 h2.1) h2.2⟩
      all_goals
        rw [hstep] at hlen hlinks
        exact ⟨hlen, hlinks⟩

theorem chainIps_isSome (frames : List UnresolvedNativeFrame) (h : linksOK frames) :
    ∀ (limit index : Nat), index ≤ frames.length → (chainIps frames limit index).isSome := by
  intro limit
  induction limit with
  | zero =>
    intro index _
    cases index <;> simp [chainIps]
  | succ n ih =>
    intro index hi
    cases index with
    | zero => simp [chainIps]
    | succ i =>
      rw [chainIps]
      have hlt : i < frames.length := hi
      have hget : frames.get? i = some (frames.get ⟨i, hlt⟩) := List.get?_eq_get hlt
      rw [hget]
      have hle := h i _ hget
      have := ih (frames.get ⟨i, hlt⟩).index (by omega)
      simp only
      cases hc : chainIps frames n (frames.get ⟨i, hlt⟩).index with
      | none => rw [hc] at this; cases this
      | some ips => rfl

/-- C17 (amended): with stack tracking enabled, at the `ALLOCATION_RECORD` result for an
`ALLOCATION_WITH_NATIVE` record read after a well-formed body, the index stored in the
latest allocation is the record's `native_frame_id`, as read, and the native-frame list
holds one entry more for each `NATIVE_TRACE_INDEX` record read before. When every such
record names as its parent 0 or a native frame defined before it and the record's
`native_frame_id` is at most the length of the list (indices count from 1), a native
stack walk from the stored index does not leave the list. -/
theorem native_index_as_read {F : Type} (B : Build) (hB : B.WF) (pre : List Record) (r : Reader)
    (flags address size native_frame_id : Nat) (rest : List Byte)
    (ht : r.d_track_stacks = true) (hwf : ∀ rec ∈ pre, rec.WF B)
    (hx : (Record.allocationWithNative flags address size native_frame_id).WF B)
    (hids : (frameIds pre).Nodup ∧ ∀ id ∈ frameIds pre, mapFind r.d_frame_map id = none)
    (hpops : popsOK B r.d_current_thread (fun t => (r.stackOf t).length) pre)
    (hin : r.d_input = B.encodeBody pre ++
      (B.encode (.allocationWithNative flags address size native_frame_id) ++ rest)) :
    ∃ r1, nthCall B (pre.filterMap report).length r = some (.returned .ALLOCATION_RECORD r1) ∧
      r1.d_latest_allocation.native_frame_id = native_frame_id ∧
      r1.d_native_frames.length = r.d_native_frames.length + nativeTraceCount pre ∧
      (linksOK r.d_native_frames → nativeLinksOK r.d_native_frames.length pre →
        native_frame_id ≤ r1.d_native_frames.length →
        ∀ (resolve : Nat → Nat → Option (List F)) (generation max_stacks : Nat),
          (Py_GetNativeStackFrame r1 resolve native_frame_id generation max_stacks).isSome) := by
  obtain ⟨r0, hrun, hcall⟩ := nthCall_after_body B hB pre _ r rest hwf hx
    (fun _ => hids) (fun _ => hpops) hin
  have ht0 := run_track B pre r r0 _ hrun
  obtain ⟨hlen, hlinks⟩ := run_native_frames B pre r r0 _ hrun ht
  simp only [Build.apply] at hcall
  refine ⟨_, hcall, ?_, hlen, ?_⟩
  · simp only [processNativeAllocationRecord, ht0, ht, if_true]
  · intro h1 h2 h3 resolve generation max_stacks
    have hc := chainIps_isSome r0.d_native_frames (hlinks h1 h2) max_stacks native_frame_id h3
    unfold Py_GetNativeStackFrame
    simp only [processNativeAllocationRecord, ht0, ht, Bool.not_true, Bool.false_eq_true, if_false,
      nativeStackFrameLoop_chain, Option.isSome_map']
    exact hc

/-- C17 as amended, on the stream NATIVE_TRACE_INDEX (parent 0), ALLOCATION_WITH_NATIVE
with `native_frame_id` 1. -/
theorem native_index_as_read_witness :
    ∃ r1, nthCall (build64 false) 0
        (freshReader true ((build64 false).encodeBody
          [.nativeTraceIndex 4096 0, .allocationWithNative 1 57005 8 1])) =
        some (.returned .ALLOCATION_RECORD r1) ∧
      r1.d_latest_allocation.native_frame_id = 1 ∧
      r1.d_native_frames.length = 1 ∧
      ∀ (resolve : Nat → Nat → Option (List Nat)) (generation max_stacks : Nat),
        (Py_GetNativeStackFrame r1 resolve 1 generation max_stacks).isSome := by
  obtain ⟨r1, h1, h2, h3, h4⟩ :=
    native_index_as_read (build64 false) (build64_WF false) [.nativeTraceIndex 4096 0]
      (freshReader true ((build64 false).encodeBody
        [.nativeTraceIndex 4096 0, .allocationWithNative 1 57005 8 1]))
      1 57005 8 1 [] rfl
      (by
        intro rec hrec
        simp only [List.mem_singleton] at hrec
        subst hrec
        simp [Record.WF])
      (by simp [Record.WF, build64])
      ⟨by simp [frameIds], by simp [frameIds]⟩
      (by simp [popsOK])
      (by decide)
  have h5 : r1.d_native_frames.length = 1 := h3
  exact ⟨r1, h1, h2, h5, h4 (by simp [linksOK, freshReader]) (by simp [nativeLinksOK])
    (by rw [h5])⟩

/-- C17 as stated fails on the stream NATIVE_TRACE_INDEX, ALLOCATION_WITH_NATIVE with
`native_frame_id` 1 (the first native frame): nextRecord returns `ALLOCATION_RECORD`,
the stored index is 1 and the native-frame list has length 1, so the index is not less
than the length. On the stream of one ALLOCATION_WITH_NATIVE with `native_frame_id` 5
the stored index is 5 and the list is empty: the reader does not check the index. -/
theorem native_index_counterexample :
    ((nthCall (build64 false) 0
        (freshReader true ((build64 false).encodeBody
          [.nativeTraceIndex 4096 0, .allocationWithNative 1 57005 8 1]))).bind
        Outcome.reader?).map
        (fun r1 => (r1.d_latest_allocation.native_frame_id, r1.d_native_frames.length)) =
      some (1, 1) ∧
    (nthCall (build64 false) 0
        (freshReader true ((build64 false).encodeBody
          [.nativeTraceIndex 4096 0, .allocationWithNative 1 57005 8 1]))).bind
        Outcome.result? = some .ALLOCATION_RECORD ∧
    ((nthCall (build64 false) 0
        (freshReader true ((build64 false).encodeBody
          [.allocationWithNative 1 57005 8 5]))).bind
        Outcome.reader?).map
        (fun r1 => (r1.d_latest_allocation.native_frame_id, r1.d_native_frames.length)) =
      some (5, 0) ∧
    (nthCall (build64 false) 0
        (freshReader true ((build64 false).encodeBody
          [.allocationWithNative 1 57005 8 5]))).bind
        Outcome.result? = some .ALLOCATION_RECORD := by
  decide

end Memray

namespace Memray

/-! ## Thread names -/

theorem getThreadName_mapSet (r : Reader) (name : List Byte) (tid : Nat) :
    getThreadName (processThreadRecord name r) tid =
      if r.d_current_thread = tid then name else getThreadName r tid := by
  unfold getThreadName processThreadRecord
  simp only [mapFind_mapSet]
  by_cases hc : r.d_current_thread = tid
  · simp [hc]
  · have hc1 : ¬ tid = r.d_current_thread := fun h => hc h.symm
    simp [hc, hc1]

theorem apply_thread_names (B : Build) (rec : Record) (recs : List Record) (r r1 : Reader)
    (tid : Nat) (h : (B.apply rec r).next? = some r1) :
    (namedBy r1.d_current_thread recs tid).getD (getThreadName r1 tid) =
      (namedBy r.d_current_thread (rec :: recs) tid).getD (getThreadName r tid) := by
  have := apply_next_eq B rec r r1 h
  cases rec <;> simp only [namedBy] at this ⊢
  case threadRecord name =>
    subst this
    rw [getThreadName_mapSet]
    have hc : (processThreadRecord name r).d_current_thread = r.d_current_thread := rfl
    rw [hc]
    cases namedBy r.d_current_thread recs tid with
    | some later => rfl
    | none =>
      simp only [Option.getD_none]
      split <;> rfl
  all_goals first
    | (subst this; rfl)
    | (obtain ⟨x, rfl⟩ := this; rfl)
    | (subst this; unfold processFramePush; split <;> rfl)
    | (subst this; unfold processNativeFrameIndex; split <;> rfl)

theorem run_thread_names (B : Build) (recs : List Record) (tid : Nat) :
    ∀ (r r1 : Reader) (tail : List Byte), B.run recs tail r = some r1 →
      getThreadName r1 tid =
        (namedBy r.d_current_thread recs tid).getD (getThreadName r tid) := by
  induction recs with
  | nil =>
    intro r r1 tail h
    simp only [Build.run, Option.some.injEq] at h
    rw [← h]
    rfl
  | cons rec recs ih =>
    intro r r1 tail h
    rw [run_cons] at h
    cases hn : (B.apply rec { r with d_input := B.encodeBody recs ++ tail }).next? with
    | none =>
      rw [hn] at h
      cases h
    | some r2 =>
      rw [hn] at h
      rw [ih r2 r1 tail h, apply_thread_names B rec recs _ r2 tid hn]
      rfl

/-- C19: once the records of a well-formed body were read (whatever follows them in the
stream), `getThreadName(tid)` is the name carried by the last `THREAD_RECORD` read while
`tid` was the current thread (`namedBy`), when there is one; when there is none it is
what it was before, which is the empty string for a thread the reader had no name for.
When nothing follows the body, that is the state in which `END_OF_FILE` is returned. -/
theorem thread_name_last_write_wins (B : Build) (hB : B.WF) (recs : List Record) (r : Reader)
    (tail : List Byte) (tid : Nat) (hwf : ∀ rec ∈ recs, rec.WF B)
    (hids : r.d_track_stacks = true →
      (frameIds recs).Nodup ∧ ∀ id ∈ frameIds recs, mapFind r.d_frame_map id = none)
    (hpops : r.d_track_stacks = true →
      popsOK B r.d_current_thread (fun t => (r.stackOf t).length) recs)
    (hin : r.d_input = B.encodeBody recs ++ tail) :
    ∃ r1, r1.d_input = tail ∧
      (∀ k, nthCall B ((recs.filterMap report).length + k) r = nthCall B k r1) ∧
      (tail = [] →
        nthCall B (recs.filterMap report).length r = some (.returned .END_OF_FILE r1)) ∧
      (∀ name, namedBy r.d_current_thread recs tid = some name → getThreadName r1 tid = name) ∧
      (namedBy r.d_current_thread recs tid = none → mapFind r.d_thread_names tid = none →
        getThreadName r1 tid = []) := by
  obtain ⟨r0, hrun⟩ := run_ok_initial B recs r tail hids hpops
  obtain ⟨hin0, hcall⟩ := run_nthCall B hB recs r r0 tail hin hwf hrun
  have hname := run_thread_names B recs tid r r0 tail hrun
  refine ⟨r0, hin0, hcall, ?_, ?_, ?_⟩
  · intro htail
    have := hcall 0
    rw [Nat.add_zero] at this
    rw [this]
    simp only [nthCall, nextRecord_nil B r0 (hin0.trans htail)]
  · intro name hn
    rw [hname, hn]
    rfl
  · intro hn hm
    rw [hname, hn]
    simp only [Option.getD_none, getThreadName, hm]

/-- C19 on a stream in which thread 1 is named "a" and then "b" and thread 2 is named
"c": at the end of the stream the name of thread 1 is "b" and thread 3 has the empty
name. -/
theorem thread_name_last_write_wins_witness :
    (∃ r1, nthCall (build64 false) 0
        (freshReader true ((build64 false).encodeBody
          [.contextSwitch 1, .threadRecord [97], .contextSwitch 2, .threadRecord [99],
           .contextSwitch 1, .threadRecord [98]])) =
        some (.returned .END_OF_FILE r1) ∧ getThreadName r1 1 = [98]) ∧
    (∃ r1, nthCall (build64 false) 0
        (freshReader true ((build64 false).encodeBody
          [.contextSwitch 1, .threadRecord [97], .contextSwitch 2, .threadRecord [99],
           .contextSwitch 1, .threadRecord [98]])) =
        some (.returned .END_OF_FILE r1) ∧ getThreadName r1 3 = []) := by
  have hwf : ∀ rec ∈ [Record.contextSwitch 1, .threadRecord [97], .contextSwitch 2,
      .threadRecord [99], .contextSwitch 1, .threadRecord [98]],
      rec.WF (build64 false) := by
    intro rec hrec
    simp only [List.mem_cons, List.mem_singleton, List.not_mem_nil, or_false] at hrec
    rcases hrec with h | h | h | h | h | h <;> subst h <;> simp [Record.WF, build64]
  constructor
  · obtain ⟨r1, _, _, h1, h2, _⟩ :=
      thread_name_last_write_wins (build64 false) (build64_WF false)
        [.contextSwitch 1, .threadRecord [97], .contextSwitch 2, .threadRecord [99],
         .contextSwitch 1, .threadRecord [98]]
        (freshReader true ((build64 false).encodeBody
          [.contextSwitch 1, .threadRecord [97], .contextSwitch 2, .threadRecord [99],
           .contextSwitch 1, .threadRecord [98]]))
        [] 1 hwf (fun _ => ⟨by simp [frameIds], by simp [frameIds]⟩)
        (fun _ => by simp [popsOK]) (by decide)
    exact ⟨r1, h1 rfl, h2 [98] (by decide)⟩
  · obtain ⟨r1, _, _, h1, _, h3⟩ :=
      thread_name_last_write_wins (build64 false) (build64_WF false)
        [.contextSwitch 1, .threadRecord [97], .contextSwitch 2, .threadRecord [99],
         .contextSwitch 1, .threadRecord [98]]
        (freshReader true ((build64 false).encodeBody
          [.contextSwitch 1, .threadRecord [97], .contextSwitch 2, .threadRecord [99],
           .contextSwitch 1, .threadRecord [98]]))
        [] 3 hwf (fun _ => ⟨by simp [frameIds], by simp [frameIds]⟩)
        (fun _ => by simp [popsOK]) (by decide)
    exact ⟨r1, h1 rfl, h3 (by decide) (by decide)⟩

end Memray

namespace Memray

/-! ## Deduplication in the frame tree -/

theorem nodePosition_append (node : Nat × Nat) (ns more : List (Nat × Nat)) (h : node ∈ ns) :
    nodePosition node (ns ++ more) = nodePosition node ns := by
  induction ns with
  | nil => cases h
  | cons n ns ih =>
    simp only [List.cons_append, nodePosition]
    split
    · rfl
    · rename_i hn
      rcases List.mem_cons.1 h with rfl | hmem
      · exact absurd rfl hn
      · exact congrArg (· + 1) (ih hmem)

theorem nodePosition_fresh (node : Nat × Nat) (ns : List (Nat × Nat)) (h : node ∉ ns) :
    nodePosition node (ns ++ [node]) = ns.length := by
  induction ns with
  | nil => simp [nodePosition]
  | cons n ns ih =>
    simp only [List.cons_append, nodePosition, List.length_cons]
    have hn : ¬ n = node := fun e => h (by rw [e]; exact List.mem_cons_self _ _)
    rw [if_neg hn]
    exact congrArg (· + 1) (ih (fun hm => h (List.mem_cons_of_mem _ hm)))

theorem getTraceIndex_mem (t : FrameTree) (parent frame_id : Nat) :
    (parent, frame_id) ∈ (t.getTraceIndex parent frame_id).2.nodes := by
  unfold FrameTree.getTraceIndex
  split
  · rename_i h
    exact h
  · simp

theorem getTraceIndex_position (t : FrameTree) (parent frame_id : Nat) :
    (t.getTraceIndex parent frame_id).1 =
      nodePosition (parent, frame_id) (t.getTraceIndex parent frame_id).2.nodes + 1 := by
  unfold FrameTree.getTraceIndex
  split
  · rfl
  · rename_i h
    simp only [nodePosition_fresh _ _ h]

theorem getTraceIndex_again (t : FrameTree) (parent frame_id : Nat)
    (more : List (Nat × Nat)) :
    FrameTree.getTraceIndex { nodes := (t.getTraceIndex parent frame_id).2.nodes ++ more }
        parent frame_id =
      ((t.getTraceIndex parent frame_id).1,
        { nodes := (t.getTraceIndex parent frame_id).2.nodes ++ more }) := by
  have hmem := getTraceIndex_mem t parent frame_id
  have hpos := getTraceIndex_position t parent frame_id
  generalize t.getTraceIndex parent frame_id = res at hmem hpos
  unfold FrameTree.getTraceIndex
  simp only [List.mem_append, hmem, true_or, if_true, nodePosition_append _ _ more hmem, hpos]

theorem getTraceIndex_above (t : FrameTree) (parent frame_id : Nat) (hv : t.Valid)
    (hp : parent ≤ t.nodes.length) : parent < (t.getTraceIndex parent frame_id).1 := by
  unfold FrameTree.getTraceIndex
  split
  · rename_i h
    have := hv _ _ _ (get?_nodePosition _ _ h)
    simp only
    omega
  · simp only
    omega

theorem getTraceIndex_valid (t : FrameTree) (parent frame_id : Nat) (hv : t.Valid)
    (hp : parent ≤ t.nodes.length) : (t.getTraceIndex parent frame_id).2.Valid := by
  unfold FrameTree.getTraceIndex
  split
  · exact hv
  · intro i p f hi
    simp only at hi
    rw [List.get?_eq_getElem?] at hi
    by_cases hlt : i < t.nodes.length
    · rw [List.getElem?_append_left hlt] at hi
      exact hv i p f (by rw [List.get?_eq_getElem?]; exact hi)
    · have hge : t.nodes.length ≤ i := Nat.le_of_not_lt hlt
      rw [List.getElem?_append_right hge] at hi
      cases hk : i - t.nodes.length with
      | zero =>
        rw [hk] at hi
        simp only [List.getElem?_cons_zero, Option.some.injEq, Prod.mk.injEq] at hi
        omega
      | succ k =>
        rw [hk] at hi
        simp at hi

theorem stackTop_append (stack : List Nat) (x : Nat) : stackTop (stack ++ [x]) = x := by
  simp [stackTop]

theorem reachable_valid (t : FrameTree) (h : t.Reachable) : t.Valid := by
  induction h with
  | empty =>
    intro i p f hi
    simp at hi
  | call t parent frame_id _ hp ih => exact getTraceIndex_valid t parent frame_id ih hp

theorem nodePosition_lt (node : Nat × Nat) (ns : List (Nat × Nat)) (h : node ∈ ns) :
    nodePosition node ns < ns.length := by
  have := get?_nodePosition node ns h
  rw [List.get?_eq_getElem?] at this
  exact (List.getElem?_eq_some_iff.1 this).1

theorem getTraceIndex_le (t : FrameTree) (parent frame_id : Nat) :
    (t.getTraceIndex parent frame_id).1 ≤ (t.getTraceIndex parent frame_id).2.nodes.length ∧
      t.nodes.length ≤ (t.getTraceIndex parent frame_id).2.nodes.length := by
  unfold FrameTree.getTraceIndex
  split
  · rename_i h
    exact ⟨nodePosition_lt _ _ h, Nat.le_refl _⟩
  · simp

theorem stackTop_le (stack : List Nat) (n : Nat) (h : ∀ i ∈ stack, i ≤ n) :
    stackTop stack ≤ n := by
  unfold stackTop
  cases hl : stack.getLast? with
  | none => simp
  | some x =>
    simp only [Option.getD_some]
    exact h x (List.mem_of_getLast?_eq_some hl)

theorem popLoop_mem (tid : Nat) (count : Nat) :
    ∀ (traces traces1 : List (Nat × List Nat)), popLoop tid count traces = some traces1 →
      ∀ t i, i ∈ (mapFind traces1 t).getD [] → i ∈ (mapFind traces t).getD [] := by
  induction count with
  | zero =>
    intro traces traces1 h t i hi
    simp only [popLoop, Option.some.injEq] at h
    rw [← h] at hi
    exact hi
  | succ count ih =>
    intro traces traces1 h t i hi
    unfold popLoop at h
    split at h
    · cases h
    · rename_i x stack hst
      have := ih _ _ h t i hi
      rw [mapFind_mapSet] at this
      by_cases ht : t = tid
      · rw [if_pos ht, Option.getD_some] at this
        rw [ht, hst]
        exact List.dropLast_subset _ this
      · rw [if_neg ht] at this
        exact this

theorem processFramePop_treeOK (B : Build) (count : Nat) (r r1 : Reader)
    (h : processFramePop B count r = .ok r1) (hok : r.treeOK) : r1.treeOK := by
  unfold processFramePop at h
  split at h
  · cases h
    exact hok
  · dsimp only at h
    split at h
    · cases h
    · split at h
      · cases h
      · rename_i traces hp
        cases h
        exact ⟨hok.1, fun t i hi => hok.2 t i (popLoop_mem _ _ _ _ hp t i hi)⟩

theorem processFramePush_treeOK (frame_id : Nat) (r : Reader) (hok : r.treeOK) :
    (processFramePush frame_id r).treeOK := by
  cases htr : r.d_track_stacks with
  | false =>
    unfold processFramePush
    simp only [htr, Bool.not_false, if_true]
    exact hok
  | true =>
    have htop : stackTop (r.stackOf r.d_current_thread) ≤ r.d_tree.nodes.length :=
      stackTop_le _ _ (hok.2 r.d_current_thread)
    have hle := getTraceIndex_le r.d_tree (stackTop (r.stackOf r.d_current_thread)) frame_id
    refine ⟨?_, fun t i hi => ?_⟩
    · rw [processFramePush_eq _ _ htr]
      exact FrameTree.Reachable.call _ _ _ hok.1 htop
    · rw [processFramePush_stackOf _ _ htr] at hi
      rw [processFramePush_eq _ _ htr]
      show i ≤ (r.d_tree.getTraceIndex (stackTop (r.stackOf r.d_current_thread))
        frame_id).2.nodes.length
      split at hi
      · rcases List.mem_append.1 hi with h1 | h1
        · exact Nat.le_trans (hok.2 _ i h1) hle.2
        · simp only [List.mem_singleton] at h1
          rw [h1]
          exact hle.1
      · exact Nat.le_trans (hok.2 _ i hi) hle.2

theorem apply_treeOK (B : Build) (rec : Record) (r r1 : Reader)
    (h : (B.apply rec r).next? = some r1) (hok : r.treeOK) : r1.treeOK := by
  cases rec with
  | framePop c =>
    simp only [Build.apply] at h
    cases hp : processFramePop B c r with
    | ok r2 =>
      rw [hp] at h
      simp only [Iteration.next?, Option.some.injEq] at h
      subst h
      exact processFramePop_treeOK B c r r2 hp hok
    | error o =>
      rw [hp] at h
      have := processFramePop_error B c r o hp
      cases o <;> simp [Iteration.next?, Outcome.result?] at h this
  | framePush f =>
    simp only [Build.apply, Iteration.next?, Option.some.injEq] at h
    subst h
    exact processFramePush_treeOK f r hok
  | allocation a x s =>
    simp only [Build.apply, Iteration.next?, Option.some.injEq] at h
    subst h
    exact ⟨hok.1, fun t i hi => hok.2 t i (by
      rw [processAllocationRecord_stackOf] at hi
      exact hi)⟩
  | allocationWithNative a x s nf =>
    simp only [Build.apply, Iteration.next?, Option.some.injEq] at h
    subst h
    exact ⟨hok.1, fun t i hi => hok.2 t i (by
      rw [processNativeAllocationRecord_stackOf] at hi
      exact hi)⟩
  | nativeTraceIndex ip index =>
    simp only [Build.apply, Iteration.next?, Option.some.injEq] at h
    subst h
    unfold processNativeFrameIndex
    split <;> exact hok
  | frameIndex fid fn file l =>
    obtain ⟨x, rfl⟩ := apply_next_eq B _ r r1 h
    exact hok
  | segmentGroup fn base segs =>
    obtain ⟨x, rfl⟩ := apply_next_eq B _ r r1 h
    exact hok
  | padding =>
    have := apply_next_eq B _ r r1 h
    simp only at this
    subst this
    exact hok
  | memoryMapStart =>
    have := apply_next_eq B _ r r1 h
    simp only at this
    subst this
    exact hok
  | threadRecord name =>
    have := apply_next_eq B _ r r1 h
    simp only at this
    subst this
    exact hok
  | memoryRecord ms rss =>
    have := apply_next_eq B _ r r1 h
    simp only at this
    subst this
    exact hok
  | contextSwitch tid =>
    have := apply_next_eq B _ r r1 h
    simp only at this
    subst this
    exact hok

theorem run_treeOK (B : Build) (recs : List Record) :
    ∀ (r r1 : Reader) (tail : List Byte), B.run recs tail r = some r1 → r.treeOK →
      r1.treeOK := by
  induction recs with
  | nil =>
    intro r r1 tail h hok
    simp only [Build.run, Option.some.injEq] at h
    subst h
    exact hok
  | cons rec recs ih =>
    intro r r1 tail h hok
    rw [run_cons] at h
    cases hn : (B.apply rec { r with d_input := B.encodeBody recs ++ tail }).next? with
    | none =>
      rw [hn] at h
      cases h
    | some r2 =>
      rw [hn] at h
      exact ih r2 r1 tail h (apply_treeOK B rec _ r2 hn hok)

theorem new_treeOK (B : Build) (source : List Byte) (track_stacks : Bool) (r : Reader)
    (h : RecordReader.new B source track_stacks = .ok r) : r.treeOK := by
  unfold RecordReader.new at h
  split at h
  · cases h
  · split at h
    · cases h
    · cases h
      exact ⟨FrameTree.Reachable.empty, fun t i hi => by simp [Reader.stackOf, mapFind] at hi⟩

/-- C18: `get_trace_index` deduplicates: for every tree and every pair, a second call of
`get_trace_index(parent, frame_id)`, at once or after other nodes were added, returns
the index of the first call and creates no node. In every state of the tree (the empty
tree, and what a call with a parent that is the root or a node makes of a state), for
every parent that is the root or a node, the returned index is greater than `parent`.
The reader only makes such calls: in every reader reached from construction by reading
records the tree is in one of its states and the entries of the stacks are nodes of it,
so that a `FRAME_PUSH` pushes an index greater than the stack top it found. And two
`FRAME_PUSH` records of the same `frame_id` met with the same stack top push the same
frame index. -/
theorem getTraceIndex_dedup :
    (∀ (t : FrameTree) (parent frame_id : Nat) (more : List (Nat × Nat)),
      FrameTree.getTraceIndex { nodes := (t.getTraceIndex parent frame_id).2.nodes ++ more }
          parent frame_id =
        ((t.getTraceIndex parent frame_id).1,
          { nodes := (t.getTraceIndex parent frame_id).2.nodes ++ more })) ∧
    (∀ (t : FrameTree) (parent frame_id : Nat),
      (t.getTraceIndex parent frame_id).2.getTraceIndex parent frame_id =
        t.getTraceIndex parent frame_id) ∧
    (∀ (t : FrameTree) (parent frame_id : Nat), t.Reachable → parent ≤ t.nodes.length →
      parent < (t.getTraceIndex parent frame_id).1 ∧
        (t.getTraceIndex parent frame_id).2.Reachable) ∧
    (∀ (r : Reader) (frame_id : Nat), r.treeOK → r.d_track_stacks = true →
      stackTop (r.stackOf r.d_current_thread) <
        stackTop ((processFramePush frame_id r).stackOf r.d_current_thread)) ∧
    (∀ (B : Build) (source : List Byte) (track_stacks : Bool) (recs : List Record)
        (tail : List Byte) (r r1 : Reader),
      RecordReader.new B source track_stacks = .ok r → B.run recs tail r = some r1 →
      r1.treeOK) ∧
    (∀ (r r2 : Reader) (frame_id : Nat) (more : List (Nat × Nat)),
      r.d_track_stacks = true → r2.d_track_stacks = true →
      stackTop (r2.stackOf r2.d_current_thread) = stackTop (r.stackOf r.d_current_thread) →
      r2.d_tree.nodes = (processFramePush frame_id r).d_tree.nodes ++ more →
      stackTop ((processFramePush frame_id r2).stackOf r2.d_current_thread) =
        stackTop ((processFramePush frame_id r).stackOf r.d_current_thread)) := by
  refine ⟨getTraceIndex_again, ?_, ?_, ?_, ?_, ?_⟩
  · intro t parent frame_id
    have := getTraceIndex_again t parent frame_id []
    simp only [List.append_nil] at this
    exact this
  · intro t parent frame_id ht hp
    exact ⟨getTraceIndex_above t parent frame_id (reachable_valid t ht) hp,
      FrameTree.Reachable.call t parent frame_id ht hp⟩
  · intro r frame_id hok ht
    rw [processFramePush_stackOf _ _ ht, if_pos rfl, stackTop_append]
    exact getTraceIndex_above _ _ _ (reachable_valid _ hok.1)
      (stackTop_le _ _ (hok.2 r.d_current_thread))
  · intro B source track_stacks recs tail r r1 hnew hrun
    exact run_treeOK B recs r r1 tail hrun (new_treeOK B source track_stacks r hnew)
  · intro r r2 frame_id more ht ht2 htop hnodes
    rw [processFramePush_stackOf _ _ ht2, processFramePush_stackOf _ _ ht, if_pos rfl,
      if_pos rfl, stackTop_append, stackTop_append, htop]
    rw [processFramePush_eq _ _ ht] at hnodes
    simp only at hnodes
    have h2 : r2.d_tree =
        { nodes := (r.d_tree.getTraceIndex (stackTop (r.stackOf r.d_current_thread))
            frame_id).2.nodes ++ more } := by
      cases hd : r2.d_tree
      rw [hd] at hnodes
      simp only at hnodes
      rw [hnodes]
    rw [h2, getTraceIndex_again]

/-- C18 on the tree with the one node (0, 5) and the pair (1, 6): the new node gets index
2, which a later call returns again, and 1 < 2; a `FRAME_PUSH` of frame 6 on top of node
1 pushes the same index before and after the tree has grown. -/
theorem getTraceIndex_dedup_witness :
    FrameTree.getTraceIndex { nodes := [(0, 5), (1, 6), (2, 9)] } 1 6 =
        (2, { nodes := [(0, 5), (1, 6), (2, 9)] }) ∧
      FrameTree.getTraceIndex { nodes := [(0, 5), (1, 6)] } 1 6 =
        FrameTree.getTraceIndex { nodes := [(0, 5)] } 1 6 ∧
      1 < (FrameTree.getTraceIndex { nodes := [(0, 5)] } 1 6).1 ∧
      stackTop ((processFramePush 6
          { freshReader true [] with
            d_tree := { nodes := [(0, 5), (1, 6), (2, 9)] }
            d_stack_traces := [(0, [1])] }).stackOf 0) =
        stackTop ((processFramePush 6
          { freshReader true [] with
            d_tree := { nodes := [(0, 5)] }
            d_stack_traces := [(0, [1])] }).stackOf 0) :=
  ⟨getTraceIndex_dedup.1 { nodes := [(0, 5)] } 1 6 [(2, 9)],
    getTraceIndex_dedup.2.1 { nodes := [(0, 5)] } 1 6,
    (getTraceIndex_dedup.2.2.1 { nodes := [(0, 5)] } 1 6
      (FrameTree.Reachable.call { nodes := [] } 0 5 FrameTree.Reachable.empty (by decide))
      (by decide)).1,
    getTraceIndex_dedup.2.2.2.2.2
      { freshReader true [] with
        d_tree := { nodes := [(0, 5)] }
        d_stack_traces := [(0, [1])] }
      { freshReader true [] with
        d_tree := { nodes := [(0, 5), (1, 6), (2, 9)] }
        d_stack_traces := [(0, [1])] }
      6 [(2, 9)] rfl rfl rfl rfl⟩

end Memray

namespace Memray

/-! ## Stack tracking disabled -/

theorem apply_untracked (B : Build) (rec : Record) (r r1 : Reader)
    (ht : r.d_track_stacks = false) (h : (B.apply rec r).next? = some r1) :
    r1.d_frame_map = r.d_frame_map ∧ r1.d_native_frames = r.d_native_frames ∧
      r1.d_stack_traces = r.d_stack_traces ∧ r1.d_tree = r.d_tree := by
  cases rec <;>
    simp only [Build.apply, processFramePop, processFrameIndex, processFramePush,
      processNativeFrameIndex, ht, Bool.not_false, if_true, Bool.false_eq_true, if_false,
      Iteration.next?, Option.some.injEq] at h <;>
    subst h <;>
    simp [processAllocationRecord, processNativeAllocationRecord, processMemoryMapStart,
      processThreadRecord, processMemoryRecord, processContextSwitch, touchStack, ht]

theorem apply_feedsStacks (B : Build) (rec : Record) (r : Reader)
    (ht : r.d_track_stacks = false) (hf : rec.feedsStacks = true) :
    B.apply rec r = .again r := by
  cases rec <;> simp only [Record.feedsStacks, Bool.false_eq_true] at hf <;>
    simp only [Build.apply, processFramePop, processFrameIndex, processFramePush,
      processNativeFrameIndex, ht, Bool.not_false, if_true]

theorem run_untracked (B : Build) (recs : List Record) :
    ∀ (r r1 : Reader) (tail : List Byte), B.run recs tail r = some r1 →
      r.d_track_stacks = false →
      r1.d_frame_map = r.d_frame_map ∧ r1.d_native_frames = r.d_native_frames ∧
        r1.d_stack_traces = r.d_stack_traces ∧ r1.d_tree = r.d_tree := by
  induction recs with
  | nil =>
    intro r r1 tail h ht
    simp only [Build.run, Option.some.injEq] at h
    subst h
    exact ⟨rfl, rfl, rfl, rfl⟩
  | cons rec recs ih =>
    intro r r1 tail h ht
    rw [run_cons] at h
    cases hn : (B.apply rec { r with d_input := B.encodeBody recs ++ tail }).next? with
    | none =>
      rw [hn] at h
      cases h
    | some r2 =>
      rw [hn] at h
      have ht2 : r2.d_track_stacks = false := by rw [apply_track B rec _ r2 hn]; exact ht
      obtain ⟨h1, h2, h3, h4⟩ := ih r2 r1 tail h ht2
      obtain ⟨g1, g2, g3, g4⟩ := apply_untracked B rec
        { r with d_input := B.encodeBody recs ++ tail } r2 ht hn
      exact ⟨h1.trans g1, h2.trans g2, h3.trans g3, h4.trans g4⟩

/-- C20: with stack tracking disabled, the reader that has read a well-formed body has
the frame dictionary, the native-frame list, the per-thread stacks and the frame tree it
started with. On a `FRAME_INDEX`, `NATIVE_TRACE_INDEX`, `FRAME_PUSH` or `FRAME_POP`
record the loop of `nextRecord` goes round once, moving the source past exactly the
bytes of the record and changing nothing else in the reader; on an `ALLOCATION` or
`ALLOCATION_WITH_NATIVE` record `nextRecord` returns `ALLOCATION_RECORD` with
`frame_index` 0 and `native_frame_id` 0 in the latest allocation. -/
theorem tracking_disabled_discards (B : Build) (hB : B.WF) (pre : List Record) (x : Record)
    (r : Reader) (rest : List Byte) (ht : r.d_track_stacks = false)
    (hwf : ∀ rec ∈ pre, rec.WF B) (hx : x.WF B)
    (hin : r.d_input = B.encodeBody pre ++ (B.encode x ++ rest)) :
    ∃ r0, r0.d_input = B.encode x ++ rest ∧
      (∀ k, nthCall B ((pre.filterMap report).length + k) r = nthCall B k r0) ∧
      (r0.d_frame_map = r.d_frame_map ∧ r0.d_native_frames = r.d_native_frames ∧
        r0.d_stack_traces = r.d_stack_traces ∧ r0.d_tree = r.d_tree) ∧
      (x.feedsStacks = true → iteration B r0 = .again { r0 with d_input := rest }) ∧
      (report x = some .ALLOCATION_RECORD →
        ∃ r1, nextRecord B r0 = .returned .ALLOCATION_RECORD r1 ∧ r1.d_input = rest ∧
          r1.d_latest_allocation.frame_index = 0 ∧
          r1.d_latest_allocation.native_frame_id = 0 ∧
          r1.d_frame_map = r.d_frame_map ∧ r1.d_native_frames = r.d_native_frames ∧
          r1.d_stack_traces = r.d_stack_traces) := by
  obtain ⟨r0, hrun⟩ := run_ok_initial B pre r (B.encode x ++ rest)
    (fun h => by rw [ht] at h; cases h) (fun h => by rw [ht] at h; cases h)
  obtain ⟨hin0, hcall⟩ := run_nthCall B hB pre r r0 _ hin hwf hrun
  have ht0 : r0.d_track_stacks = false := by rw [run_track B pre r r0 _ hrun]; exact ht
  have hun := run_untracked B pre r r0 _ hrun ht
  have hit := iteration_encode B hB x hx r0 rest hin0
  refine ⟨r0, hin0, hcall, hun, ?_, ?_⟩
  · intro hf
    rw [hit]
    exact apply_feedsStacks B x _ ht0 hf
  · intro hrep
    obtain ⟨h1, h2, h3, _⟩ := hun
    cases x <;> simp only [report, Option.some.injEq] at hrep <;> try cases hrep
    · rename_i flags address size
      refine ⟨processAllocationRecord { address := address, size := size, allocator := flags }
        { r0 with d_input := rest }, by rw [nextRecord_eq, hit]; rfl, rfl, ?_, rfl, h1, h2, ?_⟩
      · simp only [processAllocationRecord, ht0, Bool.false_eq_true, if_false]
      · simp only [processAllocationRecord, touchStack, ht0, Bool.false_eq_true, if_false, h3]
    · rename_i flags address size nf
      refine ⟨processNativeAllocationRecord
        { address := address, size := size, allocator := flags, native_frame_id := nf }
        { r0 with d_input := rest }, by rw [nextRecord_eq, hit]; rfl, rfl, ?_, ?_, h1, h2, ?_⟩
      · simp only [processNativeAllocationRecord, ht0, Bool.false_eq_true, if_false]
      · simp only [processNativeAllocationRecord, ht0, Bool.false_eq_true, if_false]
      · simp only [processNativeAllocationRecord, touchStack, ht0, Bool.false_eq_true, if_false,
          h3]

/-- C20 on the stream FRAME_INDEX, FRAME_PUSH, NATIVE_TRACE_INDEX, ALLOCATION_WITH_NATIVE
read with stack tracking disabled: the NATIVE_TRACE_INDEX record is skipped, and the
allocation records frame index 0 and native frame id 0. -/
theorem tracking_disabled_discards_witness :
    (∃ r0, iteration (build64 false) r0 =
        .again { r0 with d_input :=
          (build64 false).encode (.allocationWithNative 1 57005 8 1) } ∧
      r0.d_frame_map = [] ∧ r0.d_native_frames = [] ∧ r0.d_stack_traces = []) ∧
    (∃ r1, nthCall (build64 false) 0
        (freshReader false ((build64 false).encodeBody
          [.frameIndex 5 [102] [97, 46, 99] 10, .framePush 5, .nativeTraceIndex 4096 0,
           .allocationWithNative 1 57005 8 1])) = some (.returned .ALLOCATION_RECORD r1) ∧
      r1.d_latest_allocation.frame_index = 0 ∧ r1.d_latest_allocation.native_frame_id = 0 ∧
      r1.d_frame_map = [] ∧ r1.d_native_frames = [] ∧ r1.d_stack_traces = []) := by
  constructor
  · obtain ⟨r0, _, _, ⟨h1, h2, h3, _⟩, h4, _⟩ :=
      tracking_disabled_discards (build64 false) (build64_WF false)
        [.frameIndex 5 [102] [97, 46, 99] 10, .framePush 5] (.nativeTraceIndex 4096 0)
        (freshReader false ((build64 false).encodeBody
          [.frameIndex 5 [102] [97, 46, 99] 10, .framePush 5, .nativeTraceIndex 4096 0,
           .allocationWithNative 1 57005 8 1]))
        ((build64 false).encode (.allocationWithNative 1 57005 8 1)) rfl
        (by
          intro rec hrec
          simp only [List.mem_cons, List.mem_singleton, List.not_mem_nil, or_false] at hrec
          rcases hrec with h | h <;> subst h <;> simp [Record.WF, build64])
        (by simp [Record.WF])
        (by decide)
    exact ⟨r0, h4 rfl, h1, h2, h3⟩
  · obtain ⟨r0, _, hcall, _, _, h5⟩ :=
      tracking_disabled_discards (build64 false) (build64_WF false)
        [.frameIndex 5 [102] [97, 46, 99] 10, .framePush 5, .nativeTraceIndex 4096 0]
        (.allocationWithNative 1 57005 8 1)
        (freshReader false ((build64 false).encodeBody
          [.frameIndex 5 [102] [97, 46, 99] 10, .framePush 5, .nativeTraceIndex 4096 0,
           .allocationWithNative 1 57005 8 1])) [] rfl
        (by
          intro rec hrec
          simp only [List.mem_cons, List.mem_singleton, List.not_mem_nil, or_false] at hrec
          rcases hrec with h | h | h <;> subst h <;> simp [Record.WF, build64])
        (by simp [Record.WF, build64])
        (by decide)
    obtain ⟨r1, g1, _, g3, g4, g5, g6, g7⟩ := h5 rfl
    have h0 := hcall 0
    exact ⟨r1, h0.trans (congrArg some g1), g3, g4, g5, g6, g7⟩

end Memray

namespace Memray

/-! ## Ten-byte varints -/

theorem varintValue_append (bs : List Byte) (b : Byte) :
    varintValue (bs ++ [b]) = varintValue bs + 128 ^ bs.length * (b.val &&& 0x7f) := by
  induction bs with
  | nil => simp [varintValue]
  | cons c bs ih =>
    rw [List.cons_append, varintValue, varintValue, ih, List.length_cons]
    ring

theorem varintValue_lt (bs : List Byte) : varintValue bs < 128 ^ bs.length := by
  induction bs with
  | nil => simp [varintValue]
  | cons c bs ih =>
    simp only [varintValue, List.length_cons, payload_eq_mod]
    have := Nat.mod_lt c.val (show 0 < 128 by decide)
    rw [pow_succ]
    omega

theorem tenth_byte_mod (v p : Nat) (hv : v < 2 ^ 63) :
    (v + 2 ^ 63 * p) % 2 ^ 64 = v + 2 ^ 63 * (p % 2) := by
  omega

/-- C24: on ten bytes of which the first nine have the high bit set and the tenth has it
clear, `readVarint` succeeds whatever the payload of the tenth byte is, consumes the ten
bytes and returns the value they spell modulo `2 ^ 64`, to which only bit 0 of the tenth
byte contributes; so two such encodings that differ only in the higher bits of the tenth
byte decode to the same value. -/
theorem varint_tenth_byte (bs : List Byte) (b : Byte) (rest : List Byte)
    (hl : bs.length = 9) (hbs : ∀ c ∈ bs, 128 ≤ c.val) (hb : b.val < 128) :
    readVarint (bs ++ b :: rest) = some (varintValue (bs ++ [b]) % 2 ^ 64, rest) ∧
      varintValue (bs ++ [b]) % 2 ^ 64 = varintValue bs + 2 ^ 63 * (b.val % 2) ∧
      varintValue bs + 2 ^ 63 * (b.val % 2) < 2 ^ 64 ∧
      (∀ b1 : Byte, b1.val < 128 → b1.val % 2 = b.val % 2 →
        readVarint (bs ++ b1 :: rest) = readVarint (bs ++ b :: rest)) ∧
      ∃ b1 : Byte, b1 ≠ b ∧ b1.val < 128 ∧
        readVarint (bs ++ b1 :: rest) = readVarint (bs ++ b :: rest) := by
  have hv : varintValue bs < 2 ^ 63 := by
    have := varintValue_lt bs
    rw [hl] at this
    exact this
  have hval : ∀ c : Byte, c.val < 128 →
      varintValue (bs ++ [c]) % 2 ^ 64 = varintValue bs + 2 ^ 63 * (c.val % 2) := by
    intro c hc
    rw [varintValue_append, hl, payload_eq_mod, Nat.mod_eq_of_lt hc]
    exact tenth_byte_mod _ _ hv
  have hread : ∀ c : Byte, c.val < 128 →
      readVarint (bs ++ c :: rest) = some (varintValue (bs ++ [c]) % 2 ^ 64, rest) := by
    intro c hc
    unfold readVarint
    rw [readVarintLoop_spec bs c rest 0 0 hbs hc (by omega) (by simp)]
    simp
  have hsame : ∀ b1 : Byte, b1.val < 128 → b1.val % 2 = b.val % 2 →
      readVarint (bs ++ b1 :: rest) = readVarint (bs ++ b :: rest) := by
    intro b1 hb1 hmod
    rw [hread b1 hb1, hread b hb, hval b1 hb1, hval b hb, hmod]
  refine ⟨hread b hb, hval b hb, ?_, hsame, ?_⟩
  · have := Nat.mod_lt b.val (show 0 < 2 by decide)
    omega
  · by_cases h126 : b.val < 126
    · refine ⟨⟨b.val + 2, by omega⟩, ?_, ?_, hsame _ ?_ ?_⟩
      · intro h
        have := congrArg Fin.val h
        simp only at this
        omega
      · show b.val + 2 < 128
        omega
      · show b.val + 2 < 128
        omega
      · show (b.val + 2) % 2 = b.val % 2
        omega
    · refine ⟨⟨b.val - 2, by omega⟩, ?_, ?_, hsame _ ?_ ?_⟩
      · intro h
        have := congrArg Fin.val h
        simp only at this
        omega
      · show b.val - 2 < 128
        omega
      · show b.val - 2 < 128
        omega
      · show (b.val - 2) % 2 = b.val % 2
        omega

/-- C24 on nine bytes `0x80` followed by `0x03` (which spells `3 * 2 ^ 63`): the value
returned is `2 ^ 63`, the one returned for nine bytes `0x80` followed by `0x01`. -/
theorem varint_tenth_byte_witness :
    readVarint ([128, 128, 128, 128, 128, 128, 128, 128, 128] ++ 3 :: [255]) =
        some (2 ^ 63, [255]) ∧
      readVarint ([128, 128, 128, 128, 128, 128, 128, 128, 128] ++ 1 :: [255]) =
        readVarint ([128, 128, 128, 128, 128, 128, 128, 128, 128] ++ 3 :: [255]) := by
  have h := varint_tenth_byte [128, 128, 128, 128, 128, 128, 128, 128, 128] 3 [255] rfl
    (by
      intro c hc
      simp only [List.mem_cons, List.mem_singleton, List.not_mem_nil, or_false, or_self] at hc
      subst hc
      decide)
    (by decide)
  refine ⟨?_, h.2.2.2.1 1 (by decide) (by decide)⟩
  rw [h.1, h.2.1]
  decide

end Memray

namespace Memray

/-! ## `FRAME_POP` within the depth of the stack -/

/-- C21 (amended): with stack tracking enabled, a `FRAME_POP` of `count` frames met when
the stack of the current thread holds at least `count` frames and, where `assert` is
compiled in, at least one frame (which only adds something when `count` is 0), is
processed: `processFramePop` returns, the loop of `nextRecord` goes round, the stack of
the current thread is the previous one without its last `count` entries, the stacks of
the other threads are as they were, and nothing else in the reader changes. -/
theorem frame_pop_within_depth (B : Build) (hB : B.WF) (count : Nat) (r : Reader)
    (rest : List Byte) (ht : r.d_track_stacks = true)
    (hc : count < 256 ^ B.sizeof_FramePop)
    (hd : count ≤ (r.stackOf r.d_current_thread).length)
    (ha : B.ndebug = false → 0 < (r.stackOf r.d_current_thread).length)
    (hin : r.d_input = B.encode (.framePop count) ++ rest) :
    ∃ traces,
      processFramePop B count { r with d_input := rest } =
        .ok { r with d_input := rest, d_stack_traces := traces } ∧
      iteration B r = .again { r with d_input := rest, d_stack_traces := traces } ∧
      (mapFind traces r.d_current_thread).getD [] =
        (r.stackOf r.d_current_thread).take
          ((r.stackOf r.d_current_thread).length - count) ∧
      ∀ t, t ≠ r.d_current_thread → (mapFind traces t).getD [] = r.stackOf t := by
  have hne : B.ndebug = false →
      ({ r with d_input := rest } : Reader).stackOf r.d_current_thread ≠ [] := by
    intro hn h0
    have := ha hn
    have h1 : r.stackOf r.d_current_thread = [] := h0
    rw [h1] at this
    exact Nat.lt_irrefl _ this
  obtain ⟨traces, hok, hst⟩ := processFramePop_ok B count { r with d_input := rest } ht hd hne
  have hit := iteration_encode B hB (.framePop count) hc r rest hin
  simp only [Build.apply, hok] at hit
  refine ⟨traces, hok, hit, ?_, ?_⟩
  · have := hst r.d_current_thread
    simp only [if_true] at this
    exact this
  · intro t hne
    have := hst t
    simp only [hne, if_false] at this
    exact this

/-- C21 as amended, on a thread whose stack holds the three frames 1, 2, 3: after
`FRAME_POP 2` the stack holds frame 1. -/
theorem frame_pop_within_depth_witness :
    ∃ traces,
      processFramePop (build64 false) 2
          { freshReader true [] with
            d_current_thread := 4
            d_stack_traces := [(4, [1, 2, 3]), (5, [2])] } =
        .ok { freshReader true [] with
              d_current_thread := 4
              d_stack_traces := traces } ∧
      (mapFind traces 4).getD [] = [1] ∧ (mapFind traces 5).getD [] = [2] := by
  obtain ⟨traces, h1, _, h3, h4⟩ :=
    frame_pop_within_depth (build64 false) (build64_WF false) 2
      { freshReader true ((build64 false).encode (.framePop 2)) with
        d_current_thread := 4
        d_stack_traces := [(4, [1, 2, 3]), (5, [2])] }
      [] rfl (by decide) (by decide) (fun _ => by decide) (by decide)
  exact ⟨traces, h1, h3, h4 5 (by decide)⟩

/-- C21 as stated fails where `assert` is compiled in: `FRAME_POP 0` on a thread whose
stack is empty meets the precondition (depth 0 ≥ 0), yet the assertion
`!d_stack_traces[tid].empty()` fails, in `processFramePop` and so in `nextRecord`. -/
theorem frame_pop_within_depth_counterexample :
    0 ≤ ((freshReader true []).stackOf (freshReader true []).d_current_thread).length ∧
      processFramePop (build64 false) 0 (freshReader true []) = .error .aborted ∧
      nextRecord (build64 false)
        (freshReader true ((build64 false).encode (.framePop 0))) = .aborted :=
  ⟨by decide, rfl, by decide⟩

end Memray

namespace Memray

/-! ## A record that cannot be parsed -/

theorem afterVarint_length (s : List Byte) : (afterVarint s).length ≤ s.length := by
  unfold afterVarint
  split
  · simp
  · simp

theorem afterWordVarint_length (s : List Byte) : (afterWordVarint s).length ≤ s.length := by
  unfold afterWordVarint
  split
  · simp
  · rename_i v s1 h
    have h1 := (consumes_read sizeof_size_t).length_le h
    have h2 := afterVarint_length s1
    omega

theorem afterWordVarintVarint_length (s : List Byte) :
    (afterWordVarintVarint s).length ≤ s.length := by
  unfold afterWordVarintVarint
  split
  · simp
  · rename_i v s1 h
    have h1 := (consumes_read sizeof_size_t).length_le h
    split
    · have h2 := afterVarint_length s1
      omega
    · rename_i x s2 h3
      have h4 := consumes_readVarint.length_le h3
      have h2 := afterVarint_length s2
      omega

theorem processSegmentHeader_false (B : Build) (filename : List Byte) (n addr : Nat)
    (r r1 : Reader) (h : processSegmentHeader B filename n addr r = .ok (false, r1)) :
    ∃ s, r1 = { r with d_input := s } ∧ s.length ≤ r.d_input.length := by
  have hl := segmentLoop_length B r.d_track_stacks n
    (List.replicate n ({ vaddr := 0, memsz := 0 } : Segment)) r.d_input
  unfold processSegmentHeader at h
  split at h
  · cases h
  · cases hsl : segmentLoop B r.d_track_stacks n
        (List.replicate n ({ vaddr := 0, memsz := 0 } : Segment)) r.d_input with
    | mk res s =>
      rw [hsl] at hl
      simp only [hsl] at h
      cases res with
      | none =>
        simp only [Except.ok.injEq, Prod.mk.injEq, true_and] at h
        exact ⟨s, h.symm, hl⟩
      | some segs =>
        dsimp only at h
        split at h <;> simp at h

/-- An iteration of the loop of `nextRecord` that ends the call with `ERROR` leaves the
reader as it found it, but for the source, of which it has read at least the header
byte. -/
theorem iteration_error (B : Build) (r r1 : Reader)
    (h : iteration B r = .done (.returned .ERROR r1)) :
    ∃ s, r1 = { r with d_input := s } ∧ s.length < r.d_input.length := by
  unfold iteration at h
  cases hin : r.d_input with
  | nil =>
    rw [hin] at h
    cases h
  | cons hdr rest =>
    rw [hin] at h
    dsimp only at h
    simp only [List.length_cons, Nat.lt_succ_iff]
    by_cases c1 : B.typeOf hdr = B.tag .UNINITIALIZED
    · rw [if_pos c1] at h
      cases h
    rw [if_neg c1] at h
    by_cases c2 : B.typeOf hdr = B.tag .ALLOCATION
    · rw [if_pos c2] at h
      split at h <;> cases h
      exact ⟨_, rfl, afterWordVarint_length rest⟩
    rw [if_neg c2] at h
    by_cases c3 : B.typeOf hdr = B.tag .ALLOCATION_WITH_NATIVE
    · rw [if_pos c3] at h
      split at h <;> cases h
      exact ⟨_, rfl, afterWordVarintVarint_length rest⟩
    rw [if_neg c3] at h
    by_cases c4 : B.typeOf hdr = B.tag .MEMORY_RECORD
    · rw [if_pos c4] at h
      split at h <;> cases h
      exact ⟨[], rfl, Nat.zero_le _⟩
    rw [if_neg c4] at h
    by_cases c5 : B.typeOf hdr = B.tag .CONTEXT_SWITCH
    · rw [if_pos c5] at h
      split at h <;> cases h
      exact ⟨[], rfl, Nat.zero_le _⟩
    rw [if_neg c5] at h
    by_cases c6 : B.typeOf hdr = B.tag .FRAME_PUSH
    · rw [if_pos c6] at h
      split at h <;> cases h
      exact ⟨[], rfl, Nat.zero_le _⟩
    rw [if_neg c6] at h
    by_cases c7 : B.typeOf hdr = B.tag .FRAME_POP
    · rw [if_pos c7] at h
      split at h
      · cases h
        exact ⟨[], rfl, Nat.zero_le _⟩
      · split at h
        · cases h
        · rename_i hq
          cases h
          have := processFramePop_error B _ _ _ hq
          cases this
    rw [if_neg c7] at h
    by_cases c8 : B.typeOf hdr = B.tag .FRAME_INDEX
    · rw [if_pos c8] at h
      split at h
      · cases h
        exact ⟨[], rfl, Nat.zero_le _⟩
      · split at h
        · cases h
        · rename_i hq
          cases h
          have := processFrameIndex_error _ _ _ hq
          cases this
    rw [if_neg c8] at h
    by_cases c9 : B.typeOf hdr = B.tag .NATIVE_TRACE_INDEX
    · rw [if_pos c9] at h
      split at h <;> cases h
      exact ⟨_, rfl, afterWordVarint_length rest⟩
    rw [if_neg c9] at h
    by_cases c10 : B.typeOf hdr = B.tag .MEMORY_MAP_START
    · rw [if_pos c10] at h
      cases h
    rw [if_neg c10] at h
    by_cases c11 : B.typeOf hdr = B.tag .SEGMENT_HEADER
    · rw [if_pos c11] at h
      split at h
      · cases h
        exact ⟨[], rfl, Nat.zero_le _⟩
      · rename_i filename num_segments addr s hp
        have hl := consumes_parseSegmentHeader.length_le hp
        split at h
        · cases h
        · rename_i r2 hq
          cases h
          obtain ⟨s2, hr, hs⟩ := processSegmentHeader_false B _ _ _ _ _ hq
          refine ⟨s2, hr, ?_⟩
          simp only at hs
          omega
        · rename_i hq
          have hthrew := (processSegmentHeader_error B _ _ _ _ _ hq).2
          rw [hthrew] at h
          cases h
    rw [if_neg c11] at h
    by_cases c12 : B.typeOf hdr = B.tag .THREAD_RECORD
    · rw [if_pos c12] at h
      split at h <;> cases h
      exact ⟨[], rfl, Nat.zero_le _⟩
    rw [if_neg c12] at h
    cases h
    exact ⟨rest, rfl, Nat.le_refl _⟩

/-- C22: when `nextRecord` returns `ERROR`, the reader it leaves differs only in the
source from the reader `r0` that the complete records absorbed by the call had left
(`silentRun`; the reader at the call when there was none): current thread, per-thread
stacks, frame dictionary, frame tree, native-frame list, thread names, latest
allocation, latest memory record and the resolver with the calls it has received are
those of `r0`. The source has moved on by at least the header byte of the failed
record. -/
theorem failed_record_is_atomic (B : Build) (r r1 : Reader)
    (h : nextRecord B r = .returned .ERROR r1) :
    ∃ n r0, silentRun B n r = some r0 ∧ iteration B r0 = .done (.returned .ERROR r1) ∧
      r1 = { r0 with d_input := r1.d_input } ∧
      r1.d_input.length < r0.d_input.length := by
  generalize hn : r.d_input.length = n
  induction n using Nat.strong_induction_on generalizing r with
  | _ n ih =>
    rw [nextRecord_eq] at h
    cases hit : iteration B r with
    | again r2 =>
      rw [hit] at h
      have hl := iteration_again_length B r r2 hit
      obtain ⟨m, r0, hm, hrest⟩ := ih _ (by rw [← hn]; exact hl) r2 h rfl
      exact ⟨m + 1, r0, by simp only [silentRun, hit, hm], hrest⟩
    | done o =>
      rw [hit] at h
      simp only at h
      subst h
      obtain ⟨s, hr, hs⟩ := iteration_error B r r1 hit
      refine ⟨0, r, rfl, hit, ?_, ?_⟩
      · rw [hr]
      · rw [hr]
        exact hs

/-- C22 on the stream CONTEXT_SWITCH 7, THREAD_RECORD "a", then the first three bytes of
an ALLOCATION record: `nextRecord` returns `ERROR`, and the reader has thread 7 as the
current thread and its name "a", as the two complete records left it. -/
theorem failed_record_is_atomic_witness :
    ∃ n r0, silentRun (build64 false) n
        (freshReader true ((build64 false).encodeBody [.contextSwitch 7, .threadRecord [97]] ++
          ((build64 false).encode (.allocation 1 57005 8)).take 3)) = some r0 ∧
      iteration (build64 false) r0 =
        .done (.returned .ERROR
          { freshReader true [] with d_current_thread := 7, d_thread_names := [(7, [97])] }) ∧
      ({ freshReader true [] with d_current_thread := 7, d_thread_names := [(7, [97])] } :
          Reader) =
        { r0 with d_input := [] } ∧
      0 < r0.d_input.length :=
  failed_record_is_atomic (build64 false)
    (freshReader true ((build64 false).encodeBody [.contextSwitch 7, .threadRecord [97]] ++
      ((build64 false).encode (.allocation 1 57005 8)).take 3))
    { freshReader true [] with d_current_thread := 7, d_thread_names := [(7, [97])] }
    (by decide)

end Memray

namespace Memray

/-! ## The stacks of the other threads -/

theorem popLoop_other (tid : Nat) (count : Nat) :
    ∀ (traces traces1 : List (Nat × List Nat)), popLoop tid count traces = some traces1 →
      ∀ t, t ≠ tid → mapFind traces1 t = mapFind traces t := by
  induction count with
  | zero =>
    intro traces traces1 h t _
    simp only [popLoop, Option.some.injEq] at h
    rw [← h]
  | succ count ih =>
    intro traces traces1 h t ht
    unfold popLoop at h
    split at h
    · cases h
    · rw [ih _ _ h t ht, mapFind_mapSet, if_neg ht]

theorem processFramePush_other (frame_id : Nat) (r : Reader) (t : Nat)
    (ht : t ≠ r.d_current_thread) :
    (processFramePush frame_id r).stackOf t = r.stackOf t ∧
      (processFramePush frame_id r).d_current_thread = r.d_current_thread := by
  cases htr : r.d_track_stacks with
  | false =>
    unfold processFramePush
    simp only [htr, Bool.not_false, if_true, and_self]
  | true =>
    rw [processFramePush_stackOf _ _ htr, if_neg ht, processFramePush_eq _ _ htr]
    exact ⟨rfl, rfl⟩

theorem processFramePop_other (B : Build) (count : Nat) (r r1 : Reader)
    (h : processFramePop B count r = .ok r1) (t : Nat) (ht : t ≠ r.d_current_thread) :
    r1.stackOf t = r.stackOf t ∧ r1.d_current_thread = r.d_current_thread := by
  unfold processFramePop at h
  split at h
  · cases h
    exact ⟨rfl, rfl⟩
  · dsimp only at h
    split at h
    · cases h
    · split at h
      · cases h
      · rename_i traces hp
        cases h
        refine ⟨?_, rfl⟩
        unfold Reader.stackOf
        simp only [popLoop_other _ _ _ _ hp t ht]

theorem stackOps_frameIds (ops : List Record)
    (hops : ∀ rec ∈ ops, (∃ f, rec = .framePush f) ∨ (∃ c, rec = .framePop c)) :
    frameIds ops = [] ∧ ops.filterMap report = [] := by
  induction ops with
  | nil => exact ⟨rfl, rfl⟩
  | cons rec ops ih =>
    obtain ⟨h1, h2⟩ := ih (fun x hx => hops x (List.mem_cons_of_mem _ hx))
    rcases hops rec (List.mem_cons_self _ _) with ⟨f, rfl⟩ | ⟨c, rfl⟩
    · exact ⟨by simp only [frameIds, h1], by simp only [List.filterMap_cons, report, h2]⟩
    · exact ⟨by simp only [frameIds, h1], by simp only [List.filterMap_cons, report, h2]⟩

theorem run_other (B : Build) (ops : List Record) :
    ∀ (r r0 : Reader) (tail : List Byte),
      (∀ rec ∈ ops, (∃ f, rec = .framePush f) ∨ (∃ c, rec = .framePop c)) →
      B.run ops tail r = some r0 →
      r0.d_current_thread = r.d_current_thread ∧
        ∀ t, t ≠ r.d_current_thread → r0.stackOf t = r.stackOf t := by
  induction ops with
  | nil =>
    intro r r0 tail _ h
    simp only [Build.run, Option.some.injEq] at h
    subst h
    exact ⟨rfl, fun _ _ => rfl⟩
  | cons rec ops ih =>
    intro r r0 tail hops h
    rw [run_cons] at h
    cases hn : (B.apply rec { r with d_input := B.encodeBody ops ++ tail }).next? with
    | none =>
      rw [hn] at h
      cases h
    | some r2 =>
      rw [hn] at h
      obtain ⟨hc, hst⟩ := ih r2 r0 tail (fun x hx => hops x (List.mem_cons_of_mem _ hx)) h
      have hstep : r2.d_current_thread = r.d_current_thread ∧
          ∀ t, t ≠ r.d_current_thread → r2.stackOf t = r.stackOf t := by
        rcases hops rec (List.mem_cons_self _ _) with ⟨f, rfl⟩ | ⟨c, rfl⟩
        · simp only [Build.apply, Iteration.next?, Option.some.injEq] at hn
          subst hn
          exact ⟨(processFramePush_other f _ (r.d_current_thread + 1) (by
              show r.d_current_thread + 1 ≠ r.d_current_thread
              omega)).2,
            fun t ht => (processFramePush_other f
              { r with d_input := B.encodeBody ops ++ tail } t ht).1⟩
        · simp only [Build.apply] at hn
          cases hp : processFramePop B c { r with d_input := B.encodeBody ops ++ tail } with
          | ok r3 =>
            rw [hp] at hn
            simp only [Iteration.next?, Option.some.injEq] at hn
            subst hn
            exact ⟨(processFramePop_other B c _ _ hp (r.d_current_thread + 1) (by
                show r.d_current_thread + 1 ≠ r.d_current_thread
                omega)).2,
              fun t ht => (processFramePop_other B c
                { r with d_input := B.encodeBody ops ++ tail } _ hp t ht).1⟩
          | error o =>
            rw [hp] at hn
            have := processFramePop_error B c _ o hp
            cases o <;> simp [Iteration.next?, Outcome.result?] at hn this
      refine ⟨hc.trans hstep.1, fun t ht => ?_⟩
      rw [hst t (by rw [hstep.1]; exact ht), hstep.2 t ht]

/-- A `CONTEXT_SWITCH` to `u` followed by an `ALLOCATION`: `nextRecord` returns
`ALLOCATION_RECORD`, the allocation being of thread `u` at the top of its stack. -/
theorem switch_then_allocation (B : Build) (hB : B.WF) (r : Reader) (u flags address size : Nat)
    (rest : List Byte) (hu : u < 256 ^ B.sizeof_thread_id)
    (ha : (Record.allocation flags address size).WF B)
    (hin : r.d_input = B.encode (.contextSwitch u) ++
      (B.encode (.allocation flags address size) ++ rest)) :
    ∃ r1, nextRecord B r = .returned .ALLOCATION_RECORD r1 ∧
      r1.d_latest_allocation =
        { tid := u, address := address, size := size, allocator := flags,
          native_frame_id := 0,
          frame_index := if r.d_track_stacks then stackTop (r.stackOf u) else 0,
          native_segment_generation := 0, n_allocations := 1 } := by
  have h1 := iteration_encode B hB (.contextSwitch u) hu r _ hin
  simp only [Build.apply] at h1
  rw [nextRecord_eq, h1]
  simp only
  rw [nextRecord_allocation B hB _ flags address size rest ha.1 ha.2.1 ha.2.2 rfl]
  exact ⟨_, rfl, rfl⟩

/-- C23: `processFramePush` and `processFramePop`, when they return, leave the stack of
every thread other than the current one as it was. So after any number of `FRAME_PUSH`
and `FRAME_POP` records read while the current thread is `t` (none of them popping more
than the stack of `t` holds), a `CONTEXT_SWITCH` to another thread `u` and an
`ALLOCATION` give the latest allocation, its `frame_index` included, that they give
without these records: the one of thread `u` at the top of the stack `u` had. -/
theorem other_threads_untouched (B : Build) (hB : B.WF) (ops : List Record) (r : Reader)
    (u flags address size : Nat) (rest : List Byte) (hne : u ≠ r.d_current_thread)
    (hops : ∀ rec ∈ ops, (∃ f, rec = .framePush f) ∨ (∃ c, rec = .framePop c))
    (hwf : ∀ rec ∈ ops, rec.WF B) (hu : u < 256 ^ B.sizeof_thread_id)
    (ha : (Record.allocation flags address size).WF B)
    (hpops : r.d_track_stacks = true →
      popsOK B r.d_current_thread (fun t => (r.stackOf t).length) ops)
    (hin : r.d_input = B.encodeBody ops ++ (B.encode (.contextSwitch u) ++
      (B.encode (.allocation flags address size) ++ rest))) :
    (∀ (r0 : Reader) (t f : Nat), t ≠ r0.d_current_thread →
      (processFramePush f r0).stackOf t = r0.stackOf t) ∧
    (∀ (r0 r1 : Reader) (t c : Nat), t ≠ r0.d_current_thread →
      processFramePop B c r0 = .ok r1 → r1.stackOf t = r0.stackOf t) ∧
    ∃ r1 r2, nextRecord B r = .returned .ALLOCATION_RECORD r1 ∧
      nextRecord B { r with d_input := B.encode (.contextSwitch u) ++
        (B.encode (.allocation flags address size) ++ rest) } =
        .returned .ALLOCATION_RECORD r2 ∧
      r1.d_latest_allocation = r2.d_latest_allocation ∧
      r1.d_latest_allocation.tid = u ∧
      r1.d_latest_allocation.frame_index =
        if r.d_track_stacks then stackTop (r.stackOf u) else 0 := by
  refine ⟨fun r0 t f ht => (processFramePush_other f r0 t ht).1,
    fun r0 r1 t c ht h => (processFramePop_other B c r0 r1 h t ht).1, ?_⟩
  obtain ⟨hids, hrep⟩ := stackOps_frameIds ops hops
  obtain ⟨r0, hrun⟩ := run_ok_initial B ops r
    (B.encode (.contextSwitch u) ++ (B.encode (.allocation flags address size) ++ rest))
    (fun _ => by rw [hids]; exact ⟨List.nodup_nil, fun _ h => by cases h⟩) hpops
  obtain ⟨hin0, hcall⟩ := run_nthCall B hB ops r r0 _ hin hwf hrun
  obtain ⟨_, hst⟩ := run_other B ops r r0 _ hops hrun
  have htr := run_track B ops r r0 _ hrun
  have h0 := hcall 0
  rw [hrep] at h0
  simp only [List.length_nil, Nat.add_zero, nthCall, Option.some.injEq] at h0
  obtain ⟨r1, h1, hl1⟩ := switch_then_allocation B hB r0 u flags address size rest hu ha hin0
  obtain ⟨r2, h2, hl2⟩ := switch_then_allocation B hB
    { r with d_input := B.encode (.contextSwitch u) ++
      (B.encode (.allocation flags address size) ++ rest) } u flags address size rest hu ha rfl
  have hsame : r0.stackOf u = r.stackOf u := hst u hne
  rw [htr, hsame] at hl1
  refine ⟨r1, r2, h0.trans h1, h2, ?_, ?_, ?_⟩
  · rw [hl1, hl2]
    rfl
  · rw [hl1]
  · rw [hl1]

/-- C23 on a reader whose current thread is 1, thread 2 having the stack [1]: after
FRAME_PUSH 6, FRAME_PUSH 7, FRAME_POP 1 on thread 1, CONTEXT_SWITCH 2 and an ALLOCATION
record frame index 1 for thread 2. -/
theorem other_threads_untouched_witness :
    ∃ r1, nextRecord (build64 false)
        { freshReader true ((build64 false).encodeBody
            [.framePush 6, .framePush 7, .framePop 1, .contextSwitch 2,
             .allocation 1 57005 8]) with
          d_current_thread := 1
          d_stack_traces := [(2, [1])]
          d_tree := { nodes := [(0, 5)] } } = .returned .ALLOCATION_RECORD r1 ∧
      r1.d_latest_allocation.tid = 2 ∧ r1.d_latest_allocation.frame_index = 1 := by
  obtain ⟨_, _, r1, _, h1, _, _, h4, h5⟩ :=
    other_threads_untouched (build64 false) (build64_WF false)
      [.framePush 6, .framePush 7, .framePop 1]
      { freshReader true ((build64 false).encodeBody
          [.framePush 6, .framePush 7, .framePop 1, .contextSwitch 2,
           .allocation 1 57005 8]) with
        d_current_thread := 1
        d_stack_traces := [(2, [1])]
        d_tree := { nodes := [(0, 5)] } }
      2 1 57005 8 [] (by decide)
      (by
        intro rec hrec
        simp only [List.mem_cons, List.mem_singleton, List.not_mem_nil, or_false] at hrec
        rcases hrec with h | h | h
        · exact Or.inl ⟨_, h⟩
        · exact Or.inl ⟨_, h⟩
        · exact Or.inr ⟨_, h⟩)
      (by
        intro rec hrec
        simp only [List.mem_cons, List.mem_singleton, List.not_mem_nil, or_false] at hrec
        rcases hrec with h | h | h <;> subst h <;> simp [Record.WF, build64])
      (by decide)
      (by simp [Record.WF, build64])
      (fun _ => by simp [popsOK, Function.update, Reader.stackOf, mapFind])
      (by decide)
  exact ⟨r1, h1, h4, h5⟩

end Memray
